import Mathlib

/-!
# Toolpath assembly and G-code generation of the Iota slicer

A shallow embedding of `src/toolpath/IAToolpath.cpp`: the toolpath element
variants, the per-layer toolpath with its cursor and first anchor, the machine
toolpath with its layer map, and the serialisation of all of these into a
stream of writer commands.

Numbers: a C++ `double` is embedded as an exact rational (`Rat`), so the
development speaks about finite coordinates and exact arithmetic; an `int` is
embedded as an `Int`, with the 32 bit wrap of a cast written out.
-/

namespace Iota

/-! ## Data model -/

/-- Modelled from the spec: the vector class `IAVector3d` is declared in a header
that is not part of the sources; it is a point with three coordinates, and its
`==` / `!=` operators compare the three coordinates. -/
structure IAVector3d where
  x : Rat
  y : Rat
  z : Rat
deriving DecidableEq

/-- The Motion variant of a toolpath element: `pStart`, `pEnd`, `pIsRapid` as set by
the constructor `IAToolpathMotion(a, b, rapid)`, and the colour tag `pColor`.
Modelled from the spec: the declaration of `pColor` is in the absent header
`IAToolpath.h`; the spec calls it an optional colour tag, so `none` stands for the
value a Motion has when no colour was ever set on it. -/
structure IAToolpathMotion where
  pStart : IAVector3d
  pEnd : IAVector3d
  pIsRapid : Bool
  pColor : Option Nat
deriving DecidableEq

/-- The ExtruderChange variant: `IAToolpathExtruder(tool)` stores the tool index. -/
structure IAToolpathExtruder where
  pTool : Int
deriving DecidableEq

/-- A toolpath element is one of the two concrete subclasses of `IAToolpathElement`
that the program ever puts into a list. -/
inductive IAToolpathElement where
  | motion (m : IAToolpathMotion)
  | extruder (e : IAToolpathExtruder)
deriving DecidableEq

/-- The constructor `IAToolpathMotion::IAToolpathMotion(a, b, rapid)`. -/
def IAToolpathMotion.create (a b : IAVector3d) (rapid : Bool) : IAToolpathMotion :=
  { pStart := a, pEnd := b, pIsRapid := rapid, pColor := none }

/-- Modelled from the spec: the two argument form `IAToolpathMotion(a, b)` relies on
the default value of `rapid`, which is declared in the absent header; the spec says
`continuePath` and `closePath` append printing (non-rapid) Motions. -/
def IAToolpathMotion.create2 (a b : IAVector3d) : IAToolpathMotion :=
  IAToolpathMotion.create a b false

/-- Embedding of `IAToolpathMotion::clone`: a new Motion with the same start, end and rapid flag,
then the colour is copied. -/
def IAToolpathMotion.clone (m : IAToolpathMotion) : IAToolpathMotion :=
  { IAToolpathMotion.create m.pStart m.pEnd m.pIsRapid with pColor := m.pColor }

/-- Embedding of `IAToolpathExtruder::clone`. -/
def IAToolpathExtruder.clone (e : IAToolpathExtruder) : IAToolpathExtruder :=
  { pTool := e.pTool }

/-- The virtual `clone`, dispatched on the variant. -/
def IAToolpathElement.clone : IAToolpathElement → IAToolpathElement
  | .motion m => .motion m.clone
  | .extruder e => .extruder e.clone

/-- One toolpath: the element list `pList`, the first anchor `tFirst` and the cursor
`tPrev`. -/
structure IAToolpath where
  pList : List IAToolpathElement
  tFirst : IAVector3d
  tPrev : IAVector3d
deriving DecidableEq

/-- The constructor `IAToolpath::IAToolpath(z)`: an empty list, anchor and cursor at
`(0, 0, z)`. -/
def IAToolpath.new (z : Rat) : IAToolpath :=
  { pList := [], tFirst := ⟨0, 0, z⟩, tPrev := ⟨0, 0, z⟩ }

/-- Embedding of `IAToolpath::clear(z)`. -/
def IAToolpath.clear (_tp : IAToolpath) (z : Rat) : IAToolpath :=
  { pList := [], tFirst := ⟨0, 0, z⟩, tPrev := ⟨0, 0, z⟩ }

/-- Embedding of `IAToolpath::add(tp)`: push a clone of every element of `tp`, in order. -/
def IAToolpath.add (self tp : IAToolpath) : IAToolpath :=
  tp.pList.foldl (fun acc e => { acc with pList := acc.pList ++ [e.clone] }) self

/-- Embedding of `IAToolpath::startPath(x, y, z)`. -/
def IAToolpath.startPath (tp : IAToolpath) (x y z : Rat) : IAToolpath :=
  let next : IAVector3d := ⟨x, y, z⟩
  { pList := tp.pList ++ [.motion (IAToolpathMotion.create tp.tPrev next true)],
    tFirst := next,
    tPrev := next }

/-- Embedding of `IAToolpath::continuePath(x, y, z)`. -/
def IAToolpath.continuePath (tp : IAToolpath) (x y z : Rat) : IAToolpath :=
  let next : IAVector3d := ⟨x, y, z⟩
  { pList := if ¬ (tp.tPrev = next)
      then tp.pList ++ [.motion (IAToolpathMotion.create2 tp.tPrev next)]
      else tp.pList,
    tFirst := tp.tFirst,
    tPrev := next }

/-- Embedding of `IAToolpath::closePath()`: the cursor `tPrev` is not assigned. -/
def IAToolpath.closePath (tp : IAToolpath) : IAToolpath :=
  { pList := if ¬ (tp.tPrev = tp.tFirst)
      then tp.pList ++ [.motion (IAToolpathMotion.create2 tp.tPrev tp.tFirst)]
      else tp.pList,
    tFirst := tp.tFirst,
    tPrev := tp.tPrev }

/-- A run of `continuePath` calls, one per point of `ps`, in order. -/
def IAToolpath.continuePathAll (tp : IAToolpath) (ps : List IAVector3d) : IAToolpath :=
  ps.foldl (fun t p => t.continuePath p.x p.y p.z) tp

/-- The calls a client can make while it assembles a path. -/
inductive PathCall where
  | startPath (x y z : Rat)
  | continuePath (x y z : Rat)
  | closePath
deriving DecidableEq

/-- Run one call. -/
def IAToolpath.call (tp : IAToolpath) : PathCall → IAToolpath
  | .startPath x y z => tp.startPath x y z
  | .continuePath x y z => tp.continuePath x y z
  | .closePath => tp.closePath

/-- Run a sequence of calls, in order. -/
def IAToolpath.run (tp : IAToolpath) (cs : List PathCall) : IAToolpath :=
  cs.foldl IAToolpath.call tp

/-- The Motions of an element list, in list order. -/
def motionsOf : List IAToolpathElement → List IAToolpathMotion
  | [] => []
  | .motion m :: rest => m :: motionsOf rest
  | .extruder _ :: rest => motionsOf rest

/-- Every Motion starts where the Motion immediately before it ended. -/
def Connected (l : List IAToolpathElement) : Prop :=
  List.Chain' (fun a b => b.pStart = a.pEnd) (motionsOf l)

instance (l : List IAToolpathElement) : Decidable (Connected l) := by
  unfold Connected; infer_instance

/-! ## The G-code writer -/

/-- An argument of a printf style comment. -/
inductive FormatArg where
  | real (r : Rat)
  | int (i : Int)
deriving DecidableEq

/-- Modelled from the spec: the class `IAGcodeWriter` is not part of the sources.
Every call of one of its command methods is recorded as one command of the output
stream; a comment is recorded with its format string and its arguments. -/
inductive GCommand where
  | macroInit
  | macroShutdown
  | comment (format : String) (args : List FormatArg)
  | resetExtruder
  | selectExtruder (n : Int)
  | extrude (e : Rat)
  | extrudeRel (e : Rat)
  | rapidMove (p : IAVector3d)
  | rapidMoveXY (x y : Rat)
  | move (p : IAVector3d)
  | moveColor (p : IAVector3d) (color : Option Nat)
  | moveXY (x y : Rat)
deriving DecidableEq

/-- Modelled from the spec: the generator state of the absent class `IAGcodeWriter`:
whether the destination is open, the commands written so far (oldest first), the
last emitted position and the active tool. -/
structure IAGcodeWriter where
  isOpen : Bool
  out : List GCommand
  pPosition : IAVector3d
  pTool : Int
deriving DecidableEq

/-- Modelled from the spec: a writer as declared by `IAGcodeWriter w;`: nothing is
open, nothing is written, the generator starts at position `(0, 0, 0)` with tool 0. -/
def IAGcodeWriter.new : IAGcodeWriter :=
  { isOpen := false, out := [], pPosition := ⟨0, 0, 0⟩, pTool := 0 }

/-- Modelled from the spec: `open(filename)` succeeds exactly when the file system
`fs` lets the destination be opened, and writes no command. -/
def IAGcodeWriter.open (w : IAGcodeWriter) (fs : String → Bool) (filename : String) :
    Bool × IAGcodeWriter :=
  (fs filename, { w with isOpen := fs filename })

/-- Modelled from the spec: `close()` closes the destination and writes no command. -/
def IAGcodeWriter.close (w : IAGcodeWriter) : IAGcodeWriter :=
  { w with isOpen := false }

/-- Record one command at the end of the stream. -/
def IAGcodeWriter.emit (w : IAGcodeWriter) (c : GCommand) : IAGcodeWriter :=
  { w with out := w.out ++ [c] }

/-- Modelled from the spec: `macroInit()`, the header macro. -/
def IAGcodeWriter.macroInit (w : IAGcodeWriter) : IAGcodeWriter :=
  w.emit .macroInit

/-- Modelled from the spec: `macroShutdown()`, the trailing macro. -/
def IAGcodeWriter.macroShutdown (w : IAGcodeWriter) : IAGcodeWriter :=
  w.emit .macroShutdown

/-- Modelled from the spec: `cmdComment(format, ...)`, one comment line. -/
def IAGcodeWriter.cmdComment (w : IAGcodeWriter) (format : String) (args : List FormatArg) :
    IAGcodeWriter :=
  w.emit (.comment format args)

/-- Modelled from the spec: `cmdResetExtruder()`. -/
def IAGcodeWriter.cmdResetExtruder (w : IAGcodeWriter) : IAGcodeWriter :=
  w.emit .resetExtruder

/-- Modelled from the spec: `cmdSelectExtruder(n)` makes `n` the active tool. -/
def IAGcodeWriter.cmdSelectExtruder (w : IAGcodeWriter) (n : Int) : IAGcodeWriter :=
  { w.emit (.selectExtruder n) with pTool := n }

/-- Modelled from the spec: `cmdExtrude(e)`. -/
def IAGcodeWriter.cmdExtrude (w : IAGcodeWriter) (e : Rat) : IAGcodeWriter :=
  w.emit (.extrude e)

/-- Modelled from the spec: `cmdExtrudeRel(e)`. -/
def IAGcodeWriter.cmdExtrudeRel (w : IAGcodeWriter) (e : Rat) : IAGcodeWriter :=
  w.emit (.extrudeRel e)

/-- Modelled from the spec: `cmdRapidMove(v)` moves the generator to `v`. -/
def IAGcodeWriter.cmdRapidMove (w : IAGcodeWriter) (v : IAVector3d) : IAGcodeWriter :=
  { w.emit (.rapidMove v) with pPosition := v }

/-- Modelled from the spec: `cmdRapidMove(x, y)` moves the generator in the plane. -/
def IAGcodeWriter.cmdRapidMoveXY (w : IAGcodeWriter) (x y : Rat) : IAGcodeWriter :=
  { w.emit (.rapidMoveXY x y) with pPosition := ⟨x, y, w.pPosition.z⟩ }

/-- Modelled from the spec: `cmdMove(v)`, a controlled move of the generator to `v`. -/
def IAGcodeWriter.cmdMove (w : IAGcodeWriter) (v : IAVector3d) : IAGcodeWriter :=
  { w.emit (.move v) with pPosition := v }

/-- Modelled from the spec: `cmdMove(v, color)`, a controlled move tagged with a
colour. -/
def IAGcodeWriter.cmdMoveColor (w : IAGcodeWriter) (v : IAVector3d) (color : Option Nat) :
    IAGcodeWriter :=
  { w.emit (.moveColor v color) with pPosition := v }

/-- Modelled from the spec: `cmdMove(x, y)`, a controlled move in the plane. -/
def IAGcodeWriter.cmdMoveXY (w : IAGcodeWriter) (x y : Rat) : IAGcodeWriter :=
  { w.emit (.moveXY x y) with pPosition := ⟨x, y, w.pPosition.z⟩ }

/-- Modelled from the spec: `position()`, the last emitted position. -/
def IAGcodeWriter.position (w : IAGcodeWriter) : IAVector3d :=
  w.pPosition

/-! ## Serialisation of the elements -/

/-- Embedding of `IAToolpathExtruder::saveGCode`. -/
def IAToolpathExtruder.saveGCode (e : IAToolpathExtruder) (w : IAGcodeWriter) : IAGcodeWriter :=
  let w := w.cmdComment "" []
  let w := w.cmdComment "---- Change to extruder %d" [.int e.pTool]
  let otherTool : Int := 1 - e.pTool
  let w := w.cmdSelectExtruder otherTool
  let w := w.cmdResetExtruder
  let w := w.cmdExtrude (-4)
  let w := w.cmdSelectExtruder e.pTool
  let w := w.cmdResetExtruder
  let w := w.cmdExtrude 4
  let x : Int := if e.pTool ≠ 0 then 100 else 48
  let pw : Int := 20
  let w := w.cmdRapidMoveXY x 10
  let w := (List.range 4).foldl (fun w i =>
    let w := w.cmdMoveXY ((x + pw : Int) : Rat) (10 + (i : Rat))
    let w := w.cmdMoveXY ((x + pw : Int) : Rat) (10 + (i : Rat) + 1 / 2)
    let w := w.cmdMoveXY (x : Rat) (10 + (i : Rat) + 1 / 2)
    w.cmdMoveXY (x : Rat) (10 + (i : Rat) + 1)) w
  let w := w.cmdSelectExtruder e.pTool
  let w := w.cmdResetExtruder
  let w := w.cmdComment "Extruder %d ready" [.int e.pTool]
  w.cmdComment "" []

/-- Embedding of `IAToolpathMotion::saveGCode`. The preprocessor symbol `IA_QUAD` is defined
outside the sources, so it is the parameter `quad`: with it the relative extrusion
command and the coloured move are used, without it the plain ones. -/
def IAToolpathMotion.saveGCode (quad : Bool) (m : IAToolpathMotion) (w : IAGcodeWriter) :
    IAGcodeWriter :=
  if quad then
    if m.pIsRapid then
      let w := w.cmdExtrudeRel (-1)
      let w := w.cmdRapidMove m.pEnd
      w.cmdExtrudeRel 1
    else
      let w := if w.position ≠ m.pStart then
          let w := w.cmdExtrudeRel (-1)
          let w := w.cmdRapidMove m.pStart
          w.cmdExtrudeRel 1
        else w
      w.cmdMoveColor m.pEnd m.pColor
  else
    if m.pIsRapid then
      let w := w.cmdExtrude (-1)
      let w := w.cmdRapidMove m.pEnd
      w.cmdExtrude 1
    else
      let w := if w.position ≠ m.pStart then
          let w := w.cmdExtrude (-1)
          let w := w.cmdRapidMove m.pStart
          w.cmdExtrude 1
        else w
      w.cmdMove m.pEnd

/-- The virtual `saveGCode`, dispatched on the variant. -/
def IAToolpathElement.saveGCode (quad : Bool) :
    IAToolpathElement → IAGcodeWriter → IAGcodeWriter
  | .motion m, w => m.saveGCode quad w
  | .extruder e, w => e.saveGCode w

/-- Embedding of `IAToolpath::saveGCode`: one comment, then every element in list order. -/
def IAToolpath.saveGCode (quad : Bool) (tp : IAToolpath) (w : IAGcodeWriter) : IAGcodeWriter :=
  tp.pList.foldl (fun w p => p.saveGCode quad w) (w.cmdComment "Send generated toolpath..." [])

/-! ## The arithmetic of `double` -/

/-- Rounding to the nearest integer, halfway cases to the even one. -/
def roundHalfEven (q : Rat) : Int :=
  if q - ⌊q⌋ < 1 / 2 then ⌊q⌋
  else if 1 / 2 < q - ⌊q⌋ then ⌊q⌋ + 1
  else if ⌊q⌋ % 2 = 0 then ⌊q⌋ else ⌊q⌋ + 1

/-- The number of binary digits of `n` after the leading one, for `1 ≤ n ≤ fuel`. -/
def log2Nat : Nat → Nat → Nat
  | 0, _ => 0
  | fuel + 1, n => if n < 2 then 0 else log2Nat fuel (n / 2) + 1

/-- The binary exponent of `x`: the integer `e` with `2^e ≤ |x| < 2^(e+1)`, which is
`Int.log 2 |x|`, computed from the lengths of the numerator and of the denominator;
`0` for `x = 0`. -/
def binaryExponent (x : Rat) : Int :=
  if x = 0 then 0
  else if (2 : Rat) ^ ((log2Nat x.num.natAbs x.num.natAbs : Int) - (log2Nat x.den x.den : Int)) ≤ |x|
  then (log2Nat x.num.natAbs x.num.natAbs : Int) - (log2Nat x.den x.den : Int)
  else (log2Nat x.num.natAbs x.num.natAbs : Int) - (log2Nat x.den x.den : Int) - 1

/-- The exponent of the spacing of the values of type `double` around `x`: 52 binary
digits below the leading digit of `x`, and never below the spacing `2^-1074` of the
smallest values. -/
def ulpExp (x : Rat) : Int :=
  max (binaryExponent x - 52) (-1074)

/-- The value of type `double` (IEEE 754 binary64) that a result `x` is rounded to, as
the rational number that it is: the nearest multiple of the spacing around `x`,
halfway cases to the even multiple. Results of a magnitude of `2^1024` or more, which
the machine replaces by an infinity, are not modelled. -/
@[irreducible] def fl (x : Rat) : Rat :=
  (roundHalfEven (x / 2 ^ ulpExp x) : Rat) * 2 ^ ulpExp x

/-! ## The machine toolpath -/

/-- The C library function `lround` on an exact value: the nearest integer, halfway
cases away from zero. -/
def lround (x : Rat) : Int :=
  if 0 ≤ x then ⌊x + 1 / 2⌋ else ⌈x - 1 / 2⌉

/-- The cast `(int)` of a `long`: the value is kept when it fits into 32 bits and
wraps around otherwise. -/
def toInt32 (n : Int) : Int :=
  (n + 2 ^ 31) % 2 ^ 32 - 2 ^ 31

/-- Embedding of `IAMachineToolpath::roundLayerNumber`: `(int)lround(z*1000.0)`; the
product is a `double`. -/
@[irreducible] def roundLayerNumber (z : Rat) : Int :=
  toInt32 (lround (fl (z * 1000)))

/-- Embedding of `std::map::find` on the entries of a map, which are kept in ascending key order;
`none` is `end()`. -/
def mapFind (k : Int) : List (Int × Nat) → Option Nat
  | [] => none
  | (k1, v1) :: rest => if k1 = k then some v1 else mapFind k rest

/-- Embedding of `std::map::insert`: the entry goes to its place in ascending key order, and a key
that is already present keeps its old entry. -/
def mapInsert (k : Int) (v : Nat) : List (Int × Nat) → List (Int × Nat)
  | [] => [(k, v)]
  | (k1, v1) :: rest =>
    if k < k1 then (k, v) :: (k1, v1) :: rest
    else if k = k1 then (k1, v1) :: rest
    else (k1, v1) :: mapInsert k v rest

/-- Embedding of `std::map::erase(key)`. -/
def mapErase (k : Int) : List (Int × Nat) → List (Int × Nat)
  | [] => []
  | (k1, v1) :: rest => if k1 = k then mapErase k rest else (k1, v1) :: mapErase k rest

/-- The machine toolpath. A pointer `IAToolpath*` is the address of a toolpath object
in `store`, the objects created by `new IAToolpath` in creation order (the address is
the index); `nullptr` is `none`. `pLayerMap` is the `std::map` from layer key to
toolpath, as its entries in iteration order. -/
structure IAMachineToolpath where
  store : List IAToolpath
  pStartupPath : Option Nat
  pLayerMap : List (Int × Nat)
  pShutdownPath : Option Nat

/-- Embedding of `IAMachineToolpath::IAMachineToolpath()`: no layers, no startup and no shutdown
path. -/
def IAMachineToolpath.new : IAMachineToolpath :=
  { store := [], pStartupPath := none, pLayerMap := [], pShutdownPath := none }

/-- Embedding of `IAMachineToolpath::findLayer(z)`. -/
def IAMachineToolpath.findLayer (m : IAMachineToolpath) (z : Rat) : Option Nat :=
  let layer := roundLayerNumber z
  mapFind layer m.pLayerMap

/-- Embedding of `IAMachineToolpath::createLayer(z)`: the new machine toolpath and the returned
pointer. -/
def IAMachineToolpath.createLayer (m : IAMachineToolpath) (z : Rat) : IAMachineToolpath × Nat :=
  let layer := roundLayerNumber z
  match mapFind layer m.pLayerMap with
  | none =>
    let tp := m.store.length
    ({ m with store := m.store ++ [IAToolpath.new z],
              pLayerMap := mapInsert layer tp m.pLayerMap }, tp)
  | some p => (m, p)

/-- Embedding of `IAMachineToolpath::deleteLayer(z)`: the entry leaves the map. -/
def IAMachineToolpath.deleteLayer (m : IAMachineToolpath) (z : Rat) : IAMachineToolpath :=
  let layer := roundLayerNumber z
  { m with pLayerMap := mapErase layer m.pLayerMap }

/-- A client works on the toolpath object behind the pointer `p` (by `startPath`,
`add`, ...): the object at that address is replaced by `f` of it. -/
def IAMachineToolpath.modify (m : IAMachineToolpath) (p : Nat) (f : IAToolpath → IAToolpath) :
    IAMachineToolpath :=
  { m with store := m.store.modify f p }

/-- Embedding of `p->saveGCode(w)` for a pointer `p` into the store. -/
def IAMachineToolpath.savePath (quad : Bool) (m : IAMachineToolpath) (p : Nat)
    (w : IAGcodeWriter) : IAGcodeWriter :=
  match m.store[p]? with
  | some tp => tp.saveGCode quad w
  | none => w

/-- Embedding of `if (p) p->saveGCode(w)` for an optional path. -/
def IAMachineToolpath.saveOptional (quad : Bool) (m : IAMachineToolpath) (p : Option Nat)
    (w : IAGcodeWriter) : IAGcodeWriter :=
  match p with
  | some a => m.savePath quad a w
  | none => w

/-- The body of the loop `for (auto p: pLayerMap)` in `IAMachineToolpath::saveGCode`,
for the map entry `p`. -/
def IAMachineToolpath.saveLayer (quad : Bool) (m : IAMachineToolpath) (w : IAGcodeWriter)
    (p : Int × Nat) : IAGcodeWriter :=
  let w := w.cmdComment "" []
  let w := w.cmdComment "==== layer at z=%g" [.real ((p.1 : Rat) / 1000)]
  let w := w.cmdComment "" []
  let w := w.cmdResetExtruder
  m.savePath quad p.2 w

/-- Embedding of `IAMachineToolpath::saveGCode(filename)`: the returned flag and the writer `w` at
the end of the call. `fs` tells which destinations can be opened. -/
def IAMachineToolpath.saveGCode (quad : Bool) (fs : String → Bool) (m : IAMachineToolpath)
    (filename : String) : Bool × IAGcodeWriter :=
  let w := IAGcodeWriter.new
  let (opened, w) := w.open fs filename
  if opened then
    let w := w.macroInit
    let w := m.saveOptional quad m.pStartupPath w
    let w := m.pLayerMap.foldl (m.saveLayer quad) w
    let w := m.saveOptional quad m.pShutdownPath w
    let w := w.macroShutdown
    let w := w.close
    (true, w)
  else
    (false, w)

/-- What the rest of the program does with a machine toolpath between its creation
and code generation. -/
inductive MachineCall where
  | createLayer (z : Rat)
  | deleteLayer (z : Rat)
  | modify (p : Nat) (f : IAToolpath → IAToolpath)

/-- Run one call. -/
def IAMachineToolpath.call (m : IAMachineToolpath) : MachineCall → IAMachineToolpath
  | .createLayer z => (m.createLayer z).1
  | .deleteLayer z => m.deleteLayer z
  | .modify p f => m.modify p f

/-- Run a sequence of calls, in order. -/
def IAMachineToolpath.run (m : IAMachineToolpath) (cs : List MachineCall) : IAMachineToolpath :=
  cs.foldl IAMachineToolpath.call m

/-! ## The command stream, as the specification words it -/

/-- The commands that running `f` on the writer `w` adds to the stream. -/
def emitted (f : IAGcodeWriter → IAGcodeWriter) (w : IAGcodeWriter) : List GCommand :=
  (f w).out.drop w.out.length

/-- The serialisation of a list of elements, in list order, by a generator that is in
state `w` when it starts: the commands of the first element, then those of the rest
from the state the first element leaves. -/
def serialization (quad : Bool) : IAGcodeWriter → List IAToolpathElement → List GCommand
  | _, [] => []
  | w, e :: rest =>
    emitted (e.saveGCode quad) w ++ serialization quad (e.saveGCode quad w) rest

/-- The comment block that opens a layer: an empty comment, the layer line with the
key divided by 1000, an empty comment. -/
def layerComments (key : Int) : List GCommand :=
  [.comment "" [], .comment "==== layer at z=%g" [.real ((key : Rat) / 1000)], .comment "" []]

/-- The block of one layer: the comment block, one extruder reset, the comment that
announces the toolpath and the serialisation of its elements. -/
def layerBlock (quad : Bool) (w : IAGcodeWriter) (key : Int) (tp : IAToolpath) : List GCommand :=
  layerComments key ++ [.resetExtruder] ++ [.comment "Send generated toolpath..." []] ++
    serialization quad w tp.pList

/-- The generator state after the elements of toolpath `tp` were serialised, in list
order, by a generator that was in state `w`. -/
def stateAfterLayer (quad : Bool) (w : IAGcodeWriter) (tp : IAToolpath) : IAGcodeWriter :=
  tp.pList.foldl (fun w p => p.saveGCode quad w) w

/-- The blocks of the layers `entries`, one after the other, the first one serialised
by a generator in state `w`. -/
def layersStream (quad : Bool) (store : List IAToolpath) :
    IAGcodeWriter → List (Int × Nat) → List GCommand
  | _, [] => []
  | w, (key, p) :: rest =>
    match store[p]? with
    | some tp =>
      layerBlock quad w key tp ++ layersStream quad store (stateAfterLayer quad w tp) rest
    | none => layersStream quad store w rest

/-! ## Notions used in the proofs -/

/-- Two writers are in the same generator state: same position, same active tool. -/
def SameState (a b : IAGcodeWriter) : Prop :=
  a.pPosition = b.pPosition ∧ a.pTool = b.pTool

/-- A step of code generation is framed when it only appends to the stream, and the
appended commands and the generator state it leaves depend on the generator state
it starts from alone. -/
def Framed (f : IAGcodeWriter → IAGcodeWriter) : Prop :=
  ∀ w v : IAGcodeWriter, SameState w v →
    (f v).out = v.out ++ emitted f w ∧ SameState (f w) (f v)

/-- The representation invariant of a machine toolpath that the program builds: the
entries of the map are in strictly ascending key order, every pointer in the map is
the address of an object in the store, and there is no startup and no shutdown
path. -/
def IAMachineToolpath.Inv (m : IAMachineToolpath) : Prop :=
  List.Pairwise (fun a b : Int × Nat => a.1 < b.1) m.pLayerMap ∧
  (∀ entry ∈ m.pLayerMap, entry.2 < m.store.length) ∧
  m.pStartupPath = none ∧ m.pShutdownPath = none

/-- The tool of the first `selectExtruder` command of a stream, if there is one. -/
def firstSelected : List GCommand → Option Int
  | [] => none
  | .selectExtruder n :: _ => some n
  | _ :: rest => firstSelected rest

/-! ## The slicer: `IAPrinterFDM::sliceAll` -/

/-- Modelled from the spec: the raster layer buffer `IAFramebuffer` is not part of the
sources; a raster is seen as the set of its occupied cells. -/
structure IAFramebuffer where
  cells : Finset (Nat × Nat)
deriving DecidableEq

/-- Modelled from the spec: `logicAnd(other)` intersects the receiver with the
operand; an absent operand (`nullptr`) counts as an all-empty buffer, so the result
is empty. -/
def IAFramebuffer.logicAnd (self : IAFramebuffer) (other : Option IAFramebuffer) :
    IAFramebuffer :=
  match other with
  | some o => ⟨self.cells ∩ o.cells⟩
  | none => ⟨∅⟩

/-- Modelled from the spec: `logicAndNot(other)` subtracts the operand from the
receiver; an absent operand counts as an all-empty buffer, so the receiver stays. -/
def IAFramebuffer.logicAndNot (self : IAFramebuffer) (other : Option IAFramebuffer) :
    IAFramebuffer :=
  match other with
  | some o => ⟨self.cells \ o.cells⟩
  | none => self

/-- Modelled from the spec: `clear()` sets all cells empty. -/
def IAFramebuffer.clear (_self : IAFramebuffer) : IAFramebuffer :=
  ⟨∅⟩

/-- Modelled from the spec: a slice `IASlice` holds the raster of its layer in
`pFramebuffer`. -/
structure IASlice where
  pFramebuffer : IAFramebuffer
deriving DecidableEq

/-- The printer `IAPrinterFDM` as `sliceAll` sees it. The fields with the prefix `p`
and `layerHeight` are its settings, `meshMinZ` and `meshMaxZ` are
`Iota.pMesh->pMin.z()` and `Iota.pMesh->pMax.z()`. The other fields stand for
collaborators that are not part of the sources and are left arbitrary:
`rasterize z` is the raster that a new slice holds after `setNewZ(z)`,
`generateRim` and `tesselateAndDrawLid`; `toolpathFromLassoAndContract fb z r` is
the toolpath that the call returns (`none` for `nullptr`) and the raster it leaves in
the receiver; `toolpathFromLasso`, `overlayInfillPattern` and `subtract` are the
methods of `IAFramebuffer` of these names; `progressPass1 i` and `progressPass2 i`
are the answers of `IAProgressDialog::update` when it is invoked for layer index
`i` in the first and in the second loop. -/
structure IAPrinterFDM where
  meshMinZ : Rat
  meshMaxZ : Rat
  layerHeight : Rat
  pNumShells : Int
  pNumLids : Int
  pLidType : Int
  pInfillDensity : Rat
  pNozzleDiameter : Rat
  rasterize : Rat → IAFramebuffer
  toolpathFromLassoAndContract : IAFramebuffer → Rat → Rat → Option IAToolpath × IAFramebuffer
  toolpathFromLasso : IAFramebuffer → Rat → Option IAToolpath
  overlayInfillPattern : IAFramebuffer → Nat → Rat → IAFramebuffer
  subtract : IAFramebuffer → IAToolpath → Rat → IAFramebuffer
  progressPass1 : Nat → Bool
  progressPass2 : Nat → Bool

/-- How a run of a piece of `sliceAll` ends: with a result; in undefined behaviour
(the source dereferences a null pointer, leaves the bounds of `sliceList`, or divides
by zero); or the model has used up the loop turns it was given. -/
inductive Outcome (α : Type) where
  | ok (a : α)
  | undefined
  | noFuel
deriving DecidableEq

/-- Sequencing: the second piece runs on the result of the first. -/
def Outcome.bind {α β : Type} (x : Outcome α) (f : α → Outcome β) : Outcome β :=
  match x with
  | .ok a => f a
  | .undefined => .undefined
  | .noFuel => .noFuel

instance : Monad Outcome where
  pure := Outcome.ok
  bind := Outcome.bind

/-- The variables of `sliceAll` that live across its loops: the array `sliceList`
(an entry is `none` for `nullptr`) and the member `pMachineToolpath`. -/
structure SliceState where
  sliceList : List (Option IASlice)
  pMachineToolpath : IAMachineToolpath

/-- The cast `(int)` of a `double`: the fraction is dropped, towards zero. -/
def truncToInt (q : Rat) : Int :=
  if 0 ≤ q then ⌊q⌋ else ⌈q⌉

/-- The local `hgt` of `sliceAll`. -/
def IAPrinterFDM.hgt (P : IAPrinterFDM) : Rat :=
  P.meshMaxZ - P.meshMinZ + 2 * P.layerHeight

/-- The local `zMin` of `sliceAll`. -/
def IAPrinterFDM.zMin (P : IAPrinterFDM) : Rat :=
  P.layerHeight * (9 / 10)

/-- The local `zMax` of `sliceAll` (the branch `#if 1`). -/
def IAPrinterFDM.zMax (P : IAPrinterFDM) : Rat :=
  P.hgt

/-- The local `n` of `sliceAll`: `(int)((zMax-zMin)/zLayerHeight)`. -/
def IAPrinterFDM.n (P : IAPrinterFDM) : Int :=
  truncToInt ((P.zMax - P.zMin) / P.layerHeight)

/-- The value of the loop variable `z` in turn `i` of either loop: `zMin` plus `i`
times the layer height. -/
def IAPrinterFDM.zAt (P : IAPrinterFDM) (i : Nat) : Rat :=
  P.zMin + (i : Rat) * P.layerHeight

/-- Embedding of `IAMachineToolpath::clear()`: all toolpaths are deleted. -/
def IAMachineToolpath.clear (_m : IAMachineToolpath) : IAMachineToolpath :=
  { store := [], pStartupPath := none, pLayerMap := [], pShutdownPath := none }

/-- Modelled from the spec: `tp->add(other, group, priority)` of the layer toolpath
behind the pointer `tp`: clones of all elements of `other` are appended, in order;
the class with this three argument form is not part of the sources and the spec
does not describe the two numbers, which are left out. A null `tp` is undefined
behaviour. -/
def IAMachineToolpath.layerAdd (m : IAMachineToolpath) (tp : Option Nat) (other : IAToolpath) :
    Outcome IAMachineToolpath :=
  match tp with
  | some p => .ok (m.modify p (fun t => t.add other))
  | none => .undefined

/-- The read `sliceList[j]`; outside the array it is undefined behaviour. -/
def readSlice (sliceList : List (Option IASlice)) (j : Nat) : Outcome (Option IASlice) :=
  match sliceList[j]? with
  | some entry => .ok entry
  | none => .undefined

/-- The read `sliceList[j]->pFramebuffer`; a null slice is undefined behaviour. -/
def derefSlice (sliceList : List (Option IASlice)) (j : Nat) : Outcome IAFramebuffer :=
  match sliceList[j]? with
  | some (some slc) => .ok slc.pFramebuffer
  | _ => .undefined

/-- The shells of one slice in the first loop: the toolpaths `tp1`, `tp2`, `tp3` and
the raster that the contractions leave. `tp0` comes from the contraction by half a
nozzle width, `tp1`, `tp2`, `tp3` from the first, second and third contraction by a
full nozzle width. -/
def IAPrinterFDM.shells (P : IAPrinterFDM) (fb : IAFramebuffer) (z : Rat) :
    (Option IAToolpath × Option IAToolpath × Option IAToolpath) × IAFramebuffer :=
  let r0 : Option IAToolpath × IAFramebuffer :=
    if P.pNumShells > 0 then P.toolpathFromLassoAndContract fb z (1 / 2 * P.pNozzleDiameter)
    else (none, fb)
  let r1 : Option IAToolpath × IAFramebuffer :=
    if P.pNumShells > 0 then
      match r0.1 with
      | some _ => P.toolpathFromLassoAndContract r0.2 z P.pNozzleDiameter
      | none => (none, r0.2)
    else (none, r0.2)
  let r2 : Option IAToolpath × IAFramebuffer :=
    if P.pNumShells > 1 then
      match r1.1 with
      | some _ => P.toolpathFromLassoAndContract r1.2 z P.pNozzleDiameter
      | none => (none, r1.2)
    else (none, r1.2)
  let r3 : Option IAToolpath × IAFramebuffer :=
    if P.pNumShells > 2 then
      match r2.1 with
      | some _ => P.toolpathFromLassoAndContract r2.2 z P.pNozzleDiameter
      | none => (none, r2.2)
    else (none, r2.2)
  ((r1.1, r2.1, r3.1), r3.2)

/-- The statement `if (t) tp->add(t.get(), ...)` for a layer toolpath `tp` that is not
null. -/
def IAMachineToolpath.addIfSome (m : IAMachineToolpath) (tp : Nat) (t : Option IAToolpath) :
    IAMachineToolpath :=
  match t with
  | some other => m.modify tp (fun l => l.add other)
  | none => m

/-- The three statements `if (tp3) tp->add(tp3...)`, `if (tp2) ...`, `if (tp1) ...`
at the end of a turn of the first loop. -/
def IAMachineToolpath.addShells (m : IAMachineToolpath) (tp : Nat)
    (tp1 tp2 tp3 : Option IAToolpath) : IAMachineToolpath :=
  ((m.addIfSome tp tp3).addIfSome tp tp2).addIfSome tp tp1

/-- The body of the first loop of `sliceAll` after the progress check, in turn `i` at
height `z`. -/
def IAPrinterFDM.pass1Body (P : IAPrinterFDM) (z : Rat) (i : Nat) (s : SliceState) :
    Outcome SliceState :=
  if i < s.sliceList.length then
    let slc : IASlice := ⟨P.rasterize z⟩
    let sh := P.shells slc.pFramebuffer z
    let sliceList := s.sliceList.set i (some ⟨sh.2⟩)
    let created := s.pMachineToolpath.createLayer z
    .ok { sliceList := sliceList,
          pMachineToolpath := created.1.addShells created.2 sh.1.1 sh.1.2.1 sh.1.2.2 }
  else .undefined

/-- The first loop of `sliceAll`, `for (z=zMin; z<zMax+2*zLayerHeight; z+=zLayerHeight)`,
from the turn with the values `z` and `i`; `fuel` bounds the number of turns. The
arguments `i*50/n` of the progress call divide by `n`. -/
def IAPrinterFDM.pass1 (P : IAPrinterFDM) : Nat → Rat → Nat → SliceState → Outcome SliceState
  | 0, _, _, _ => .noFuel
  | fuel + 1, z, i, s =>
    if z < P.zMax + 2 * P.layerHeight then
      if P.n = 0 then .undefined
      else if P.progressPass1 i then .ok s
      else
        match P.pass1Body z i s with
        | .ok s1 => P.pass1 fuel (z + P.layerHeight) (i + 1) s1
        | .undefined => .undefined
        | .noFuel => .noFuel
    else .ok s

/-- The mask of layer `i` in the second loop (the block that starts with
`IAFramebuffer mask(sliceList[i+1]->pFramebuffer)`). -/
def IAPrinterFDM.computeMask (P : IAPrinterFDM) (sliceList : List (Option IASlice)) (i : Nat) :
    Outcome IAFramebuffer := do
  let above ← derefSlice sliceList (i + 1)
  let mask : IAFramebuffer := above
  let mask ←
    if P.pNumLids > 1 then do
      let slot ← readSlice sliceList (i + 2)
      match slot with
      | some slc2 => pure (mask.logicAnd (some slc2.pFramebuffer))
      | none => pure mask.clear
    else pure mask
  let mask ←
    if i > 0 then do
      let below ← derefSlice sliceList (i - 1)
      pure (mask.logicAnd (some below))
    else pure (mask.logicAnd none)
  if P.pNumLids > 1 then
    if i > 1 then do
      let below2 ← derefSlice sliceList (i - 2)
      pure (mask.logicAnd (some below2))
    else pure (mask.logicAnd none)
  else pure mask

/-- The rasters `lid` and `infill` right after `lid.logicAndNot(&mask)` and
`infill.logicAnd(&mask)`: both start as copies of the raster of the layer. -/
def lidAndInfill (layer mask : IAFramebuffer) : IAFramebuffer × IAFramebuffer :=
  let infill : IAFramebuffer := layer
  let lid : IAFramebuffer := layer
  (lid.logicAndNot (some mask), infill.logicAnd (some mask))

/-- The result of the loop of the concentric lids: the counter `k`, the rasters `lid`
and `infill`, and the machine toolpath. -/
structure ConcentricResult where
  k : Nat
  lid : IAFramebuffer
  infill : IAFramebuffer
  pMachineToolpath : IAMachineToolpath

/-- The loop `for (k=0;k<300;k++)` of the concentric lids, from the turn with the
value `k`. -/
def IAPrinterFDM.concentric (P : IAPrinterFDM) (z : Rat) (tp : Option Nat) (k : Nat)
    (lid infill : IAFramebuffer) (m : IAMachineToolpath) : Outcome ConcentricResult :=
  if k < 300 then
    match P.toolpathFromLassoAndContract lid z P.pNozzleDiameter with
    | (none, lid1) => .ok ⟨k, lid1, infill, m⟩
    | (some tp1, lid1) =>
      match m.layerAdd tp tp1 with
      | .ok m1 =>
        P.concentric z tp (k + 1) lid1 (P.subtract infill tp1 P.pNozzleDiameter) m1
      | .undefined => .undefined
      | .noFuel => .noFuel
  else .ok ⟨k, lid, infill, m⟩
termination_by 300 - k

/-- The lids of one layer: the branch `if (pLidType==0)` with its zigzag lid, or the
loop of the concentric lids. The result is the raster `infill` and the machine
toolpath. -/
def IAPrinterFDM.buildLids (P : IAPrinterFDM) (z : Rat) (i : Nat) (tp : Option Nat)
    (lid infill : IAFramebuffer) (m : IAMachineToolpath) :
    Outcome (IAFramebuffer × IAMachineToolpath) :=
  if P.pLidType = 0 then
    let lid := P.overlayInfillPattern lid i P.pNozzleDiameter
    match P.toolpathFromLasso lid z with
    | some lidPath => (m.layerAdd tp lidPath).bind fun m1 => .ok (infill, m1)
    | none => .ok (infill, m)
  else
    (P.concentric z tp 0 lid infill m).bind fun r => .ok (r.infill, r.pMachineToolpath)

/-- The spacing that the infill block passes to `overlayInfillPattern`:
`2*pNozzleDiameter * (100.0 / pInfillDensity) - pNozzleDiameter`, a value of type
`double`: the product, the quotient, their product and the difference are rounded one
after the other. -/
def infillSpacing (nozzle density : Rat) : Rat :=
  fl (fl (fl (2 * nozzle) * fl (100 / density)) - nozzle)

/-- The infill of one layer: the block `if (pInfillDensity>0.0001)`; the constant is the
`double` next to 1/10000. -/
def IAPrinterFDM.buildInfill (P : IAPrinterFDM) (z : Rat) (i : Nat) (tp : Option Nat)
    (infill : IAFramebuffer) (m : IAMachineToolpath) : Outcome IAMachineToolpath :=
  if P.pInfillDensity > fl (1 / 10000) then
    let infill :=
      P.overlayInfillPattern infill i (infillSpacing P.pNozzleDiameter P.pInfillDensity)
    match P.toolpathFromLasso infill z with
    | some infillPath => m.layerAdd tp infillPath
    | none => .ok m
  else .ok m

/-- The block `if (pNumLids>0)` of the second loop: the mask, the rasters `lid` and
`infill`, the lids. Without lids `infill` stays the copy of the raster of the layer.
The result is the raster `infill` and the machine toolpath. -/
def IAPrinterFDM.lidsBlock (P : IAPrinterFDM) (z : Rat) (i : Nat) (tp : Option Nat)
    (sliceList : List (Option IASlice)) (layer : IAFramebuffer) (m : IAMachineToolpath) :
    Outcome (IAFramebuffer × IAMachineToolpath) :=
  if P.pNumLids > 0 then
    (P.computeMask sliceList i).bind fun mask =>
      P.buildLids z i tp (lidAndInfill layer mask).1 (lidAndInfill layer mask).2 m
  else .ok (layer, m)

/-- The body of the second loop of `sliceAll` after the progress check, in turn `i` at
height `z`. -/
def IAPrinterFDM.pass2Body (P : IAPrinterFDM) (z : Rat) (i : Nat) (s : SliceState) :
    Outcome SliceState :=
  let tp := s.pMachineToolpath.findLayer z
  (derefSlice s.sliceList i).bind fun layer =>
    (P.lidsBlock z i tp s.sliceList layer s.pMachineToolpath).bind fun r =>
      (P.buildInfill z i tp r.1 r.2).bind fun m =>
        .ok { sliceList := s.sliceList, pMachineToolpath := m }

/-- The second loop of `sliceAll`, `for (z=zMin; z<zMax-zLayerHeight; z+=zLayerHeight)`,
from the turn with the values `z` and `i`; `fuel` bounds the number of turns. -/
def IAPrinterFDM.pass2 (P : IAPrinterFDM) : Nat → Rat → Nat → SliceState → Outcome SliceState
  | 0, _, _, _ => .noFuel
  | fuel + 1, z, i, s =>
    if z < P.zMax - P.layerHeight then
      if P.n = 0 then .undefined
      else if P.progressPass2 i then .ok s
      else
        match P.pass2Body z i s with
        | .ok s1 => P.pass2 fuel (z + P.layerHeight) (i + 1) s1
        | .undefined => .undefined
        | .noFuel => .noFuel
    else .ok s

/-- The state in which the first loop of `sliceAll` starts: the machine toolpath is
cleared and `sliceList` has `n+4` null entries. -/
def IAPrinterFDM.initial (P : IAPrinterFDM) (m : IAMachineToolpath) : SliceState :=
  { sliceList := List.replicate (P.n + 4).toNat none, pMachineToolpath := m.clear }

/-- Embedding of `IAPrinterFDM::sliceAll()` up to the point where the slices are
deleted: the first loop, then the second loop with `i` back at 0. Each loop may take
`fuel` turns. -/
def IAPrinterFDM.sliceAll (P : IAPrinterFDM) (fuel : Nat) (m : IAMachineToolpath) :
    Outcome SliceState :=
  (P.pass1 fuel P.zMin 0 (P.initial m)).bind fun s1 => P.pass2 fuel P.zMin 0 s1

/-- The occupied cells of layer `j` as the second loop sees them: the raster of the
slice `sliceList[j]`, and the empty raster when there is no such slice. -/
def layerCells (sliceList : List (Option IASlice)) (j : Nat) : Finset (Nat × Nat) :=
  match sliceList[j]? with
  | some (some slc) => slc.pFramebuffer.cells
  | _ => ∅

/-- The occupied cells of layer `i - d`; the empty raster when `i - d` is below 0. -/
def layerCellsBelow (sliceList : List (Option IASlice)) (i d : Nat) : Finset (Nat × Nat) :=
  if d ≤ i then layerCells sliceList (i - d) else ∅

/-! ## A printer and a slice list for the examples -/

/-- A printer for the examples: a mesh from 0 to 9, layer height 1, two shells, one
zigzag lid, 20 percent infill, nozzle 2/5. Every raster is the one cell `(0, 0)`,
nothing is ever traced, and the progress dialog never cancels. -/
def demoPrinter : IAPrinterFDM :=
  { meshMinZ := 0, meshMaxZ := 9, layerHeight := 1,
    pNumShells := 2, pNumLids := 1, pLidType := 0,
    pInfillDensity := 20, pNozzleDiameter := 2 / 5,
    rasterize := fun _ => ⟨{(0, 0)}⟩,
    toolpathFromLassoAndContract := fun fb _ _ => (none, fb),
    toolpathFromLasso := fun _ _ => none,
    overlayInfillPattern := fun fb _ _ => fb,
    subtract := fun fb _ _ => fb,
    progressPass1 := fun _ => false,
    progressPass2 := fun _ => false }

/-- A slice list for the examples: three slices and one null entry. -/
def demoSlices : List (Option IASlice) :=
  [some ⟨⟨{(0, 0), (1, 0)}⟩⟩, some ⟨⟨{(0, 0), (1, 0), (2, 0)}⟩⟩,
    some ⟨⟨{(1, 0), (2, 0)}⟩⟩, none]

/-! ## Notions used in the theorems on the slicer -/

/-- The raster `lid` after `j` contractions by the nozzle width at height `z`. -/
def IAPrinterFDM.lidAfter (P : IAPrinterFDM) (z : Rat) : IAFramebuffer → Nat → IAFramebuffer
  | lid, 0 => lid
  | lid, j + 1 =>
    P.lidAfter z (P.toolpathFromLassoAndContract lid z P.pNozzleDiameter).2 j

/-- The ring that the contraction number `j` (counted from 0) returns when the
contractions start from the raster `lid`; `none` when it returns `nullptr`. -/
def IAPrinterFDM.ringAt (P : IAPrinterFDM) (z : Rat) (lid : IAFramebuffer) (j : Nat) :
    Option IAToolpath :=
  (P.toolpathFromLassoAndContract (P.lidAfter z lid j) z P.pNozzleDiameter).1

/-- The elements of a toolpath that a collaborator returned; none for `nullptr`. -/
def fragElems : Option IAToolpath → List IAToolpathElement
  | some t => t.pList
  | none => []

/-- The toolpaths of a list added to the layer toolpath behind `tp`, one after the
other, in list order. -/
def IAMachineToolpath.addRings (m : IAMachineToolpath) (tp : Nat)
    (rings : List (Option IAToolpath)) : IAMachineToolpath :=
  rings.foldl (fun acc t => acc.addIfSome tp t) m

/-- A printer for the examples with concentric lids: a contraction of a raster that is
not empty returns one rapid Motion to `(c, 0, z)`, where `c` is the number of cells,
and removes the cell `(c - 1, 0)`; on the empty raster it returns `nullptr`. -/
def ringPrinter : IAPrinterFDM :=
  { demoPrinter with
    pLidType := 1,
    toolpathFromLassoAndContract := fun fb z _ =>
      if fb.cells = ∅ then (none, fb)
      else (some ((IAToolpath.new z).startPath (fb.cells.card : Rat) 0 z),
            ⟨fb.cells.erase (fb.cells.card - 1, 0)⟩) }

/-- What holds of the state of `sliceAll` when the first loop has completed the turns
`0 .. j-1`, for a slice list of length `L`: exactly the slices below `j` exist; the
machine toolpath is well formed and holds at most `j` layers, each with the key of
one of the heights `zAt 0 .. zAt (j-1)`; every one of these heights finds its layer;
and the layers are exactly `j` when these heights have different keys. -/
structure Pass1Inv (P : IAPrinterFDM) (L j : Nat) (s : SliceState) : Prop where
  length_eq : s.sliceList.length = L
  created : ∀ i, i < j → ∃ slc, s.sliceList[i]? = some (some slc)
  notCreated : ∀ i, j ≤ i → i < L → s.sliceList[i]? = some none
  inv : s.pMachineToolpath.Inv
  layers_le : s.pMachineToolpath.pLayerMap.length ≤ j
  found : ∀ i, i < j → ∃ p, s.pMachineToolpath.findLayer (P.zAt i) = some p
  keys : ∀ entry ∈ s.pMachineToolpath.pLayerMap,
    ∃ i, i < j ∧ entry.1 = roundLayerNumber (P.zAt i)
  layers_eq : (∀ a b, a < j → b < j →
      roundLayerNumber (P.zAt a) = roundLayerNumber (P.zAt b) → a = b) →
    s.pMachineToolpath.pLayerMap.length = j

/-- The machine toolpath `m1` extends `m`: the same layer map, the same startup and
shutdown path, as many toolpath objects, and every toolpath of `m1` starts with the
elements that the toolpath at the same address of `m` has. -/
def Extends (m m1 : IAMachineToolpath) : Prop :=
  m1.pLayerMap = m.pLayerMap ∧ m1.pStartupPath = m.pStartupPath ∧
  m1.pShutdownPath = m.pShutdownPath ∧ m1.store.length = m.store.length ∧
  ∀ (q : Nat) (t : IAToolpath), m.store[q]? = some t →
    ∃ (t1 : IAToolpath) (suffix : List IAToolpathElement),
      m1.store[q]? = some t1 ∧ t1.pList = t.pList ++ suffix

/-- The example printer with a progress dialog that requests cancellation when it is
invoked for layer 3 in the first loop, and at no other time. -/
def cancelPrinter : IAPrinterFDM :=
  { demoPrinter with progressPass1 := fun i => decide (i = 3) }

/-- The example printer with concentric lids, three shells and rasters of four
cells. -/
def shellPrinter : IAPrinterFDM :=
  { ringPrinter with
    pNumShells := 3,
    rasterize := fun _ => ⟨{(0, 0), (1, 0), (2, 0), (3, 0)}⟩ }

/-- The example printer on a mesh from 0 to 10 with layer height 1/5. -/
def cubePrinter : IAPrinterFDM :=
  { demoPrinter with meshMaxZ := 10, layerHeight := 1 / 5 }

/-- The toolpath that the infill block gets from `toolpathFromLasso` for the raster
`infill`; `none` when the density is not above the threshold or nothing is traced. -/
def IAPrinterFDM.infillPath (P : IAPrinterFDM) (z : Rat) (i : Nat) (infill : IAFramebuffer) :
    Option IAToolpath :=
  if P.pInfillDensity > fl (1 / 10000) then
    P.toolpathFromLasso
      (P.overlayInfillPattern infill i (infillSpacing P.pNozzleDiameter P.pInfillDensity)) z
  else none

/-! ## The moves of a command stream -/

/-- The moves among the commands of a stream, in order: for each one whether it is a
rapid move, and the x and y of its target. Commands that do not move give nothing. -/
def xyMoves (cmds : List GCommand) : List (Bool × Rat × Rat) :=
  cmds.filterMap fun c =>
    match c with
    | .rapidMove p => some (true, p.x, p.y)
    | .rapidMoveXY x y => some (true, x, y)
    | .move p => some (false, p.x, p.y)
    | .moveColor p _ => some (false, p.x, p.y)
    | .moveXY x y => some (false, x, y)
    | _ => none

/-- The x offset of the wipe pattern of a change to tool `t`: the value of
`int x = pTool ? 100 : 48` as a coordinate. -/
def wipeOffset (t : Int) : Rat :=
  if t = 0 then 48 else 100

/-- The wipe pattern at x offset `x0`, as the specification words it: a rapid move to
`(x0, 10)`, then four strokes of four controlled moves each. -/
def wipePattern (x0 : Rat) : List (Bool × Rat × Rat) :=
  [(true, x0, 10),
   (false, x0 + 20, 10), (false, x0 + 20, 21 / 2), (false, x0, 21 / 2), (false, x0, 11),
   (false, x0 + 20, 11), (false, x0 + 20, 23 / 2), (false, x0, 23 / 2), (false, x0, 12),
   (false, x0 + 20, 12), (false, x0 + 20, 25 / 2), (false, x0, 25 / 2), (false, x0, 13),
   (false, x0 + 20, 13), (false, x0 + 20, 27 / 2), (false, x0, 27 / 2), (false, x0, 14)]

/-! ## Colours: `differ` -/

/-- Embedding of `differ(uint32_t c1, uint32_t c2)`; the channels are `int`. -/
def differ (c1 c2 : Nat) : Bool :=
  if c1 = c2 then false
  else
    let r1 : Int := ((c1 >>> 16) &&& 255 : Nat)
    let r2 : Int := ((c2 >>> 16) &&& 255 : Nat)
    let rd := r1 - r2
    if rd > 10 ∨ rd < -10 then true
    else
      let g1 : Int := ((c1 >>> 8) &&& 255 : Nat)
      let g2 : Int := ((c2 >>> 8) &&& 255 : Nat)
      let gd := g1 - g2
      if gd > 10 ∨ gd < -10 then true
      else
        let b1 : Int := ((c1 >>> 0) &&& 255 : Nat)
        let b2 : Int := ((c2 >>> 0) &&& 255 : Nat)
        let bd := b1 - b2
        if bd > 10 ∨ bd < -10 then true
        else false

/-- The colour `0x00RRGGBB` with the channels `r`, `g`, `b`. -/
def packRGB (r g b : Nat) : Nat :=
  r * 65536 + g * 256 + b

/-- The red channel of `0x00RRGGBB`, as the specification reads the value. -/
def redOf (c : Nat) : Int := (c / 65536 % 256 : Nat)

/-- The green channel of `0x00RRGGBB`, as the specification reads the value. -/
def greenOf (c : Nat) : Int := (c / 256 % 256 : Nat)

/-- The blue channel of `0x00RRGGBB`, as the specification reads the value. -/
def blueOf (c : Nat) : Int := (c % 256 : Nat)

/-! ## The contour tracer: `potrace`, `bezier`, `recursive_bezier` -/

/-- The constant `m_distance_tolerance`, `0.1`: the `double` next to 1/10. -/
def m_distance_tolerance : Rat := fl (1 / 10)

/-- The expression `fabs(((x - x4) * dy - (y - y4) * dx))` of the locals `d2` and `d3` of
`recursive_bezier` for the control point `(x, y)`, as the machine evaluates it: the
differences, the products and their difference are rounded to a `double` one after
the other. -/
def chordDeviation (x y x4 y4 dx dy : Rat) : Rat :=
  |fl (fl (fl (x - x4) * dy) - fl (fl (y - y4) * dx))|

/-- The condition of the `if` in `recursive_bezier` under which the segment is replaced
by one point: `(d2 + d3)*(d2 + d3) < m_distance_tolerance * (dx*dx + dy*dy)`, every
operation rounded to a `double`. -/
def flatEnough (x1 y1 x2 y2 x3 y3 x4 y4 : Rat) : Prop :=
  let dx := fl (x4 - x1)
  let dy := fl (y4 - y1)
  let d2 := chordDeviation x2 y2 x4 y4 dx dy
  let d3 := chordDeviation x3 y3 x4 y4 dx dy
  fl (fl (d2 + d3) * fl (d2 + d3))
    < fl (m_distance_tolerance * fl (fl (dx * dx) + fl (dy * dy)))

instance (x1 y1 x2 y2 x3 y3 x4 y4 : Rat) : Decidable (flatEnough x1 y1 x2 y2 x3 y3 x4 y4) := by
  unfold flatEnough; infer_instance

/-- Embedding of `recursive_bezier(tp, x1, y1, x2, y2, x3, y3, x4, y4, z)`. The function
calls itself without a bound on the depth; `fuel` is the depth that is allowed, and
`noFuel` is the result when it does not suffice. -/
def recursive_bezier : Nat → IAToolpath → Rat → Rat → Rat → Rat → Rat → Rat → Rat → Rat →
    Rat → Outcome IAToolpath
  | 0, _, _, _, _, _, _, _, _, _, _ => .noFuel
  | fuel + 1, tp, x1, y1, x2, y2, x3, y3, x4, y4, z =>
    let x12 := (x1 + x2) / 2
    let y12 := (y1 + y2) / 2
    let x23 := (x2 + x3) / 2
    let y23 := (y2 + y3) / 2
    let x34 := (x3 + x4) / 2
    let y34 := (y3 + y4) / 2
    let x123 := (x12 + x23) / 2
    let y123 := (y12 + y23) / 2
    let x234 := (x23 + x34) / 2
    let y234 := (y23 + y34) / 2
    let x1234 := (x123 + x234) / 2
    let y1234 := (y123 + y234) / 2
    if flatEnough x1 y1 x2 y2 x3 y3 x4 y4 then
      .ok (tp.continuePath x1234 y1234 z)
    else
      (recursive_bezier fuel tp x1 y1 x12 y12 x123 y123 x1234 y1234 z).bind fun tp1 =>
        recursive_bezier fuel tp1 x1234 y1234 x234 y234 x34 y34 x4 y4 z

/-- Embedding of `bezier(tp, x1, y1, x2, y2, x3, y3, x4, y4, z)`. -/
def bezier (fuel : Nat) (tp : IAToolpath) (x1 y1 x2 y2 x3 y3 x4 y4 z : Rat) :
    Outcome IAToolpath :=
  (recursive_bezier fuel tp x1 y1 x2 y2 x3 y3 x4 y4 z).bind fun tp1 =>
    .ok (tp1.continuePath x4 y4 z)

/-- Modelled from the spec: the point type `potrace_dpoint_t` of the tracing library,
whose header is not part of the sources. -/
structure potrace_dpoint_t where
  x : Rat
  y : Rat
deriving DecidableEq

/-- The tag of a segment of a traced curve, `tag[i]`: `POTRACE_CORNER`,
`POTRACE_CURVETO`, or any other value. Modelled from the spec: the two constants are
defined in the header of the tracing library, which is not part of the sources. -/
inductive PotraceTag where
  | corner
  | curveto
  | other (tag : Int)
deriving DecidableEq

/-- Segment `i` of a traced curve: its tag `tag[i]` and its three points `c[i][0]`,
`c[i][1]`, `c[i][2]`. -/
structure PotraceSegment where
  tag : PotraceTag
  c0 : potrace_dpoint_t
  c1 : potrace_dpoint_t
  c2 : potrace_dpoint_t
deriving DecidableEq

/-- One traced contour, an entry of the list `st->plist`: its curve with
`curve.n` segments. -/
structure potrace_path_t where
  curve : List PotraceSegment
deriving DecidableEq

/-- The body of the loop `for (i=0; i<n; i++)` of `potrace` for the curve `c`, here
`curve`, with `n` segments. Reading `c[i]` or `c[j]` outside the curve is undefined. -/
def potraceSegment (fuel : Nat) (xScl yScl z : Rat) (curve : List PotraceSegment) (n : Nat)
    (tp : IAToolpath) (i : Nat) : Outcome IAToolpath :=
  match curve[i]? with
  | none => .undefined
  | some seg =>
    match seg.tag with
    | .corner =>
      let tp := tp.continuePath (seg.c1.x * xScl) (seg.c1.y * yScl) z
      .ok (tp.continuePath (seg.c2.x * xScl) (seg.c2.y * yScl) z)
    | .curveto =>
      let j := if i ≠ 0 then i - 1 else n - 1
      match curve[j]? with
      | none => .undefined
      | some prev =>
        bezier fuel tp (prev.c2.x * xScl) (prev.c2.y * yScl)
          (seg.c0.x * xScl) (seg.c0.y * yScl)
          (seg.c1.x * xScl) (seg.c1.y * yScl)
          (seg.c2.x * xScl) (seg.c2.y * yScl) z
    | .other _ => .ok tp

/-- The loop `for (i=0; i<n; i++)` of `potrace` over the segments of one curve. -/
def potraceSegments (fuel : Nat) (xScl yScl z : Rat) (curve : List PotraceSegment)
    (tp : IAToolpath) : Outcome IAToolpath :=
  (List.range curve.length).foldl
    (fun acc i => acc.bind fun tp1 => potraceSegment fuel xScl yScl z curve curve.length tp1 i)
    (.ok tp)

/-- The loop `while (p != NULL)` of `potrace` over the traced contours, with the local
`start`. A curve with `n = 0` segments makes the loop read `c[n-1]` outside the curve,
which is undefined. -/
def potracePaths (fuel : Nat) (xScl yScl z : Rat) :
    List potrace_path_t → Bool → IAToolpath → Outcome IAToolpath
  | [], _, tp => .ok tp
  | p :: rest, start, tp =>
    let n := p.curve.length
    let curve := p.curve
    match curve[n - 1]? with
    | none => .undefined
    | some last =>
      let tp :=
        if start then tp.startPath (last.c2.x * xScl) (last.c2.y * yScl) z
        else tp.continuePath (last.c2.x * xScl) (last.c2.y * yScl) z
      (potraceSegments fuel xScl yScl z curve tp).bind fun tp1 =>
        potracePaths fuel xScl yScl z rest true tp1.closePath

/-- Embedding of `potrace(framebuffer, toolpath, z)` from the point where the bitmap is
traced. Modelled from the spec: the tracing library is not part of the sources, so
its result is the argument `traced`: `none` when the bitmap, the parameters or the
trace could not be made (the function then returns 1), else the list `st->plist` of
the contours. `xScl` and `yScl` are the values of the locals of these names. The
result is the returned `int` and the toolpath. -/
def potrace (fuel : Nat) (traced : Option (List potrace_path_t)) (xScl yScl : Rat)
    (toolpath : IAToolpath) (z : Rat) : Outcome (Int × IAToolpath) :=
  match traced with
  | none => .ok (1, toolpath)
  | some plist =>
    (potracePaths fuel xScl yScl z plist true toolpath).bind fun tp => .ok (0, tp)

/-- The points for which `recursive_bezier` calls `continuePath`, in order, as the
specification words them: the subdivision points of the cubic segment. -/
def subdivisionPoints : Nat → Rat → Rat → Rat → Rat → Rat → Rat → Rat → Rat →
    Outcome (List (Rat × Rat))
  | 0, _, _, _, _, _, _, _, _ => .noFuel
  | fuel + 1, x1, y1, x2, y2, x3, y3, x4, y4 =>
    let x12 := (x1 + x2) / 2
    let y12 := (y1 + y2) / 2
    let x23 := (x2 + x3) / 2
    let y23 := (y2 + y3) / 2
    let x34 := (x3 + x4) / 2
    let y34 := (y3 + y4) / 2
    let x123 := (x12 + x23) / 2
    let y123 := (y12 + y23) / 2
    let x234 := (x23 + x34) / 2
    let y234 := (y23 + y34) / 2
    let x1234 := (x123 + x234) / 2
    let y1234 := (y123 + y234) / 2
    if flatEnough x1 y1 x2 y2 x3 y3 x4 y4 then .ok [(x1234, y1234)]
    else
      (subdivisionPoints fuel x1 y1 x12 y12 x123 y123 x1234 y1234).bind fun l =>
        (subdivisionPoints fuel x1234 y1234 x234 y234 x34 y34 x4 y4).bind fun r =>
          .ok (l ++ r)

/-- The calls that the specification lists for segment `i` of the curve `c`: two
`continuePath` calls for a corner, its corner point and its end point; for a curve the
subdivision points and the end point. -/
def segmentCalls (fuel : Nat) (xScl yScl z : Rat) (curve : List PotraceSegment) (i : Nat) :
    Outcome (List PathCall) :=
  match curve[i]? with
  | none => .undefined
  | some seg =>
    match seg.tag with
    | .corner =>
      .ok [.continuePath (seg.c1.x * xScl) (seg.c1.y * yScl) z,
           .continuePath (seg.c2.x * xScl) (seg.c2.y * yScl) z]
    | .curveto =>
      match curve[if i ≠ 0 then i - 1 else curve.length - 1]? with
      | none => .undefined
      | some prev =>
        (subdivisionPoints fuel (prev.c2.x * xScl) (prev.c2.y * yScl)
          (seg.c0.x * xScl) (seg.c0.y * yScl)
          (seg.c1.x * xScl) (seg.c1.y * yScl)
          (seg.c2.x * xScl) (seg.c2.y * yScl)).bind fun pts =>
          .ok (pts.map (fun q => PathCall.continuePath q.1 q.2 z)
            ++ [.continuePath (seg.c2.x * xScl) (seg.c2.y * yScl) z])
    | .other _ => .ok []

/-- The calls of the segments `0 .. k-1` of a curve, in order. -/
def segmentsCalls (fuel : Nat) (xScl yScl z : Rat) (curve : List PotraceSegment) :
    Nat → Outcome (List PathCall)
  | 0 => .ok []
  | k + 1 =>
    (segmentsCalls fuel xScl yScl z curve k).bind fun cs =>
      (segmentCalls fuel xScl yScl z curve k).bind fun cs1 => .ok (cs ++ cs1)

/-- The calls that the specification lists for one contour: one `startPath` at the
scaled end point of the last segment, the calls of the segments, one `closePath`. -/
def contourCalls (fuel : Nat) (xScl yScl z : Rat) (p : potrace_path_t) :
    Outcome (List PathCall) :=
  match p.curve.getLast? with
  | none => .undefined
  | some last =>
    (segmentsCalls fuel xScl yScl z p.curve p.curve.length).bind fun cs =>
      .ok (PathCall.startPath (last.c2.x * xScl) (last.c2.y * yScl) z :: cs
        ++ [PathCall.closePath])

/-- The calls that the specification lists for a list of contours, in contour order. -/
def contoursCalls (fuel : Nat) (xScl yScl z : Rat) :
    List potrace_path_t → Outcome (List PathCall)
  | [] => .ok []
  | p :: rest =>
    (contourCalls fuel xScl yScl z p).bind fun cs =>
      (contoursCalls fuel xScl yScl z rest).bind fun cs1 => .ok (cs ++ cs1)

/-- The number of rapid Motions in an element list. -/
def rapidCount (l : List IAToolpathElement) : Nat :=
  ((motionsOf l).filter fun m => m.pIsRapid).length

/-- The squared distance of the point `(px, py)` from the line through `(x1, y1)` and
`(x4, y4)`, the chord of a segment; the two points of the chord are different. -/
def distSqToChord (px py x1 y1 x4 y4 : Rat) : Rat :=
  ((px - x4) * (y4 - y1) - (py - y4) * (x4 - x1)) ^ 2
    / ((x4 - x1) ^ 2 + (y4 - y1) ^ 2)

/-- The number `x` is a multiple of `2^k` by an integer of absolute value at most `M`. -/
def OnGrid (k : Int) (M : Nat) (x : Rat) : Prop :=
  ∃ m : Int, x = (m : Rat) * 2 ^ k ∧ |m| ≤ (M : Int)

/-- Every call of the list is a `continuePath` call. -/
def OnlyContinue (cs : List PathCall) : Prop :=
  ∀ c ∈ cs, ∃ x y z, c = PathCall.continuePath x y z

/-- A contour of one curve segment whose four control points all are `(0, 0)`: the
segment starts at the end point of the last segment, which is the segment itself. -/
def pointContour : potrace_path_t :=
  ⟨[⟨.curveto, ⟨0, 0⟩, ⟨0, 0⟩, ⟨0, 0⟩⟩]⟩

/-- A contour of three corner segments, a triangle. -/
def triangleContour : potrace_path_t :=
  ⟨[⟨.corner, ⟨0, 0⟩, ⟨1, 0⟩, ⟨2, 0⟩⟩, ⟨.corner, ⟨0, 0⟩, ⟨2, 2⟩, ⟨1, 2⟩⟩,
    ⟨.corner, ⟨0, 0⟩, ⟨0, 2⟩, ⟨0, 0⟩⟩]⟩

/-- A contour of a corner segment and a curve segment whose control points are on a
line. -/
def curveContour : potrace_path_t :=
  ⟨[⟨.corner, ⟨0, 0⟩, ⟨3, 3⟩, ⟨0, 0⟩⟩, ⟨.curveto, ⟨1, 0⟩, ⟨2, 0⟩, ⟨3, 0⟩⟩]⟩

/-! ## Colour segmentation: `colorize`, `colorizeSoft` -/

/-- Modelled from the spec: `operator+` of the absent vector class, by coordinates. -/
def IAVector3d.add (a b : IAVector3d) : IAVector3d :=
  ⟨a.x + b.x, a.y + b.y, a.z + b.z⟩

/-- Modelled from the spec: `operator-` of the absent vector class, by coordinates. -/
def IAVector3d.sub (a b : IAVector3d) : IAVector3d :=
  ⟨a.x - b.x, a.y - b.y, a.z - b.z⟩

/-- Modelled from the spec: `operator*` of the absent vector class with a number, by
coordinates. -/
def IAVector3d.scale (a : IAVector3d) (s : Rat) : IAVector3d :=
  ⟨a.x * s, a.y * s, a.z * s⟩

/-- The offset `(xo+1024*yo)*3` of the pixel under the point `v`, as `isBlack` and
`getRGB` compute it; `(int)` truncates. -/
def pixelOffset (v : IAVector3d) : Int :=
  let s := v.scale (1024 / 214)
  let xo := truncToInt s.x
  let yo := truncToInt s.y
  (xo + 1024 * yo) * 3

/-- Embedding of `getRGB(rgb, v)`. -/
def getRGB (rgb : Int → Nat) (v : IAVector3d) : Nat :=
  let c := pixelOffset v
  ((rgb c <<< 16) ||| (rgb (c + 1) <<< 8)) ||| rgb (c + 2)

/-- The loop `for (double i=...; i<len; i+=incr)` with `incr = 0.1`, from the turn with
the value `i`; `body i` is the body of the loop on the other locals. -/
def forSteps {σ : Type} (len : Rat) (body : Rat → σ → σ) (i : Rat) (s : σ) : σ :=
  if i < len then forSteps len body (i + 1 / 10) (body i s) else s
termination_by (⌈(len - i) * 10⌉).toNat
decreasing_by
  have h1 : (len - (i + 1 / 10)) * 10 = (len - i) * 10 - 1 := by ring
  have h2 : 0 < ⌈(len - i) * 10⌉ := Int.ceil_pos.mpr (by linarith)
  rw [h1, Int.ceil_sub_one]
  omega

/-- The locals of `colorizeSoft` that its loop changes, and the Motions pushed to `dst`
so far. -/
structure ColorizeSoftState where
  currStartVec : IAVector3d
  color : Nat
  pushes : List IAToolpathMotion

/-- The body of the loop of `colorizeSoft`; `colorNow` is `getRGB(rgb, startVec)`. -/
def colorizeSoftStep (rgb : Int → Nat) (startVec deltaVec : IAVector3d) (len : Rat) (i : Rat)
    (s : ColorizeSoftState) : ColorizeSoftState :=
  let currVec := startVec.add (deltaVec.scale (i / len))
  let colorNow := getRGB rgb startVec
  if differ colorNow s.color then
    { currStartVec := currVec, color := colorNow,
      pushes := s.pushes
        ++ [{ IAToolpathMotion.create2 s.currStartVec currVec with pColor := some s.color }] }
  else s

/-- What `colorizeSoft` does for one Motion that is not rapid: the Motions pushed to
`dst`, in order. -/
def colorizeSoftMotion (length : IAVector3d → Rat) (rgb : Int → Nat) (m : IAToolpathMotion) :
    List IAToolpathMotion :=
  let startVec := m.pStart
  let endVec := m.pEnd
  let deltaVec := endVec.sub startVec
  let len := length (endVec.sub startVec)
  let s := forSteps len (colorizeSoftStep rgb startVec deltaVec len) (1 / 10)
    ⟨startVec, getRGB rgb startVec, []⟩
  if s.currStartVec ≠ endVec then
    s.pushes ++ [{ IAToolpathMotion.create2 s.currStartVec endVec with pColor := some s.color }]
  else s.pushes

/-- Embedding of `IAToolpath::colorizeSoft(rgb, dst)`: the toolpath `dst` after the
call. -/
def IAToolpath.colorizeSoft (self : IAToolpath) (length : IAVector3d → Rat) (rgb : Int → Nat)
    (dst : IAToolpath) : IAToolpath :=
  { dst with pList := dst.pList ++ (self.pList.flatMap fun e =>
      match e with
      | .motion m =>
        if ¬ m.pIsRapid then (colorizeSoftMotion length rgb m).map IAToolpathElement.motion
        else []
      | .extruder _ => []) }

/-- An image for the examples, 1024 pixels wide: red (255, 0, 0) in the pixel columns
below 512, blue (0, 0, 255) in the others, in the first row of pixels. -/
def redBlueImage (k : Int) : Nat :=
  if k < 1536 then (if k % 3 = 0 then 255 else 0) else (if k % 3 = 2 then 255 else 0)

/-- The local `hgt` of `sliceAll` as the machine computes it,
`pMax.z() - pMin.z() + 2.0*layerHeight()`: the difference, the product and the sum are
rounded to a `double` one after the other. -/
def IAPrinterFDM.hgtD (P : IAPrinterFDM) : Rat :=
  fl (fl (P.meshMaxZ - P.meshMinZ) + fl (2 * P.layerHeight))

/-- The local `zMin` of `sliceAll` as the machine computes it, `layerHeight() * 0.9`;
the constant is the `double` next to 9/10. -/
def IAPrinterFDM.zMinD (P : IAPrinterFDM) : Rat :=
  fl (P.layerHeight * fl (9 / 10))

/-- The local `zMax` of `sliceAll` (the branch `#if 1`) as the machine computes it. -/
def IAPrinterFDM.zMaxD (P : IAPrinterFDM) : Rat :=
  P.hgtD

/-- The `double` under the cast in `n = (int)((zMax-zMin)/zLayerHeight)`. -/
def IAPrinterFDM.layerQuotient (P : IAPrinterFDM) : Rat :=
  fl (fl (P.zMaxD - P.zMinD) / P.layerHeight)

/-- The local `n` of `sliceAll` as the machine computes it, when the cast `(int)` is
defined: the `double` quotient without its fraction. -/
def IAPrinterFDM.nD (P : IAPrinterFDM) : Int :=
  truncToInt P.layerQuotient

/-- The value of the loop variable `z` in turn `i` of either loop as the machine
computes it: `zMin` at first, and `z += zLayerHeight`, rounded to a `double`, after
every turn. -/
def IAPrinterFDM.zD (P : IAPrinterFDM) : Nat → Rat
  | 0 => P.zMinD
  | i + 1 => fl (P.zD i + P.layerHeight)

/-- The first loop of `sliceAll`, `for (z=zMin; z<zMax+2*zLayerHeight; z+=zLayerHeight)`,
in the arithmetic of `double`, from the turn with the values `z` and `i`; `fuel` bounds
the number of turns. The bound of the loop is computed anew in every turn, the product
and the sum rounded; the arguments `i*50/n` of the progress call divide by `n`. -/
def IAPrinterFDM.pass1D (P : IAPrinterFDM) : Nat → Rat → Nat → SliceState → Outcome SliceState
  | 0, _, _, _ => .noFuel
  | fuel + 1, z, i, s =>
    if z < fl (P.zMaxD + fl (2 * P.layerHeight)) then
      if P.nD = 0 then .undefined
      else if P.progressPass1 i then .ok s
      else
        match P.pass1Body z i s with
        | .ok s1 => P.pass1D fuel (fl (z + P.layerHeight)) (i + 1) s1
        | .undefined => .undefined
        | .noFuel => .noFuel
    else .ok s

/-- The second loop of `sliceAll`, `for (z=zMin; z<zMax-zLayerHeight; z+=zLayerHeight)`,
in the arithmetic of `double`, from the turn with the values `z` and `i`; `fuel` bounds
the number of turns. -/
def IAPrinterFDM.pass2D (P : IAPrinterFDM) : Nat → Rat → Nat → SliceState → Outcome SliceState
  | 0, _, _, _ => .noFuel
  | fuel + 1, z, i, s =>
    if z < fl (P.zMaxD - P.layerHeight) then
      if P.nD = 0 then .undefined
      else if P.progressPass2 i then .ok s
      else
        match P.pass2Body z i s with
        | .ok s1 => P.pass2D fuel (fl (z + P.layerHeight)) (i + 1) s1
        | .undefined => .undefined
        | .noFuel => .noFuel
    else .ok s

/-- The state in which the first loop of `sliceAll` starts, with `n` as the machine
computes it: the machine toolpath is cleared and `sliceList` has `n+4` null entries. -/
def IAPrinterFDM.initialD (P : IAPrinterFDM) (m : IAMachineToolpath) : SliceState :=
  { sliceList := List.replicate (P.nD + 4).toNat none, pMachineToolpath := m.clear }

/-- Embedding of `IAPrinterFDM::sliceAll()` in the arithmetic of `double`, up to the
point where the slices are deleted: the first loop, then the second loop with `i` back
at 0. Each loop may take `fuel` turns. The cast `(int)` of a quotient whose integral
part does not fit into 32 bits is undefined behaviour, and so is the sum `n+4` when it
does not fit. -/
def IAPrinterFDM.sliceAllD (P : IAPrinterFDM) (fuel : Nat) (m : IAMachineToolpath) :
    Outcome SliceState :=
  if -(2 ^ 31) - 1 < P.layerQuotient ∧ P.layerQuotient < 2 ^ 31 ∧ P.nD + 4 < 2 ^ 31 then
    (P.pass1D fuel P.zMinD 0 (P.initialD m)).bind fun s1 => P.pass2D fuel P.zMinD 0 s1
  else .undefined

/-- What holds of the state of `sliceAll` in the arithmetic of `double` when the first
loop has completed the turns `0 .. j-1`, for a slice list of length `L`: exactly the
slices below `j` exist; the machine toolpath is well formed; and every one of the
heights `zD 0 .. zD (j-1)` finds its layer. -/
structure Pass1InvD (P : IAPrinterFDM) (L j : Nat) (s : SliceState) : Prop where
  length_eq : s.sliceList.length = L
  created : ∀ i, i < j → ∃ slc, s.sliceList[i]? = some (some slc)
  notCreated : ∀ i, j ≤ i → i < L → s.sliceList[i]? = some none
  inv : s.pMachineToolpath.Inv
  found : ∀ i, i < j → ∃ p, s.pMachineToolpath.findLayer (P.zD i) = some p

/-- The example printer on a mesh from 0 to `2^31` with layer height 1. -/
def tallPrinter : IAPrinterFDM :=
  { demoPrinter with meshMaxZ := 2 ^ 31 }

/-- The example printer on a mesh from 0 to the `double` next to 0.19 with the `double`
next to 0.1 as layer height. -/
def thinPrinter : IAPrinterFDM :=
  { demoPrinter with meshMaxZ := fl (19 / 100), layerHeight := fl (1 / 10) }

/-! ## Theorems: the arithmetic of `double` -/

theorem roundHalfEven_near (q : Rat) : |(roundHalfEven q : Rat) - q| ≤ 1 / 2 := by
  have h1 := Int.floor_le q
  have h2 := Int.lt_floor_add_one q
  unfold roundHalfEven
  rw [abs_le]
  split_ifs with ha hb hc
  · constructor <;> linarith
  · push_cast; constructor <;> linarith
  · constructor <;> linarith
  · push_cast; constructor <;> linarith

theorem roundHalfEven_of_near (q : Rat) (m : Int) (h : |q - (m : Rat)| < 1 / 2) :
    roundHalfEven q = m := by
  rw [abs_lt] at h
  have hn := roundHalfEven_near q
  rw [abs_le] at hn
  have h3 : ((roundHalfEven q : Int) : Rat) - (m : Rat) < 1 := by linarith [h.1, h.2, hn.1, hn.2]
  have h4 : (-1 : Rat) < ((roundHalfEven q : Int) : Rat) - (m : Rat) := by
    linarith [h.1, h.2, hn.1, hn.2]
  have h5 : roundHalfEven q - m < 1 := by exact_mod_cast h3
  have h6 : -1 < roundHalfEven q - m := by exact_mod_cast h4
  omega

theorem roundHalfEven_intCast (k : Int) : roundHalfEven (k : Rat) = k :=
  roundHalfEven_of_near _ k (by simp)

theorem roundHalfEven_le_of_le_int (q : Rat) (k : Int) (h : q ≤ (k : Rat)) :
    roundHalfEven q ≤ k := by
  have hf : ⌊q⌋ ≤ k := by
    have h2 : ((⌊q⌋ : Int) : Rat) ≤ (k : Rat) := le_trans (Int.floor_le q) h
    exact_mod_cast h2
  by_cases heq : ⌊q⌋ = k
  · have hq : q = (k : Rat) := le_antisymm h (by rw [← heq]; exact Int.floor_le q)
    rw [hq, roundHalfEven_intCast]
  · have hlt : ⌊q⌋ + 1 ≤ k := by omega
    unfold roundHalfEven
    split_ifs <;> omega

theorem roundHalfEven_ge_of_int_le (q : Rat) (k : Int) (h : (k : Rat) ≤ q) :
    k ≤ roundHalfEven q := by
  have hf : k ≤ ⌊q⌋ := Int.le_floor.mpr h
  unfold roundHalfEven
  split_ifs <;> omega

theorem roundHalfEven_mono (q r : Rat) (h : q ≤ r) : roundHalfEven q ≤ roundHalfEven r := by
  have hfl : ⌊q⌋ ≤ ⌊r⌋ := Int.floor_mono h
  by_cases heq : ⌊q⌋ = ⌊r⌋
  · unfold roundHalfEven
    rw [heq]
    have hq : q - ⌊r⌋ ≤ r - ⌊r⌋ := by linarith
    split_ifs <;> first | omega | (exfalso; linarith)
  · have hlt : ⌊q⌋ + 1 ≤ ⌊r⌋ := by omega
    have h1 : roundHalfEven q ≤ ⌊q⌋ + 1 := by
      unfold roundHalfEven
      split_ifs <;> omega
    have h2 : ⌊r⌋ ≤ roundHalfEven r := by
      unfold roundHalfEven
      split_ifs <;> omega
    omega

theorem two_zpow_pos (e : Int) : (0 : Rat) < 2 ^ e := by positivity

theorem fl_zero : fl 0 = 0 := by
  simp [fl, roundHalfEven]

theorem log_bounds (x : Rat) (hx : x ≠ 0) :
    (2 : Rat) ^ Int.log 2 |x| ≤ |x| ∧ |x| < (2 : Rat) ^ (Int.log 2 |x| + 1) := by
  have h1 := Int.zpow_log_le_self (b := 2) (r := |x|) (by norm_num) (abs_pos.mpr hx)
  have h2 := Int.lt_zpow_succ_log_self (b := 2) (by norm_num) |x|
  exact ⟨by exact_mod_cast h1, by exact_mod_cast h2⟩

theorem log_eq_of_bounds (x : Rat) (e : Int) (h1 : (2 : Rat) ^ e ≤ |x|)
    (h2 : |x| < (2 : Rat) ^ (e + 1)) : Int.log 2 |x| = e := by
  have hpos : 0 < |x| := lt_of_lt_of_le (two_zpow_pos e) h1
  have ha : e ≤ Int.log 2 |x| :=
    (Int.zpow_le_iff_le_log (b := 2) (by norm_num) hpos).mp (by exact_mod_cast h1)
  have hb : Int.log 2 |x| < e + 1 :=
    (Int.lt_zpow_iff_log_lt (b := 2) (by norm_num) hpos).mp (by exact_mod_cast h2)
  omega

theorem log2Nat_spec (fuel n : Nat) (hf : n ≤ fuel) (hn : 1 ≤ n) :
    2 ^ log2Nat fuel n ≤ n ∧ n < 2 ^ (log2Nat fuel n + 1) := by
  induction fuel generalizing n with
  | zero => omega
  | succ f ih =>
    unfold log2Nat
    split_ifs with h
    · constructor
      · simpa using hn
      · simpa using h
    · obtain ⟨h3, h4⟩ := ih (n / 2) (by omega) (by omega)
      generalize log2Nat f (n / 2) = k at h3 h4 ⊢
      have e1 : 2 ^ (k + 1) = 2 * 2 ^ k := by ring
      have e2 : 2 ^ (k + 1 + 1) = 4 * 2 ^ k := by ring
      rw [e1] at h4
      rw [e1, e2]
      generalize 2 ^ k = t at h3 h4 ⊢
      omega

theorem binaryExponent_spec (x : Rat) (hx : x ≠ 0) :
    (2 : Rat) ^ binaryExponent x ≤ |x| ∧ |x| < (2 : Rat) ^ (binaryExponent x + 1) := by
  have hp : 1 ≤ x.num.natAbs := by
    have : x.num ≠ 0 := Rat.num_ne_zero.mpr hx
    omega
  have hq : 1 ≤ x.den := x.den_pos
  obtain ⟨ha1, ha2⟩ := log2Nat_spec x.num.natAbs x.num.natAbs le_rfl hp
  obtain ⟨hb1, hb2⟩ := log2Nat_spec x.den x.den le_rfl hq
  have habs : |x| = (x.num.natAbs : Rat) / (x.den : Rat) := by
    have h1 : (x.num.natAbs : Rat) = |(x.num : Rat)| := by rw [Nat.cast_natAbs, Int.cast_abs]
    rw [Rat.abs_def, Rat.divInt_eq_div, h1]
    simp
  have hq0 : (0 : Rat) < (x.den : Rat) := by exact_mod_cast hq
  unfold binaryExponent
  rw [if_neg hx]
  generalize log2Nat x.num.natAbs x.num.natAbs = a at ha1 ha2 ⊢
  generalize log2Nat x.den x.den = b at hb1 hb2 ⊢
  have ha1r : (2 : Rat) ^ (a : Int) ≤ (x.num.natAbs : Rat) := by
    rw [zpow_natCast]; exact_mod_cast ha1
  have ha2r : (x.num.natAbs : Rat) < (2 : Rat) ^ ((a : Int) + 1) := by
    rw [show ((a : Int) + 1) = ((a + 1 : Nat) : Int) by push_cast; ring, zpow_natCast]
    exact_mod_cast ha2
  have hb1r : (2 : Rat) ^ (b : Int) ≤ (x.den : Rat) := by
    rw [zpow_natCast]; exact_mod_cast hb1
  have hb2r : (x.den : Rat) < (2 : Rat) ^ ((b : Int) + 1) := by
    rw [show ((b : Int) + 1) = ((b + 1 : Nat) : Int) by push_cast; ring, zpow_natCast]
    exact_mod_cast hb2
  have hpb := two_zpow_pos (b : Int)
  have hup : |x| < (2 : Rat) ^ ((a : Int) - b + 1) := by
    rw [habs, div_lt_iff₀ hq0]
    calc (x.num.natAbs : Rat) < (2 : Rat) ^ ((a : Int) + 1) := ha2r
      _ = (2 : Rat) ^ ((a : Int) - b + 1) * 2 ^ (b : Int) := by
          rw [← zpow_add₀ (by norm_num)]; congr 1; ring
      _ ≤ (2 : Rat) ^ ((a : Int) - b + 1) * (x.den : Rat) :=
          mul_le_mul_of_nonneg_left hb1r (le_of_lt (two_zpow_pos _))
  have hlo : (2 : Rat) ^ ((a : Int) - b - 1) ≤ |x| := by
    rw [habs, le_div_iff₀ hq0]
    calc (2 : Rat) ^ ((a : Int) - b - 1) * (x.den : Rat)
        ≤ (2 : Rat) ^ ((a : Int) - b - 1) * 2 ^ ((b : Int) + 1) :=
          mul_le_mul_of_nonneg_left (le_of_lt hb2r) (le_of_lt (two_zpow_pos _))
      _ = (2 : Rat) ^ (a : Int) := by
          rw [← zpow_add₀ (by norm_num)]; congr 1; ring
      _ ≤ (x.num.natAbs : Rat) := ha1r
  split_ifs with h
  · exact ⟨h, hup⟩
  · refine ⟨hlo, ?_⟩
    rw [show (a : Int) - b - 1 + 1 = (a : Int) - b by ring]
    exact lt_of_not_le h

theorem binaryExponent_eq (x : Rat) : binaryExponent x = Int.log 2 |x| := by
  by_cases hx : x = 0
  · subst hx
    simp [binaryExponent]
  · obtain ⟨h1, h2⟩ := binaryExponent_spec x hx
    exact (log_eq_of_bounds x _ h1 h2).symm

theorem ulpExp_eq (x : Rat) : ulpExp x = max (Int.log 2 |x| - 52) (-1074) := by
  unfold ulpExp
  rw [binaryExponent_eq]

theorem fl_err (x : Rat) : |fl x - x| ≤ 2 ^ ulpExp x / 2 := by
  have hp := two_zpow_pos (ulpExp x)
  have hn := roundHalfEven_near (x / 2 ^ ulpExp x)
  have hx : x = x / 2 ^ ulpExp x * 2 ^ ulpExp x := by field_simp
  have h : fl x - x = ((roundHalfEven (x / 2 ^ ulpExp x) : Rat) - x / 2 ^ ulpExp x)
      * 2 ^ ulpExp x := by
    unfold fl
    rw [sub_mul, ← hx]
  rw [h, abs_mul, abs_of_pos hp]
  calc |(roundHalfEven (x / 2 ^ ulpExp x) : Rat) - x / 2 ^ ulpExp x| * 2 ^ ulpExp x
      ≤ 1 / 2 * 2 ^ ulpExp x := mul_le_mul_of_nonneg_right hn (le_of_lt hp)
    _ = 2 ^ ulpExp x / 2 := by ring

theorem ulpExp_of_normal (x : Rat) (h : (2 : Rat) ^ (-1022 : Int) ≤ |x|) :
    ulpExp x = Int.log 2 |x| - 52 := by
  have hpos : 0 < |x| := lt_of_lt_of_le (two_zpow_pos _) h
  have ha : (-1022 : Int) ≤ Int.log 2 |x| :=
    (Int.zpow_le_iff_le_log (b := 2) (by norm_num) hpos).mp (by exact_mod_cast h)
  simp only [ulpExp_eq]
  omega

theorem fl_rel (x : Rat) (h : (2 : Rat) ^ (-1022 : Int) ≤ |x|) :
    |fl x - x| ≤ 2 ^ (-53 : Int) * |x| := by
  have hx : x ≠ 0 := by
    intro h0
    rw [h0, abs_zero] at h
    exact absurd h (not_le.mpr (two_zpow_pos _))
  have he := fl_err x
  rw [ulpExp_of_normal x h] at he
  have hl := (log_bounds x hx).1
  have hsplit : (2 : Rat) ^ (Int.log 2 |x| - 52) / 2
      = 2 ^ (-53 : Int) * 2 ^ Int.log 2 |x| := by
    rw [show Int.log 2 |x| - 52 = Int.log 2 |x| + (-52) by ring, zpow_add₀ (by norm_num)]
    norm_num
    ring
  rw [hsplit] at he
  calc |fl x - x| ≤ 2 ^ (-53 : Int) * 2 ^ Int.log 2 |x| := he
    _ ≤ 2 ^ (-53 : Int) * |x| := mul_le_mul_of_nonneg_left hl (le_of_lt (two_zpow_pos _))

theorem fl_of_int_quotient (x : Rat) (k : Int) (h : x / 2 ^ ulpExp x = (k : Rat)) :
    fl x = x := by
  unfold fl
  rw [h, roundHalfEven_intCast, ← h]
  field_simp

theorem fl_scaled (m e : Int) (hm : |m| < 2 ^ 53) (he : -1074 ≤ e) :
    fl ((m : Rat) * 2 ^ e) = (m : Rat) * 2 ^ e := by
  by_cases hm0 : m = 0
  · rw [hm0]; simp [fl_zero]
  have hx : (m : Rat) * 2 ^ e ≠ 0 :=
    mul_ne_zero (by exact_mod_cast hm0) (ne_of_gt (two_zpow_pos e))
  have habs : |(m : Rat) * 2 ^ e| < (2 : Rat) ^ (e + 53) := by
    rw [abs_mul, abs_of_pos (two_zpow_pos e), zpow_add₀ (by norm_num), mul_comm]
    apply mul_lt_mul_of_pos_left _ (two_zpow_pos e)
    have : ((|m| : Int) : Rat) < ((2 ^ 53 : Int) : Rat) := by exact_mod_cast hm
    rw [Int.cast_abs] at this
    calc |(m : Rat)| < ((2 ^ 53 : Int) : Rat) := this
      _ = (2 : Rat) ^ (53 : Int) := by norm_num
  have hlog : Int.log 2 |(m : Rat) * 2 ^ e| < e + 53 :=
    (Int.lt_zpow_iff_log_lt (b := 2) (by norm_num) (abs_pos.mpr hx)).mp (by exact_mod_cast habs)
  have hE : ulpExp ((m : Rat) * 2 ^ e) ≤ e := by
    simp only [ulpExp_eq]
    omega
  obtain ⟨d, hd⟩ : ∃ d : Nat, e = ulpExp ((m : Rat) * 2 ^ e) + d :=
    ⟨(e - ulpExp ((m : Rat) * 2 ^ e)).toNat, by omega⟩
  apply fl_of_int_quotient _ (m * 2 ^ d)
  have hp := two_zpow_pos (ulpExp ((m : Rat) * 2 ^ e))
  rw [div_eq_iff (ne_of_gt hp)]
  push_cast
  conv_lhs => rw [hd]
  rw [zpow_add₀ (by norm_num), zpow_natCast]
  ring

theorem fl_int (k : Int) (h : |k| < 2 ^ 53) : fl (k : Rat) = k := by
  have := fl_scaled k 0 h (by norm_num)
  simpa using this

theorem fl_le_of_le_multiple (x : Rat) (k : Int) (h : x ≤ (k : Rat) * 2 ^ ulpExp x) :
    fl x ≤ (k : Rat) * 2 ^ ulpExp x := by
  have hp := two_zpow_pos (ulpExp x)
  unfold fl
  apply mul_le_mul_of_nonneg_right _ (le_of_lt hp)
  have : roundHalfEven (x / 2 ^ ulpExp x) ≤ k :=
    roundHalfEven_le_of_le_int _ k (by rw [div_le_iff₀ hp]; exact h)
  exact_mod_cast this

theorem fl_ge_of_multiple_le (x : Rat) (k : Int) (h : (k : Rat) * 2 ^ ulpExp x ≤ x) :
    (k : Rat) * 2 ^ ulpExp x ≤ fl x := by
  have hp := two_zpow_pos (ulpExp x)
  unfold fl
  apply mul_le_mul_of_nonneg_right _ (le_of_lt hp)
  have : k ≤ roundHalfEven (x / 2 ^ ulpExp x) :=
    roundHalfEven_ge_of_int_le _ k (by rw [le_div_iff₀ hp]; exact h)
  exact_mod_cast this

theorem fl_nonneg (x : Rat) (h : 0 ≤ x) : 0 ≤ fl x := by
  have := fl_ge_of_multiple_le x 0 (by simpa using h)
  simpa using this

theorem two_zpow_eq_natPow_mul (a b : Int) (h : b ≤ a) :
    (2 : Rat) ^ a = (((2 : Int) ^ (a - b).toNat : Int) : Rat) * 2 ^ b := by
  have : a = (a - b).toNat + b := by omega
  conv_lhs => rw [this]
  rw [zpow_add₀ (by norm_num), zpow_natCast]
  push_cast
  ring

theorem fl_mono_nonneg (x y : Rat) (hx : 0 ≤ x) (hxy : x ≤ y) : fl x ≤ fl y := by
  rcases eq_or_lt_of_le hx with h0 | hpos
  · rw [← h0, fl_zero]
    exact fl_nonneg y (le_trans hx hxy)
  have hypos : 0 < y := lt_of_lt_of_le hpos hxy
  have hax : |x| = x := abs_of_pos hpos
  have hay : |y| = y := abs_of_pos hypos
  have hlog : Int.log 2 |x| ≤ Int.log 2 |y| := by
    rw [hax, hay]
    exact Int.log_mono_right hpos hxy
  have hE : ulpExp x ≤ ulpExp y := by
    simp only [ulpExp_eq]
    omega
  rcases eq_or_lt_of_le hE with heq | hlt
  · unfold fl
    rw [heq]
    have hp := two_zpow_pos (ulpExp y)
    apply mul_le_mul_of_nonneg_right _ (le_of_lt hp)
    have : roundHalfEven (x / 2 ^ ulpExp y) ≤ roundHalfEven (y / 2 ^ ulpExp y) :=
      roundHalfEven_mono _ _ (div_le_div_of_nonneg_right hxy (le_of_lt hp))
    exact_mod_cast this
  · have hEy : ulpExp y = Int.log 2 |y| - 52 := by
      simp only [ulpExp_eq] at hlt ⊢
      omega
    have hlog2 : Int.log 2 |x| + 1 ≤ Int.log 2 |y| := by
      simp only [ulpExp_eq] at hlt
      omega
    have hbx : x < (2 : Rat) ^ (Int.log 2 |x| + 1) :=
      lt_of_le_of_lt (le_abs_self x) (log_bounds x (ne_of_gt hpos)).2
    have hby : (2 : Rat) ^ Int.log 2 |y| ≤ y :=
      le_trans (log_bounds y (ne_of_gt hypos)).1 (le_of_eq hay)
    -- the power of two between the two values
    have h1 : fl x ≤ (2 : Rat) ^ Int.log 2 |y| := by
      have hd : ulpExp x ≤ Int.log 2 |y| := by omega
      rw [two_zpow_eq_natPow_mul _ _ hd]
      apply fl_le_of_le_multiple
      rw [← two_zpow_eq_natPow_mul _ _ hd]
      calc x ≤ (2 : Rat) ^ (Int.log 2 |x| + 1) := le_of_lt hbx
        _ ≤ (2 : Rat) ^ Int.log 2 |y| := zpow_le_zpow_right₀ (by norm_num) hlog2
    have h2 : (2 : Rat) ^ Int.log 2 |y| ≤ fl y := by
      have hd : ulpExp y ≤ Int.log 2 |y| := by omega
      rw [two_zpow_eq_natPow_mul _ _ hd]
      apply fl_ge_of_multiple_le
      rw [← two_zpow_eq_natPow_mul _ _ hd]
      exact hby
    exact le_trans h1 h2

theorem fl_fl (x : Rat) : fl (fl x) = fl x := by
  by_cases hx : x = 0
  · rw [hx, fl_zero, fl_zero]
  have hp := two_zpow_pos (ulpExp x)
  have hb := log_bounds x hx
  have hE1 : Int.log 2 |x| - 52 ≤ ulpExp x := by simp only [ulpExp_eq]; omega
  have hE2 : (-1074 : Int) ≤ ulpExp x := by simp only [ulpExp_eq]; omega
  -- the quotient is below 2^53 in absolute value
  have hq : |x / 2 ^ ulpExp x| ≤ (((2 : Int) ^ 53 : Int) : Rat) := by
    rw [abs_div, abs_of_pos hp, div_le_iff₀ hp]
    have h3 : (2 : Rat) ^ (Int.log 2 |x| + 1) ≤ (2 : Rat) ^ (53 + ulpExp x) :=
      zpow_le_zpow_right₀ (by norm_num) (by omega)
    have h5 : (2 : Rat) ^ (53 + ulpExp x) = 2 ^ (53 : Int) * 2 ^ ulpExp x :=
      zpow_add₀ (by norm_num) _ _
    have h4 : ((((2 : Int) ^ 53 : Int) : Rat)) = (2 : Rat) ^ (53 : Int) := by norm_num
    rw [h4]
    linarith [hb.2]
  rw [abs_le] at hq
  have hm1 : roundHalfEven (x / 2 ^ ulpExp x) ≤ 2 ^ 53 :=
    roundHalfEven_le_of_le_int _ _ hq.2
  have hm2 : -(2 ^ 53) ≤ roundHalfEven (x / 2 ^ ulpExp x) :=
    roundHalfEven_ge_of_int_le _ _ (by push_cast at hq ⊢; exact hq.1)
  generalize hm : roundHalfEven (x / 2 ^ ulpExp x) = m at hm1 hm2
  have hfl : fl x = (m : Rat) * 2 ^ ulpExp x := by unfold fl; rw [hm]
  rw [hfl]
  by_cases hlt : |m| < 2 ^ 53
  · exact fl_scaled m _ hlt hE2
  · -- the quotient was rounded to plus or minus 2^53: the next power of two
    have hcase : m = 2 ^ 53 ∨ m = -(2 ^ 53) := by
      rcases abs_cases m with ⟨h, _⟩ | ⟨h, _⟩ <;> omega
    have hre : (m : Rat) * 2 ^ ulpExp x = ((m / 2 : Int) : Rat) * 2 ^ (ulpExp x + 1) := by
      rw [zpow_add₀ (by norm_num)]
      rcases hcase with h | h <;> rw [h] <;> norm_num <;> ring
    rw [hre]
    apply fl_scaled _ _ _ (by omega)
    rcases hcase with h | h <;> rw [h] <;> norm_num

theorem fl_eval (x : Rat) (e m : Int) (h1 : (2 : Rat) ^ e ≤ |x|) (h2 : |x| < (2 : Rat) ^ (e + 1))
    (h3 : -1022 ≤ e) (hm : |x / 2 ^ (e - 52) - (m : Rat)| < 1 / 2) :
    fl x = (m : Rat) * 2 ^ (e - 52) := by
  have hlog := log_eq_of_bounds x e h1 h2
  have hE : ulpExp x = e - 52 := by simp only [ulpExp_eq]; omega
  unfold fl
  rw [hE, roundHalfEven_of_near _ m hm]

theorem fl_repr (x : Rat) (m e : Int) (hx : x = (m : Rat) * 2 ^ e) (hm : |m| < 2 ^ 53)
    (he : -1074 ≤ e) : fl x = x := by
  rw [hx]
  exact fl_scaled m e hm he

theorem fl_between (x lo hi : Rat) (h0 : 0 ≤ lo) (h1 : lo ≤ x) (h2 : x ≤ hi)
    (rlo : fl lo = lo) (rhi : fl hi = hi) : lo ≤ fl x ∧ fl x ≤ hi := by
  constructor
  · rw [← rlo]
    exact fl_mono_nonneg lo x h0 h1
  · rw [← rhi]
    exact fl_mono_nonneg x hi (le_trans h0 h1) h2

theorem fl_form (x : Rat) :
    ∃ m e : Int, fl x = (m : Rat) * 2 ^ e ∧ |m| < 2 ^ 53 ∧ -1074 ≤ e := by
  by_cases hx : x = 0
  · exact ⟨0, 0, by rw [hx, fl_zero]; simp, by norm_num, by norm_num⟩
  have hp := two_zpow_pos (ulpExp x)
  have hb := log_bounds x hx
  have hE1 : Int.log 2 |x| - 52 ≤ ulpExp x := by simp only [ulpExp_eq]; omega
  have hE2 : (-1074 : Int) ≤ ulpExp x := by simp only [ulpExp_eq]; omega
  have hq : |x / 2 ^ ulpExp x| ≤ (((2 : Int) ^ 53 : Int) : Rat) := by
    rw [abs_div, abs_of_pos hp, div_le_iff₀ hp]
    have h3 : (2 : Rat) ^ (Int.log 2 |x| + 1) ≤ (2 : Rat) ^ (53 + ulpExp x) :=
      zpow_le_zpow_right₀ (by norm_num) (by omega)
    have h5 : (2 : Rat) ^ (53 + ulpExp x) = 2 ^ (53 : Int) * 2 ^ ulpExp x :=
      zpow_add₀ (by norm_num) _ _
    have h4 : ((((2 : Int) ^ 53 : Int) : Rat)) = (2 : Rat) ^ (53 : Int) := by norm_num
    rw [h4]
    linarith [hb.2]
  rw [abs_le] at hq
  have hm1 : roundHalfEven (x / 2 ^ ulpExp x) ≤ 2 ^ 53 :=
    roundHalfEven_le_of_le_int _ _ hq.2
  have hm2 : -(2 ^ 53) ≤ roundHalfEven (x / 2 ^ ulpExp x) :=
    roundHalfEven_ge_of_int_le _ _ (by push_cast at hq ⊢; exact hq.1)
  generalize hm : roundHalfEven (x / 2 ^ ulpExp x) = m at hm1 hm2
  have hfl : fl x = (m : Rat) * 2 ^ ulpExp x := by unfold fl; rw [hm]
  by_cases hlt : |m| < 2 ^ 53
  · exact ⟨m, ulpExp x, hfl, hlt, hE2⟩
  · have hcase : m = 2 ^ 53 ∨ m = -(2 ^ 53) := by
      rcases abs_cases m with ⟨h, _⟩ | ⟨h, _⟩ <;> omega
    have hre : (m : Rat) * 2 ^ ulpExp x = ((m / 2 : Int) : Rat) * 2 ^ (ulpExp x + 1) := by
      rw [zpow_add₀ (by norm_num)]
      rcases hcase with h | h <;> rw [h] <;> norm_num <;> ring
    refine ⟨m / 2, ulpExp x + 1, by rw [hfl, hre], ?_, by omega⟩
    rcases hcase with h | h <;> rw [h] <;> norm_num

theorem fl_pow_two_mul (x : Rat) (k : Nat) (h : fl x = x) : fl (2 ^ k * x) = 2 ^ k * x := by
  obtain ⟨m, e, hm, hlt, he⟩ := fl_form x
  rw [h] at hm
  have hx : (2 : Rat) ^ k * x = (m : Rat) * 2 ^ (e + (k : Int)) := by
    rw [hm, zpow_add₀ (by norm_num), zpow_natCast]
    ring
  rw [hx]
  exact fl_scaled m _ hlt (by omega)

theorem fl_two_mul (x : Rat) (h : fl x = x) : fl (2 * x) = 2 * x := by
  have := fl_pow_two_mul x 1 h
  simpa using this

theorem fl_one : fl 1 = 1 := by
  have := fl_int 1 (by norm_num)
  simpa using this

theorem fl_err_le (x b : Rat) (h1 : (2 : Rat) ^ (-1022 : Int) ≤ |x|) (h2 : |x| ≤ b) :
    |fl x - x| ≤ 2 ^ (-53 : Int) * b :=
  le_trans (fl_rel x h1) (mul_le_mul_of_nonneg_left h2 (le_of_lt (two_zpow_pos _)))

theorem lt_of_fl_lt (x y : Rat) (hy : 0 ≤ y) (h : fl x < fl y) : x < y := by
  by_contra hle
  exact absurd (fl_mono_nonneg y x hy (not_lt.mp hle)) (not_le.mpr h)

theorem fl_lower (x : Rat) (h0 : 0 ≤ x) (h1 : (2 : Rat) ^ (-1022 : Int) ≤ x) :
    x - 2 ^ (-53 : Int) * x ≤ fl x ∧ fl x ≤ x + 2 ^ (-53 : Int) * x := by
  have h := fl_rel x (by rwa [abs_of_nonneg h0])
  rw [abs_of_nonneg h0, abs_le] at h
  constructor <;> linarith [h.1, h.2]

/-! ## Theorems: toolpath assembly -/

theorem continuePath_pList_of_ne (tp : IAToolpath) (x y z : Rat) (h : tp.tPrev ≠ ⟨x, y, z⟩) :
    (tp.continuePath x y z).pList
      = tp.pList ++ [.motion ⟨tp.tPrev, ⟨x, y, z⟩, false, none⟩] := by
  simp [IAToolpath.continuePath, IAToolpathMotion.create2, IAToolpathMotion.create, h]

theorem continuePath_pList_of_eq (tp : IAToolpath) (x y z : Rat) (h : tp.tPrev = ⟨x, y, z⟩) :
    (tp.continuePath x y z).pList = tp.pList := by
  simp [IAToolpath.continuePath, h]

theorem continuePathAll_appends (ps : List IAVector3d) :
    ∀ tp : IAToolpath, List.Chain (fun a b => a ≠ b) tp.tPrev ps →
      ∃ added : List IAToolpathElement,
        (tp.continuePathAll ps).pList = tp.pList ++ added ∧ added.length = ps.length ∧
        ∀ e ∈ added, ∃ m : IAToolpathMotion,
          e = .motion m ∧ m.pIsRapid = false ∧ m.pStart ≠ m.pEnd := by
  induction ps with
  | nil => intro tp _; exact ⟨[], by simp [IAToolpath.continuePathAll], rfl, by simp⟩
  | cons p ps ih =>
    intro tp hc
    rw [List.chain_cons] at hc
    obtain ⟨hne, hrest⟩ := hc
    have hprev : (tp.continuePath p.x p.y p.z).tPrev = p := rfl
    obtain ⟨added, hl, hlen, hall⟩ :=
      ih (tp.continuePath p.x p.y p.z) (by rw [hprev]; exact hrest)
    refine ⟨.motion ⟨tp.tPrev, p, false, none⟩ :: added, ?_, by simp [hlen], ?_⟩
    · have h1 : (tp.continuePathAll (p :: ps)).pList
          = ((tp.continuePath p.x p.y p.z).continuePathAll ps).pList := rfl
      rw [h1, hl, continuePath_pList_of_ne tp p.x p.y p.z hne]
      simp
    · intro e he
      rcases List.mem_cons.mp he with rfl | he
      · exact ⟨_, rfl, rfl, hne⟩
      · exact hall e he

/-- C1: `continuePath(p)` appends exactly one non-rapid Motion from the cursor to `p`
when `p` differs from the cursor and appends nothing when `p` is the cursor; in both
cases the cursor becomes `p` and the first anchor stays. Hence a run of `n` calls, each
with a point that differs from the cursor of that moment, appends exactly `n` Motions,
all non-rapid and none with start equal to end. -/
theorem C1_continuePath (tp : IAToolpath) (x y z : Rat) :
    (tp.tPrev ≠ ⟨x, y, z⟩ →
      (tp.continuePath x y z).pList
        = tp.pList ++ [.motion ⟨tp.tPrev, ⟨x, y, z⟩, false, none⟩]) ∧
    (tp.tPrev = ⟨x, y, z⟩ → (tp.continuePath x y z).pList = tp.pList) ∧
    (tp.continuePath x y z).tPrev = ⟨x, y, z⟩ ∧
    (tp.continuePath x y z).tFirst = tp.tFirst ∧
    (∀ ps : List IAVector3d, List.Chain (fun a b => a ≠ b) tp.tPrev ps →
      ∃ added : List IAToolpathElement,
        (tp.continuePathAll ps).pList = tp.pList ++ added ∧ added.length = ps.length ∧
        ∀ e ∈ added, ∃ m : IAToolpathMotion,
          e = .motion m ∧ m.pIsRapid = false ∧ m.pStart ≠ m.pEnd) :=
  ⟨continuePath_pList_of_ne tp x y z, continuePath_pList_of_eq tp x y z, rfl, rfl,
    fun ps h => continuePathAll_appends ps tp h⟩

/-- C1 at a fresh toolpath of layer 0: a call with `(1, 0, 0)` appends the Motion from
`(0, 0, 0)`, a call with `(0, 0, 0)` appends nothing, and the two calls `(1, 0, 0)`,
`(2, 0, 0)` append two Motions. -/
theorem C1_continuePath_witness :
    ((IAToolpath.new 0).continuePath 1 0 0).pList
        = [.motion ⟨⟨0, 0, 0⟩, ⟨1, 0, 0⟩, false, none⟩] ∧
    ((IAToolpath.new 0).continuePath 0 0 0).pList = [] ∧
    ∃ added : List IAToolpathElement,
      ((IAToolpath.new 0).continuePathAll [⟨1, 0, 0⟩, ⟨2, 0, 0⟩]).pList = [] ++ added ∧
      added.length = 2 ∧
      ∀ e ∈ added, ∃ m : IAToolpathMotion,
        e = .motion m ∧ m.pIsRapid = false ∧ m.pStart ≠ m.pEnd :=
  ⟨(C1_continuePath (IAToolpath.new 0) 1 0 0).1 (by decide),
   (C1_continuePath (IAToolpath.new 0) 0 0 0).2.1 (by decide),
   (C1_continuePath (IAToolpath.new 0) 0 0 0).2.2.2.2 [⟨1, 0, 0⟩, ⟨2, 0, 0⟩]
     (List.Chain.cons (by decide) (List.Chain.cons (by decide) List.Chain.nil))⟩

/-- C2: `closePath()` appends exactly one non-rapid Motion from the cursor to the first
anchor when the two differ, and leaves the element list as it is when the cursor
is the first anchor. -/
theorem C2_closePath (tp : IAToolpath) :
    (tp.tPrev ≠ tp.tFirst →
      tp.closePath.pList = tp.pList ++ [.motion ⟨tp.tPrev, tp.tFirst, false, none⟩]) ∧
    (tp.tPrev = tp.tFirst → tp.closePath.pList = tp.pList) := by
  constructor
  · intro h
    simp [IAToolpath.closePath, IAToolpathMotion.create2, IAToolpathMotion.create, h]
  · intro h
    simp [IAToolpath.closePath, h]

/-- C2 on two toolpaths: one with the cursor at `(1, 0, 0)` away from the anchor
`(0, 0, 0)`, and a fresh one, whose cursor is its anchor. -/
theorem C2_closePath_witness :
    (IAToolpath.closePath ⟨[], ⟨0, 0, 0⟩, ⟨1, 0, 0⟩⟩).pList
        = [] ++ [.motion ⟨⟨1, 0, 0⟩, ⟨0, 0, 0⟩, false, none⟩] ∧
    (IAToolpath.new 0).closePath.pList = [] :=
  ⟨(C2_closePath ⟨[], ⟨0, 0, 0⟩, ⟨1, 0, 0⟩⟩).1 (by decide),
   (C2_closePath (IAToolpath.new 0)).2 (by decide)⟩

/-- C3: `closePath()` is not idempotent on a toolpath whose cursor differs from its
first anchor. After `startPath(0,0,0)` and `continuePath(1,0,0)` on a fresh toolpath,
one `closePath()` leaves three elements and a second call appends the closing Motion
once more, as the cursor was left at `(1, 0, 0)`. -/
theorem C3_closePath_twice :
    (((IAToolpath.new 0).startPath 0 0 0).continuePath 1 0 0).closePath.pList
      = [.motion ⟨⟨0, 0, 0⟩, ⟨0, 0, 0⟩, true, none⟩,
         .motion ⟨⟨0, 0, 0⟩, ⟨1, 0, 0⟩, false, none⟩,
         .motion ⟨⟨1, 0, 0⟩, ⟨0, 0, 0⟩, false, none⟩] ∧
    (((IAToolpath.new 0).startPath 0 0 0).continuePath 1 0 0).closePath.closePath.pList
      = [.motion ⟨⟨0, 0, 0⟩, ⟨0, 0, 0⟩, true, none⟩,
         .motion ⟨⟨0, 0, 0⟩, ⟨1, 0, 0⟩, false, none⟩,
         .motion ⟨⟨1, 0, 0⟩, ⟨0, 0, 0⟩, false, none⟩,
         .motion ⟨⟨1, 0, 0⟩, ⟨0, 0, 0⟩, false, none⟩] ∧
    (((IAToolpath.new 0).startPath 0 0 0).continuePath 1 0 0).closePath.closePath.pList
      ≠ (((IAToolpath.new 0).startPath 0 0 0).continuePath 1 0 0).closePath.pList := by
  decide

/-- C4: `startPath(p)` appends exactly one Motion, flagged rapid, from the previous
cursor to `p`; afterwards the first anchor and the cursor are both `p`, and the
elements that were in the list are still there, in front of the new one. -/
theorem C4_startPath (tp : IAToolpath) (x y z : Rat) :
    (tp.startPath x y z).pList
      = tp.pList ++ [.motion ⟨tp.tPrev, ⟨x, y, z⟩, true, none⟩] ∧
    (tp.startPath x y z).tFirst = ⟨x, y, z⟩ ∧
    (tp.startPath x y z).tPrev = ⟨x, y, z⟩ :=
  ⟨rfl, rfl, rfl⟩

/-- C5: the list is not connected after `startPath(1,0,0)`, `continuePath(2,0,0)`,
`closePath()`, `startPath(3,0,0)` on a fresh toolpath: the closing Motion ends at
`(1, 0, 0)`, and the Motion of the second `startPath` starts at the cursor that
`closePath` left at `(2, 0, 0)`. -/
theorem C5_not_connected :
    ((IAToolpath.new 0).run
        [.startPath 1 0 0, .continuePath 2 0 0, .closePath, .startPath 3 0 0]).pList
      = [.motion ⟨⟨0, 0, 0⟩, ⟨1, 0, 0⟩, true, none⟩,
         .motion ⟨⟨1, 0, 0⟩, ⟨2, 0, 0⟩, false, none⟩,
         .motion ⟨⟨2, 0, 0⟩, ⟨1, 0, 0⟩, false, none⟩,
         .motion ⟨⟨2, 0, 0⟩, ⟨3, 0, 0⟩, true, none⟩] ∧
    ¬ Connected ((IAToolpath.new 0).run
        [.startPath 1 0 0, .continuePath 2 0 0, .closePath, .startPath 3 0 0]).pList := by
  refine ⟨by decide, ?_⟩
  have h : ((IAToolpath.new 0).run
        [.startPath 1 0 0, .continuePath 2 0 0, .closePath, .startPath 3 0 0]).pList
      = [.motion ⟨⟨0, 0, 0⟩, ⟨1, 0, 0⟩, true, none⟩,
         .motion ⟨⟨1, 0, 0⟩, ⟨2, 0, 0⟩, false, none⟩,
         .motion ⟨⟨2, 0, 0⟩, ⟨1, 0, 0⟩, false, none⟩,
         .motion ⟨⟨2, 0, 0⟩, ⟨3, 0, 0⟩, true, none⟩] := by decide
  rw [h]
  simp [Connected, motionsOf]

theorem motionsOf_append_motion (l : List IAToolpathElement) (m : IAToolpathMotion) :
    motionsOf (l ++ [.motion m]) = motionsOf l ++ [m] := by
  induction l with
  | nil => rfl
  | cons e rest ih =>
    cases e with
    | motion m1 => simp [motionsOf, ih]
    | extruder e1 => simp [motionsOf, ih]

theorem connected_snoc (l : List IAToolpathElement) (m : IAToolpathMotion)
    (hc : Connected l) (hl : ∀ a ∈ (motionsOf l).getLast?, m.pStart = a.pEnd) :
    Connected (l ++ [.motion m]) := by
  unfold Connected at hc ⊢
  rw [motionsOf_append_motion, List.chain'_append]
  refine ⟨hc, List.chain'_singleton _, ?_⟩
  intro x hx y hy
  simp only [List.head?_cons, Option.mem_def, Option.some.injEq] at hy
  subst hy
  exact hl x hx

theorem connected_without_close (cs : List PathCall) :
    ∀ tp : IAToolpath, Connected tp.pList →
      (∀ a ∈ (motionsOf tp.pList).getLast?, a.pEnd = tp.tPrev) →
      (∀ c ∈ cs, c ≠ PathCall.closePath) →
      Connected (tp.run cs).pList := by
  induction cs with
  | nil => intro tp h _ _; exact h
  | cons c rest ih =>
    intro tp hc hl hcs
    have hrest : ∀ c ∈ rest, c ≠ PathCall.closePath :=
      fun c hc => hcs c (List.mem_cons_of_mem _ hc)
    show Connected ((tp.call c).run rest).pList
    cases c with
    | closePath => exact absurd rfl (hcs _ (List.mem_cons_self _ _))
    | startPath x y z =>
      refine ih _ (connected_snoc _ _ hc (fun a ha => (hl a ha).symm)) ?_ hrest
      intro a ha
      simp only [IAToolpath.call, IAToolpath.startPath, motionsOf_append_motion,
        List.getLast?_append, List.getLast?_singleton, Option.or, Option.mem_def,
        Option.some.injEq] at ha
      rw [← ha]; rfl
    | continuePath x y z =>
      by_cases hne : tp.tPrev = ⟨x, y, z⟩
      · have h1 : tp.call (.continuePath x y z) = { tp with tPrev := ⟨x, y, z⟩ } := by
          simp [IAToolpath.call, IAToolpath.continuePath, hne]
        rw [h1]
        exact ih _ hc (fun a ha => (hl a ha).trans hne) hrest
      · have h1 : (tp.call (.continuePath x y z)).pList
            = tp.pList ++ [.motion ⟨tp.tPrev, ⟨x, y, z⟩, false, none⟩] :=
          continuePath_pList_of_ne tp x y z hne
        refine ih _ ?_ ?_ hrest
        · rw [h1]; exact connected_snoc _ _ hc (fun a ha => (hl a ha).symm)
        · intro a ha
          rw [h1] at ha
          simp only [motionsOf_append_motion,
            List.getLast?_append, List.getLast?_singleton, Option.or, Option.mem_def,
            Option.some.injEq] at ha
          rw [← ha]; rfl

/-- Without `closePath` the list stays connected: every toolpath obtained from a fresh
one by `startPath` and `continuePath` calls is connected. -/
theorem connected_fresh_without_close (z : Rat) (cs : List PathCall)
    (hcs : ∀ c ∈ cs, c ≠ PathCall.closePath) : Connected ((IAToolpath.new z).run cs).pList :=
  connected_without_close cs (IAToolpath.new z) (by simp [Connected, IAToolpath.new, motionsOf])
    (by simp [IAToolpath.new, motionsOf]) hcs

theorem add_pList (tp : IAToolpath) :
    ∀ self : IAToolpath,
      (self.add tp).pList = self.pList ++ tp.pList.map IAToolpathElement.clone ∧
      (self.add tp).tFirst = self.tFirst ∧ (self.add tp).tPrev = self.tPrev := by
  unfold IAToolpath.add
  induction tp.pList with
  | nil => intro self; simp
  | cons e es ih =>
    intro self
    rw [List.foldl_cons]
    obtain ⟨h1, h2, h3⟩ := ih { self with pList := self.pList ++ [e.clone] }
    exact ⟨by rw [h1]; simp, h2, h3⟩

theorem clone_eq (e : IAToolpathElement) : e.clone = e := by
  cases e <;> rfl

/-- C6: after `A.add(B)` the list of `A` is the old list of `A` followed by the clones
of the elements of `B` in the order of `B`; a clone has the variant and all the field
values of its original (so the appended part equals the list of `B`, element by
element); the cursor and the first anchor of `A` are unchanged. `B` is an argument that
`add` only reads. -/
theorem C6_add (A B : IAToolpath) :
    (A.add B).pList = A.pList ++ B.pList.map IAToolpathElement.clone ∧
    (∀ m : IAToolpathMotion,
      (IAToolpathElement.motion m).clone = .motion m.clone ∧
      m.clone.pStart = m.pStart ∧ m.clone.pEnd = m.pEnd ∧
      m.clone.pIsRapid = m.pIsRapid ∧ m.clone.pColor = m.pColor) ∧
    (∀ e : IAToolpathExtruder,
      (IAToolpathElement.extruder e).clone = .extruder e.clone ∧ e.clone.pTool = e.pTool) ∧
    (A.add B).pList = A.pList ++ B.pList ∧
    (A.add B).tPrev = A.tPrev ∧ (A.add B).tFirst = A.tFirst := by
  obtain ⟨h1, h2, h3⟩ := add_pList B A
  refine ⟨h1, fun m => ⟨rfl, rfl, rfl, rfl, rfl⟩, fun e => ⟨rfl, rfl⟩, ?_, h3, h2⟩
  rw [h1]
  congr 1
  conv_rhs => rw [← List.map_id B.pList]
  exact List.map_congr_left (fun e _ => clone_eq e)

/-! ## Theorems: the layer map -/

theorem toInt32_of_fits (n : Int) (h1 : -2 ^ 31 ≤ n) (h2 : n < 2 ^ 31) : toInt32 n = n := by
  unfold toInt32
  rw [Int.emod_eq_of_lt (by omega) (by omega)]
  omega

theorem lround_near (x : Rat) : |((lround x : Int) : Rat) - x| ≤ 1 / 2 := by
  unfold lround
  rw [abs_le]
  split
  · have h1 := Int.floor_le (x + 1 / 2)
    have h2 := Int.lt_floor_add_one (x + 1 / 2)
    constructor <;> linarith
  · have h1 := Int.le_ceil (x - 1 / 2)
    have h2 := Int.ceil_lt_add_one (x - 1 / 2)
    constructor <;> linarith

theorem mapFind_mapInsert (k : Int) (v : Nat) (l : List (Int × Nat))
    (h : mapFind k l = none) : mapFind k (mapInsert k v l) = some v := by
  induction l with
  | nil => simp [mapInsert, mapFind]
  | cons e rest ih =>
    obtain ⟨k1, v1⟩ := e
    by_cases hk : k1 = k
    · simp [mapFind, hk] at h
    · have hrest : mapFind k rest = none := by simpa [mapFind, hk] using h
      have hk2 : ¬ k = k1 := fun h => hk h.symm
      unfold mapInsert
      by_cases hlt : k < k1
      · simp [hlt, mapFind]
      · simp [hlt, hk2, mapFind, hk, ih hrest]

theorem mapFind_none_of_no_entry (k : Int) (l : List (Int × Nat))
    (h : ∀ entry ∈ l, entry.1 ≠ k) : mapFind k l = none := by
  induction l with
  | nil => rfl
  | cons e rest ih =>
    obtain ⟨k1, v1⟩ := e
    have hk : k1 ≠ k := h (k1, v1) (List.mem_cons_self _ _)
    simp only [mapFind, hk, if_false]
    exact ih (fun entry he => h entry (List.mem_cons_of_mem _ he))

theorem createLayer_findLayer (m : IAMachineToolpath) (z1 z2 : Rat)
    (h : roundLayerNumber z1 = roundLayerNumber z2) :
    (m.createLayer z1).1.findLayer z2 = some (m.createLayer z1).2 := by
  cases hf : mapFind (roundLayerNumber z1) m.pLayerMap with
  | none =>
    simp [IAMachineToolpath.createLayer, IAMachineToolpath.findLayer, ← h, hf,
      mapFind_mapInsert _ _ _ hf]
  | some p =>
    simp [IAMachineToolpath.createLayer, IAMachineToolpath.findLayer, ← h, hf]

theorem lround_of_bounds (x : Rat) (n : Int) (h0 : 0 ≤ x) (h1 : (n : Rat) ≤ x + 1 / 2)
    (h2 : x + 1 / 2 < n + 1) : lround x = n := by
  unfold lround
  rw [if_pos h0, Int.floor_eq_iff]
  exact ⟨h1, h2⟩

theorem fl_tenth : fl (1 / 10) = 3602879701896397 / 36028797018963968 := by
  rw [fl_eval (1 / 10) (-4) 7205759403792794 (by norm_num [abs_of_pos])
    (by norm_num [abs_of_pos]) (by norm_num) (by norm_num [abs_lt])]
  norm_num

theorem fl_tenth_times_seven :
    fl (fl (1 / 10) * 7) = 6305039478318695 / 9007199254740992 := by
  rw [fl_tenth, fl_eval _ (-1) 6305039478318695 (by norm_num [abs_of_pos])
    (by norm_num [abs_of_pos]) (by norm_num) (by norm_num [abs_lt])]
  norm_num

theorem fl_seven_tenths : fl (7 / 10) = 6305039478318694 / 9007199254740992 := by
  rw [fl_eval (7 / 10) (-1) 6305039478318694 (by norm_num [abs_of_pos])
    (by norm_num [abs_of_pos]) (by norm_num) (by norm_num [abs_lt])]
  norm_num

theorem roundLayerNumber_of_bounds (z : Rat) (k : Int) (h0 : 1 ≤ k) (h31 : k < 2 ^ 31)
    (h1 : (k : Rat) - 7 / 16 ≤ z * 1000) (h2 : z * 1000 ≤ (k : Rat) + 7 / 16) :
    roundLayerNumber z = k := by
  have hk1 : (1 : Rat) ≤ (k : Rat) := by exact_mod_cast h0
  have rlo : fl ((k : Rat) - 7 / 16) = (k : Rat) - 7 / 16 :=
    fl_repr _ (16 * k - 7) (-4) (by push_cast; norm_num; ring) (by rw [abs_lt]; omega)
      (by norm_num)
  have rhi : fl ((k : Rat) + 7 / 16) = (k : Rat) + 7 / 16 :=
    fl_repr _ (16 * k + 7) (-4) (by push_cast; norm_num; ring) (by rw [abs_lt]; omega)
      (by norm_num)
  obtain ⟨hl, hh⟩ := fl_between (z * 1000) _ _ (by linarith) h1 h2 rlo rhi
  unfold roundLayerNumber
  rw [lround_of_bounds (fl (z * 1000)) k (by linarith) (by linarith) (by linarith)]
  exact toInt32_of_fits k (by omega) h31

theorem roundLayerNumber_drift :
    roundLayerNumber (6305039478318695 / 9007199254740992) = 700 ∧
    roundLayerNumber (6305039478318694 / 9007199254740992) = 700 :=
  ⟨roundLayerNumber_of_bounds _ 700 (by norm_num) (by norm_num) (by norm_num) (by norm_num),
   roundLayerNumber_of_bounds _ 700 (by norm_num) (by norm_num) (by norm_num) (by norm_num)⟩

theorem fl_product_1_0005 :
    fl (4505851427184181 / 4503599627370496 * 1000) = 2001 / 2 := by
  rw [fl_eval _ 9 8800491068719104 (by norm_num [abs_of_pos]) (by norm_num [abs_of_pos])
    (by norm_num) (by norm_num [abs_lt])]
  norm_num

/-- C7, as stated, fails: for the double `z` nearest to 1.0005, which is below 1.0005,
the product `z * 1000.0` is the double 1000.5, so the key of `z` is 1001, while
`z * 1000` rounded to the nearest integer is 1000; the key is more than 1/2 away from
`z * 1000`. The double nearest to 1.0004 also has 1000 as its product rounded, yet a
layer created for `z` is not found for it. -/
theorem C7_layer_key_counterexample :
    fl (4505851427184181 / 4503599627370496) = 4505851427184181 / 4503599627370496 ∧
    fl (4505851427184181 / 4503599627370496 * 1000) = 2001 / 2 ∧
    roundLayerNumber (4505851427184181 / 4503599627370496) = 1001 ∧
    lround (4505851427184181 / 4503599627370496 * 1000) = 1000 ∧
    ¬ |((roundLayerNumber (4505851427184181 / 4503599627370496) : Int) : Rat)
        - 4505851427184181 / 4503599627370496 * 1000| ≤ 1 / 2 ∧
    lround (1126350266805361 / 1125899906842624 * 1000) = 1000 ∧
    (IAMachineToolpath.new.createLayer (4505851427184181 / 4503599627370496)).1.findLayer
        (1126350266805361 / 1125899906842624) = none := by
  have hkey : roundLayerNumber (4505851427184181 / 4503599627370496) = 1001 := by
    unfold roundLayerNumber
    rw [fl_product_1_0005, lround_of_bounds (2001 / 2) 1001 (by norm_num) (by norm_num)
      (by norm_num)]
    decide
  have hkey2 : roundLayerNumber (1126350266805361 / 1125899906842624) = 1000 :=
    roundLayerNumber_of_bounds _ 1000 (by norm_num) (by norm_num) (by norm_num) (by norm_num)
  refine ⟨fl_repr _ 4505851427184181 (-52) (by norm_num) (by norm_num) (by norm_num),
    fl_product_1_0005, hkey,
    lround_of_bounds _ 1000 (by norm_num) (by norm_num) (by norm_num), ?_,
    lround_of_bounds _ 1000 (by norm_num) (by norm_num) (by norm_num), ?_⟩
  · rw [hkey]
    norm_num [abs_le]
  · simp [IAMachineToolpath.createLayer, IAMachineToolpath.findLayer, IAMachineToolpath.new,
      hkey, hkey2, mapFind, mapInsert]

/-- C7, amended: the layer key of `z` is the `double` product `z * 1000.0` rounded to
the nearest integer, halfway cases away from zero (for every `z` whose rounded product
fits the `int` that holds the key); it is within 1/2 of the `double` product and, for a
product that is not below the smallest normal `double` in magnitude, within
`1/2 + 2^-53 * |z * 1000|` of `z * 1000`. For all `z1`, `z2` with equal keys,
`findLayer(z2)` after `createLayer(z1)` returns the pointer that `createLayer`
returned; `findLayer` returns `nullptr` for a `z` whose key has no entry. The doubles
`0.1 * 7` and `0.7` differ and have the same key, 700. -/
theorem C7_layer_key :
    (∀ z : Rat, -2 ^ 31 ≤ lround (fl (z * 1000)) → lround (fl (z * 1000)) < 2 ^ 31 →
      roundLayerNumber z = lround (fl (z * 1000)) ∧
      |((roundLayerNumber z : Int) : Rat) - fl (z * 1000)| ≤ 1 / 2 ∧
      ((2 : Rat) ^ (-1022 : Int) ≤ |z * 1000| →
        |((roundLayerNumber z : Int) : Rat) - z * 1000|
          ≤ 1 / 2 + 2 ^ (-53 : Int) * |z * 1000|)) ∧
    (∀ (m : IAMachineToolpath) (z1 z2 : Rat), roundLayerNumber z1 = roundLayerNumber z2 →
      (m.createLayer z1).1.findLayer z2 = some (m.createLayer z1).2) ∧
    (∀ (m : IAMachineToolpath) (z : Rat),
      (∀ entry ∈ m.pLayerMap, entry.1 ≠ roundLayerNumber z) → m.findLayer z = none) ∧
    fl (fl (1 / 10) * 7) ≠ fl (7 / 10) ∧
    roundLayerNumber (fl (fl (1 / 10) * 7)) = 700 ∧ roundLayerNumber (fl (7 / 10)) = 700 := by
  refine ⟨?_, createLayer_findLayer, ?_, ?_, ?_, ?_⟩
  · intro z h1 h2
    have h : roundLayerNumber z = lround (fl (z * 1000)) := by
      unfold roundLayerNumber; exact toInt32_of_fits _ h1 h2
    have hn := lround_near (fl (z * 1000))
    refine ⟨h, by rw [h]; exact hn, fun hnorm => ?_⟩
    rw [h]
    have hr := fl_rel (z * 1000) hnorm
    calc |((lround (fl (z * 1000)) : Int) : Rat) - z * 1000|
        = |(((lround (fl (z * 1000)) : Int) : Rat) - fl (z * 1000))
            + (fl (z * 1000) - z * 1000)| := by ring_nf
      _ ≤ |((lround (fl (z * 1000)) : Int) : Rat) - fl (z * 1000)|
            + |fl (z * 1000) - z * 1000| := abs_add _ _
      _ ≤ 1 / 2 + 2 ^ (-53 : Int) * |z * 1000| := add_le_add hn hr
  · intro m z h
    exact mapFind_none_of_no_entry _ _ h
  · rw [fl_tenth_times_seven, fl_seven_tenths]
    norm_num
  · rw [fl_tenth_times_seven]
    exact roundLayerNumber_drift.1
  · rw [fl_seven_tenths]
    exact roundLayerNumber_drift.2

theorem fl_700 : fl (7 / 10 * 1000) = 700 := by
  have h : (7 / 10 * 1000 : Rat) = ((700 : Int) : Rat) := by norm_num
  rw [h, fl_int 700 (by norm_num)]
  norm_num

theorem lround_700 : lround (fl (7 / 10 * 1000)) = 700 := by
  rw [fl_700]
  exact lround_of_bounds 700 700 (by norm_num) (by norm_num) (by norm_num)

/-- C7, amended, at `z = 0.7` and at the two doubles `0.1 * 7` and `0.7`: the key of
`0.7` is the rounded product 700, a layer created for `0.1 * 7` in an empty machine
toolpath is found for `0.7`, and nothing is found in the empty machine toolpath. -/
theorem C7_layer_key_witness :
    (roundLayerNumber (7 / 10) = lround (fl (7 / 10 * 1000)) ∧
      |((roundLayerNumber (7 / 10) : Int) : Rat) - fl (7 / 10 * 1000)| ≤ 1 / 2) ∧
    (IAMachineToolpath.new.createLayer (fl (fl (1 / 10) * 7))).1.findLayer (fl (7 / 10))
      = some (IAMachineToolpath.new.createLayer (fl (fl (1 / 10) * 7))).2 ∧
    IAMachineToolpath.new.findLayer (7 / 10) = none :=
  ⟨⟨(C7_layer_key.1 (7 / 10) (by rw [lround_700]; decide) (by rw [lround_700]; decide)).1,
     (C7_layer_key.1 (7 / 10) (by rw [lround_700]; decide) (by rw [lround_700]; decide)).2.1⟩,
   C7_layer_key.2.1 IAMachineToolpath.new _ _
     (C7_layer_key.2.2.2.2.1.trans C7_layer_key.2.2.2.2.2.symm),
   C7_layer_key.2.2.1 IAMachineToolpath.new (7 / 10) (by simp [IAMachineToolpath.new])⟩

/-! ## Theorems: code generation -/

/-- C8: `saveGCode` returns false exactly when the writer cannot open the destination;
in that case no command is written by the writer; when the destination opens, it
returns true. The machine toolpath is an argument that `saveGCode` only reads. -/
theorem C8_saveGCode_open (quad : Bool) (fs : String → Bool) (m : IAMachineToolpath)
    (filename : String) :
    ((m.saveGCode quad fs filename).1 = false ↔ fs filename = false) ∧
    (fs filename = false → (m.saveGCode quad fs filename).2.out = []) ∧
    (fs filename = true → (m.saveGCode quad fs filename).1 = true) := by
  unfold IAMachineToolpath.saveGCode IAGcodeWriter.open
  cases h : fs filename <;> simp [IAGcodeWriter.new]

/-- C8 on a machine toolpath with one layer: with a file system on which nothing can be
opened no command is written, and with one on which everything opens the result is
true. -/
theorem C8_saveGCode_open_witness :
    ((IAMachineToolpath.new.createLayer 1).1.saveGCode false (fun _ => false) "a.gcode").2.out
        = [] ∧
    ((IAMachineToolpath.new.createLayer 1).1.saveGCode false (fun _ => true) "a.gcode").1
        = true :=
  ⟨(C8_saveGCode_open false (fun _ => false) (IAMachineToolpath.new.createLayer 1).1
      "a.gcode").2.1 rfl,
   (C8_saveGCode_open false (fun _ => true) (IAMachineToolpath.new.createLayer 1).1
      "a.gcode").2.2 rfl⟩

theorem motion_saveGCode_rapid (quad : Bool) (m : IAToolpathMotion) (w : IAGcodeWriter)
    (h : m.pIsRapid = true) :
    (m.saveGCode quad w).out = w.out ++
      (if quad then [GCommand.extrudeRel (-1), .rapidMove m.pEnd, .extrudeRel 1]
        else [GCommand.extrude (-1), .rapidMove m.pEnd, .extrude 1]) := by
  cases quad <;>
    simp [IAToolpathMotion.saveGCode, h, IAGcodeWriter.cmdExtrude, IAGcodeWriter.cmdExtrudeRel,
      IAGcodeWriter.cmdRapidMove, IAGcodeWriter.emit]

/-- C10: serialising a rapid Motion writes exactly three commands, whatever the state
of the generator: a retract (extrude -1), a rapid move to the end point of the
Motion, an un-retract (extrude +1); with `IA_QUAD` the two extrusions are the relative
command. The start point plays no part: a Motion with any other start point leaves the
same writer. -/
theorem C10_rapid_motion (quad : Bool) (m : IAToolpathMotion) (w : IAGcodeWriter)
    (h : m.pIsRapid = true) :
    (m.saveGCode quad w).out = w.out ++
      (if quad then [GCommand.extrudeRel (-1), .rapidMove m.pEnd, .extrudeRel 1]
        else [GCommand.extrude (-1), .rapidMove m.pEnd, .extrude 1]) ∧
    ∀ s : IAVector3d,
      IAToolpathMotion.saveGCode quad { m with pStart := s } w = m.saveGCode quad w := by
  refine ⟨motion_saveGCode_rapid quad m w h, fun s => ?_⟩
  cases quad <;> simp [IAToolpathMotion.saveGCode, h]

/-- C10 for the rapid Motion from `(5, 5, 0)` to `(1, 2, 0)`, serialised by a new
writer without `IA_QUAD`. -/
theorem C10_rapid_motion_witness :
    (IAToolpathMotion.saveGCode false ⟨⟨5, 5, 0⟩, ⟨1, 2, 0⟩, true, none⟩
        IAGcodeWriter.new).out
      = [GCommand.extrude (-1), .rapidMove ⟨1, 2, 0⟩, .extrude 1] :=
  (C10_rapid_motion false ⟨⟨5, 5, 0⟩, ⟨1, 2, 0⟩, true, none⟩ IAGcodeWriter.new rfl).1

/-! ### Framing: a step appends to the stream and depends on the generator state only -/

theorem Framed.out_eq {f : IAGcodeWriter → IAGcodeWriter} (hf : Framed f) (w : IAGcodeWriter) :
    (f w).out = w.out ++ emitted f w :=
  (hf w w ⟨rfl, rfl⟩).1

theorem Framed.emitted_eq {f : IAGcodeWriter → IAGcodeWriter} (hf : Framed f)
    {w v : IAGcodeWriter} (h : SameState w v) : emitted f v = emitted f w := by
  have h1 := (hf w v h).1
  unfold emitted at h1 ⊢
  rw [h1]
  simp

theorem Framed.comp {f g : IAGcodeWriter → IAGcodeWriter} (hf : Framed f) (hg : Framed g) :
    Framed (fun w => g (f w)) ∧
    ∀ w, emitted (fun w => g (f w)) w = emitted f w ++ emitted g (f w) := by
  have hem : ∀ w, emitted (fun w => g (f w)) w = emitted f w ++ emitted g (f w) := by
    intro w
    have h1 : (g (f w)).out = w.out ++ (emitted f w ++ emitted g (f w)) := by
      rw [hg.out_eq (f w), hf.out_eq w, List.append_assoc]
    show (g (f w)).out.drop w.out.length = _
    rw [h1]
    simp
  refine ⟨fun w v h => ?_, hem⟩
  obtain ⟨h1, h2⟩ := hf w v h
  obtain ⟨h3, h4⟩ := hg (f w) (f v) h2
  refine ⟨?_, h4⟩
  rw [h3, h1, hem w, List.append_assoc]

theorem framed_id : Framed (fun w => w) := by
  intro w v h
  exact ⟨by simp [emitted], h⟩

theorem framed_foldl {α : Type} (step : IAGcodeWriter → α → IAGcodeWriter)
    (hstep : ∀ a, Framed (fun w => step w a)) (l : List α) :
    Framed (fun w => l.foldl step w) := by
  induction l with
  | nil => exact framed_id
  | cons a rest ih => exact (Framed.comp (hstep a) ih).1

theorem emitted_foldl_cons {α : Type} (step : IAGcodeWriter → α → IAGcodeWriter)
    (hstep : ∀ a, Framed (fun w => step w a)) (a : α) (rest : List α) (w : IAGcodeWriter) :
    emitted (fun w => (a :: rest).foldl step w) w
      = emitted (fun w => step w a) w ++ emitted (fun w => rest.foldl step w) (step w a) :=
  (Framed.comp (hstep a) (framed_foldl step hstep rest)).2 w

theorem framed_emit (c : GCommand) : Framed (fun w => w.emit c) := by
  intro w v h
  exact ⟨by simp [emitted, IAGcodeWriter.emit], h⟩

theorem emitted_emit (c : GCommand) (w : IAGcodeWriter) : emitted (fun w => w.emit c) w = [c] := by
  simp [emitted, IAGcodeWriter.emit]

theorem sameState_emit (c : GCommand) (w : IAGcodeWriter) : SameState w (w.emit c) :=
  ⟨rfl, rfl⟩

theorem SameState.symm {a b : IAGcodeWriter} (h : SameState a b) : SameState b a :=
  ⟨h.1.symm, h.2.symm⟩

theorem SameState.trans {a b c : IAGcodeWriter} (h1 : SameState a b) (h2 : SameState b c) :
    SameState a c :=
  ⟨h1.1.trans h2.1, h1.2.trans h2.2⟩

theorem framed_motion (quad : Bool) (m : IAToolpathMotion) :
    Framed (fun w => m.saveGCode quad w) := by
  intro w v h
  rcases w with ⟨o1, out1, pos1, t1⟩
  rcases v with ⟨o2, out2, pos2, t2⟩
  obtain ⟨hp, ht⟩ := h
  simp only at hp ht
  subst hp ht
  cases quad <;> cases hr : m.pIsRapid <;> by_cases hs : pos1 = m.pStart <;>
    simp [SameState, emitted, IAToolpathMotion.saveGCode, hr, hs, IAGcodeWriter.position,
      IAGcodeWriter.cmdExtrude, IAGcodeWriter.cmdExtrudeRel, IAGcodeWriter.cmdRapidMove,
      IAGcodeWriter.cmdMove, IAGcodeWriter.cmdMoveColor, IAGcodeWriter.emit]

theorem framed_extruder (e : IAToolpathExtruder) : Framed (fun w => e.saveGCode w) := by
  intro w v h
  rcases w with ⟨o1, out1, pos1, t1⟩
  rcases v with ⟨o2, out2, pos2, t2⟩
  obtain ⟨hp, ht⟩ := h
  simp only at hp ht
  subst hp ht
  have hrange : List.range 4 = [0, 1, 2, 3] := rfl
  simp [SameState, emitted, IAToolpathExtruder.saveGCode, hrange, IAGcodeWriter.cmdComment,
    IAGcodeWriter.cmdSelectExtruder, IAGcodeWriter.cmdResetExtruder, IAGcodeWriter.cmdExtrude,
    IAGcodeWriter.cmdRapidMoveXY, IAGcodeWriter.cmdMoveXY, IAGcodeWriter.emit]

theorem framed_element (quad : Bool) (e : IAToolpathElement) :
    Framed (fun w => e.saveGCode quad w) := by
  cases e with
  | motion m => exact framed_motion quad m
  | extruder e => exact framed_extruder e

theorem serialization_eq (quad : Bool) (es : List IAToolpathElement) :
    ∀ w, serialization quad w es
      = emitted (fun w => es.foldl (fun w e => e.saveGCode quad w) w) w := by
  induction es with
  | nil => intro w; simp [serialization, emitted]
  | cons e rest ih =>
    intro w
    rw [emitted_foldl_cons (fun w e => IAToolpathElement.saveGCode quad e w)
      (fun a => framed_element quad a) e rest w]
    simp only [serialization]
    rw [ih]

theorem framed_elements (quad : Bool) (es : List IAToolpathElement) :
    Framed (fun w => es.foldl (fun w e => e.saveGCode quad w) w) :=
  framed_foldl (fun w e => IAToolpathElement.saveGCode quad e w)
    (fun a => framed_element quad a) es

theorem serialization_congr (quad : Bool) (es : List IAToolpathElement) {w v : IAGcodeWriter}
    (h : SameState w v) : serialization quad v es = serialization quad w es := by
  rw [serialization_eq, serialization_eq]
  exact (framed_elements quad es).emitted_eq h

theorem framed_toolpath (quad : Bool) (tp : IAToolpath) :
    Framed (fun w => tp.saveGCode quad w) :=
  (Framed.comp (framed_emit (.comment "Send generated toolpath..." []))
    (framed_elements quad tp.pList)).1

theorem emitted_toolpath (quad : Bool) (tp : IAToolpath) (w : IAGcodeWriter) :
    emitted (fun w => tp.saveGCode quad w) w
      = [.comment "Send generated toolpath..." []] ++ serialization quad w tp.pList := by
  have h := (Framed.comp (framed_emit (.comment "Send generated toolpath..." []))
    (framed_elements quad tp.pList)).2 w
  have h2 : emitted (fun w => tp.saveGCode quad w) w
      = emitted (fun w => w.emit (.comment "Send generated toolpath..." [])) w ++
        emitted (fun w => tp.pList.foldl (fun w e => e.saveGCode quad w) w)
          (w.emit (.comment "Send generated toolpath..." [])) := h
  rw [h2, emitted_emit, ← serialization_eq]
  rw [serialization_congr quad tp.pList (sameState_emit _ w)]

theorem sameState_toolpath (quad : Bool) (tp : IAToolpath) {w v : IAGcodeWriter}
    (h : SameState w v) : SameState (stateAfterLayer quad w tp) (tp.saveGCode quad v) := by
  have h1 : SameState w (v.emit (.comment "Send generated toolpath..." [])) :=
    h.trans (sameState_emit _ v)
  exact ((framed_elements quad tp.pList) w _ h1).2

theorem framed_savePath (quad : Bool) (m : IAMachineToolpath) (p : Nat) :
    Framed (fun w => m.savePath quad p w) := by
  unfold IAMachineToolpath.savePath
  cases m.store[p]? with
  | none => exact framed_id
  | some tp => exact framed_toolpath quad tp

theorem framed_header (key : Int) :
    Framed (fun w : IAGcodeWriter =>
      (((w.cmdComment "" []).cmdComment "==== layer at z=%g"
        [.real ((key : Rat) / 1000)]).cmdComment "" []).cmdResetExtruder) ∧
    ∀ w : IAGcodeWriter,
      emitted (fun w : IAGcodeWriter =>
        (((w.cmdComment "" []).cmdComment "==== layer at z=%g"
          [.real ((key : Rat) / 1000)]).cmdComment "" []).cmdResetExtruder) w
        = layerComments key ++ [.resetExtruder] := by
  constructor
  · intro w v h
    exact ⟨by simp [emitted, IAGcodeWriter.cmdComment, IAGcodeWriter.cmdResetExtruder,
      IAGcodeWriter.emit], h⟩
  · intro w
    simp [emitted, IAGcodeWriter.cmdComment, IAGcodeWriter.cmdResetExtruder,
      IAGcodeWriter.emit, layerComments]

theorem framed_saveLayer (quad : Bool) (m : IAMachineToolpath) (p : Int × Nat) :
    Framed (fun w => m.saveLayer quad w p) :=
  (Framed.comp (framed_header p.1).1 (framed_savePath quad m p.2)).1

theorem emitted_saveLayer (quad : Bool) (m : IAMachineToolpath) (key : Int) (p : Nat)
    (tp : IAToolpath) (htp : m.store[p]? = some tp) (w : IAGcodeWriter) :
    emitted (fun w => m.saveLayer quad w (key, p)) w = layerBlock quad w key tp := by
  have h := (Framed.comp (framed_header key).1 (framed_savePath quad m p)).2 w
  have h2 : emitted (fun w => m.saveLayer quad w (key, p)) w = _ := h
  rw [h2, (framed_header key).2 w]
  have h3 : (fun w => m.savePath quad p w) = (fun w => tp.saveGCode quad w) := by
    funext w; simp [IAMachineToolpath.savePath, htp]
  rw [h3, emitted_toolpath]
  unfold layerBlock
  rw [serialization_congr quad tp.pList (w := w)]
  · simp
  · exact ⟨rfl, rfl⟩

theorem sameState_saveLayer (quad : Bool) (m : IAMachineToolpath) (key : Int) (p : Nat)
    (tp : IAToolpath) (htp : m.store[p]? = some tp) {w v : IAGcodeWriter}
    (h : SameState w v) :
    SameState (stateAfterLayer quad w tp) (m.saveLayer quad v (key, p)) := by
  have h1 : m.saveLayer quad v (key, p)
      = tp.saveGCode quad ((((v.cmdComment "" []).cmdComment "==== layer at z=%g"
        [.real ((key : Rat) / 1000)]).cmdComment "" []).cmdResetExtruder) := by
    simp [IAMachineToolpath.saveLayer, IAMachineToolpath.savePath, htp]
  rw [h1]
  exact sameState_toolpath quad tp (h.trans ⟨rfl, rfl⟩)

theorem layersStream_eq (quad : Bool) (m : IAMachineToolpath) (entries : List (Int × Nat))
    (hvalid : ∀ entry ∈ entries, entry.2 < m.store.length) :
    ∀ w v : IAGcodeWriter, SameState w v →
      emitted (fun w => entries.foldl (m.saveLayer quad) w) v
        = layersStream quad m.store w entries := by
  induction entries with
  | nil => intro w v _; simp [layersStream, emitted]
  | cons e rest ih =>
    intro w v h
    obtain ⟨key, p⟩ := e
    have hp : p < m.store.length := hvalid (key, p) (List.mem_cons_self _ _)
    have htp : m.store[p]? = some m.store[p] := List.getElem?_eq_getElem hp
    rw [emitted_foldl_cons (m.saveLayer quad) (fun a => framed_saveLayer quad m a) (key, p) rest v]
    simp only [layersStream, htp]
    rw [ih (fun entry he => hvalid entry (List.mem_cons_of_mem _ he))
      (stateAfterLayer quad w m.store[p]) (m.saveLayer quad v (key, p))
      (sameState_saveLayer quad m key p _ htp h)]
    rw [(framed_saveLayer quad m (key, p)).emitted_eq h, emitted_saveLayer quad m key p _ htp]

/-! ### The invariant of the machine toolpaths that the program builds -/

theorem mem_mapInsert (k : Int) (v : Nat) (l : List (Int × Nat)) :
    ∀ entry ∈ mapInsert k v l, entry = (k, v) ∨ entry ∈ l := by
  induction l with
  | nil => intro entry he; simpa [mapInsert] using he
  | cons e rest ih =>
    obtain ⟨k1, v1⟩ := e
    intro entry he
    unfold mapInsert at he
    by_cases hlt : k < k1
    · simpa [hlt] using he
    · by_cases heq : k = k1
      · right; subst heq; simpa using he
      · simp only [hlt, heq, if_false] at he
        rcases List.mem_cons.mp he with h | h
        · right; rw [h]; exact List.mem_cons_self _ _
        · rcases ih entry h with h | h
          · left; exact h
          · right; exact List.mem_cons_of_mem _ h

theorem pairwise_mapInsert (k : Int) (v : Nat) (l : List (Int × Nat))
    (hl : List.Pairwise (fun a b : Int × Nat => a.1 < b.1) l) :
    List.Pairwise (fun a b : Int × Nat => a.1 < b.1) (mapInsert k v l) := by
  induction l with
  | nil => simp [mapInsert]
  | cons e rest ih =>
    obtain ⟨k1, v1⟩ := e
    rw [List.pairwise_cons] at hl
    obtain ⟨hhead, hrest⟩ := hl
    unfold mapInsert
    by_cases hlt : k < k1
    · simp only [hlt, if_true]
      refine List.pairwise_cons.mpr ⟨?_, List.pairwise_cons.mpr ⟨hhead, hrest⟩⟩
      intro b hb
      rcases List.mem_cons.mp hb with h | h
      · rw [h]; exact hlt
      · exact lt_trans hlt (hhead b h)
    · by_cases heq : k = k1
      · subst heq
        simp only [lt_irrefl, if_false, if_true]
        exact List.pairwise_cons.mpr ⟨hhead, hrest⟩
      · simp only [hlt, heq, if_false]
        refine List.pairwise_cons.mpr ⟨?_, ih hrest⟩
        intro b hb
        rcases mem_mapInsert k v rest b hb with h | h
        · rw [h]; show k1 < k; omega
        · exact hhead b h

theorem mapErase_sublist (k : Int) (l : List (Int × Nat)) : (mapErase k l).Sublist l := by
  induction l with
  | nil => exact List.Sublist.slnil
  | cons e rest ih =>
    obtain ⟨k1, v1⟩ := e
    unfold mapErase
    by_cases h : k1 = k
    · simp only [h, if_true]; exact List.Sublist.cons _ ih
    · simp only [h, if_false]; exact List.Sublist.cons₂ _ ih

theorem inv_new : IAMachineToolpath.new.Inv := by
  simp [IAMachineToolpath.Inv, IAMachineToolpath.new]

theorem inv_createLayer (m : IAMachineToolpath) (z : Rat) (h : m.Inv) :
    (m.createLayer z).1.Inv := by
  obtain ⟨h1, h2, h3, h4⟩ := h
  cases hf : mapFind (roundLayerNumber z) m.pLayerMap with
  | some p =>
    simp only [IAMachineToolpath.createLayer, hf]
    exact ⟨h1, h2, h3, h4⟩
  | none =>
    simp only [IAMachineToolpath.createLayer, hf]
    refine ⟨pairwise_mapInsert _ _ _ h1, ?_, h3, h4⟩
    intro entry he
    simp only [List.length_append, List.length_singleton]
    rcases mem_mapInsert _ _ _ entry he with h | h
    · rw [h]; exact Nat.lt_succ_self _
    · exact Nat.lt_succ_of_lt (h2 entry h)

theorem inv_deleteLayer (m : IAMachineToolpath) (z : Rat) (h : m.Inv) : (m.deleteLayer z).Inv := by
  obtain ⟨h1, h2, h3, h4⟩ := h
  exact ⟨h1.sublist (mapErase_sublist _ _),
    fun entry he => h2 entry ((mapErase_sublist _ _).subset he), h3, h4⟩

theorem inv_modify (m : IAMachineToolpath) (p : Nat) (f : IAToolpath → IAToolpath) (h : m.Inv) :
    (m.modify p f).Inv := by
  obtain ⟨h1, h2, h3, h4⟩ := h
  refine ⟨h1, fun entry he => ?_, h3, h4⟩
  simp only [IAMachineToolpath.modify, List.length_modify]
  exact h2 entry he

theorem inv_run (cs : List MachineCall) : ∀ m : IAMachineToolpath, m.Inv → (m.run cs).Inv := by
  induction cs with
  | nil => intro m h; exact h
  | cons c rest ih =>
    intro m h
    refine ih (m.call c) ?_
    cases c with
    | createLayer z => exact inv_createLayer m z h
    | deleteLayer z => exact inv_deleteLayer m z h
    | modify p f => exact inv_modify m p f h

theorem saveGCode_out (quad : Bool) (fs : String → Bool) (m : IAMachineToolpath)
    (filename : String) (hm : m.Inv) (hopen : fs filename = true) :
    (m.saveGCode quad fs filename).2.out
      = [GCommand.macroInit] ++ layersStream quad m.store IAGcodeWriter.new m.pLayerMap
        ++ [GCommand.macroShutdown] := by
  obtain ⟨_, h2, h3, h4⟩ := hm
  have hlayers := (framed_foldl (m.saveLayer quad) (fun a => framed_saveLayer quad m a)
    m.pLayerMap).out_eq ({ IAGcodeWriter.new with isOpen := true }.macroInit)
  have hstream := layersStream_eq quad m m.pLayerMap h2 IAGcodeWriter.new
    ({ IAGcodeWriter.new with isOpen := true }.macroInit) ⟨rfl, rfl⟩
  simp only [IAMachineToolpath.saveGCode, IAGcodeWriter.open, hopen, h3, h4,
    IAMachineToolpath.saveOptional, if_true]
  simp only [IAGcodeWriter.close, IAGcodeWriter.macroShutdown, IAGcodeWriter.emit]
  rw [hlayers, hstream]
  rfl

/-- C9: when the destination opens, the command stream that `saveGCode` writes for a
machine toolpath that was built by `createLayer`, `deleteLayer` and work on the layer
toolpaths is: the init macro; then the blocks of the layers in the order of the map,
each made of the comment block with `==== layer at z=` and the key divided by 1000,
one extruder reset and the serialisation of the toolpath of the layer, elements in list
order; then the shutdown macro as the last command. The keys of the map are strictly
ascending in that order, so every layer has exactly one block, and every entry of the
map has its toolpath. -/
theorem C9_saveGCode_stream (quad : Bool) (fs : String → Bool) (filename : String)
    (cs : List MachineCall) (hopen : fs filename = true) :
    ((IAMachineToolpath.new.run cs).saveGCode quad fs filename).2.out
      = [GCommand.macroInit]
        ++ layersStream quad (IAMachineToolpath.new.run cs).store IAGcodeWriter.new
            (IAMachineToolpath.new.run cs).pLayerMap
        ++ [GCommand.macroShutdown] ∧
    List.Pairwise (fun a b : Int × Nat => a.1 < b.1) (IAMachineToolpath.new.run cs).pLayerMap ∧
    ∀ entry ∈ (IAMachineToolpath.new.run cs).pLayerMap,
      ∃ tp, (IAMachineToolpath.new.run cs).store[entry.2]? = some tp := by
  have hinv := inv_run cs IAMachineToolpath.new inv_new
  refine ⟨saveGCode_out quad fs _ filename hinv hopen, hinv.1, fun entry he => ?_⟩
  exact ⟨_, List.getElem?_eq_getElem (hinv.2.1 entry he)⟩

theorem roundLayerNumber_two : roundLayerNumber 2 = 2000 :=
  roundLayerNumber_of_bounds 2 2000 (by norm_num) (by norm_num) (by norm_num) (by norm_num)

theorem roundLayerNumber_one : roundLayerNumber 1 = 1000 :=
  roundLayerNumber_of_bounds 1 1000 (by norm_num) (by norm_num) (by norm_num) (by norm_num)

/-- C9 for the machine toolpath built by `createLayer(2)`, `createLayer(1)` and a
`startPath(1, 0, 2)` on the toolpath of the first call, written to a destination that
opens. -/
theorem C9_saveGCode_stream_witness :
    ((IAMachineToolpath.new.run [.createLayer 2, .createLayer 1,
        .modify 0 (fun tp => tp.startPath 1 0 2)]).saveGCode false (fun _ => true)
        "out.gcode").2.out
      = [GCommand.macroInit]
        ++ layersStream false
            (IAMachineToolpath.new.run [.createLayer 2, .createLayer 1,
              .modify 0 (fun tp => tp.startPath 1 0 2)]).store IAGcodeWriter.new
            (IAMachineToolpath.new.run [.createLayer 2, .createLayer 1,
              .modify 0 (fun tp => tp.startPath 1 0 2)]).pLayerMap
        ++ [GCommand.macroShutdown] ∧
    List.Pairwise (fun a b : Int × Nat => a.1 < b.1)
      (IAMachineToolpath.new.run [.createLayer 2, .createLayer 1,
        .modify 0 (fun tp => tp.startPath 1 0 2)]).pLayerMap :=
  ⟨(C9_saveGCode_stream false (fun _ => true) "out.gcode" [.createLayer 2, .createLayer 1,
      .modify 0 (fun tp => tp.startPath 1 0 2)] rfl).1,
   (C9_saveGCode_stream false (fun _ => true) "out.gcode" [.createLayer 2, .createLayer 1,
      .modify 0 (fun tp => tp.startPath 1 0 2)] rfl).2.1⟩

/-- The same machine toolpath, evaluated: the layer created second has the smaller key
and is written first; the generator starts at `(0, 0, 0)`. -/
theorem saveGCode_two_layers :
    (IAMachineToolpath.new.run [.createLayer 2, .createLayer 1,
        .modify 0 (fun tp => tp.startPath 1 0 2)]).pLayerMap = [(1000, 1), (2000, 0)] ∧
    ((IAMachineToolpath.new.run [.createLayer 2, .createLayer 1,
        .modify 0 (fun tp => tp.startPath 1 0 2)]).saveGCode false (fun _ => true)
        "out.gcode").2.out
      = [.macroInit,
         .comment "" [], .comment "==== layer at z=%g" [.real 1], .comment "" [],
         .resetExtruder, .comment "Send generated toolpath..." [],
         .comment "" [], .comment "==== layer at z=%g" [.real 2], .comment "" [],
         .resetExtruder, .comment "Send generated toolpath..." [],
         .extrude (-1), .rapidMove ⟨1, 0, 2⟩, .extrude 1,
         .macroShutdown] := by
  constructor
  · simp [IAMachineToolpath.run, IAMachineToolpath.call, IAMachineToolpath.createLayer,
      IAMachineToolpath.modify, roundLayerNumber_two, roundLayerNumber_one, mapFind, mapInsert,
      IAMachineToolpath.new]
  · simp [IAMachineToolpath.run, IAMachineToolpath.call, IAMachineToolpath.createLayer,
      IAMachineToolpath.modify, roundLayerNumber_two, roundLayerNumber_one, mapFind, mapInsert,
      IAMachineToolpath.new, IAToolpath.startPath, IAToolpathMotion.create, IAToolpath.new,
      List.modify, List.modifyTailIdx, List.modifyHead, IAMachineToolpath.saveGCode,
      IAMachineToolpath.saveLayer, IAMachineToolpath.savePath, IAMachineToolpath.saveOptional,
      IAToolpath.saveGCode, IAToolpathElement.saveGCode, IAToolpathMotion.saveGCode,
      IAGcodeWriter.open, IAGcodeWriter.new, IAGcodeWriter.close, IAGcodeWriter.macroInit,
      IAGcodeWriter.macroShutdown, IAGcodeWriter.cmdComment, IAGcodeWriter.cmdResetExtruder,
      IAGcodeWriter.cmdExtrude, IAGcodeWriter.cmdRapidMove, IAGcodeWriter.emit]
    norm_num

/-! ## Theorems: serialisation of a printing Motion and of an extruder change -/

/-- C11: serialising a non-rapid Motion writes, when the position of the generator
differs from the start of the Motion, the travel sequence retract, rapid move to the
start, un-retract, and then one controlled move to the end of the Motion; when the
position is the start, it writes the one controlled move only. With `IA_QUAD` the
extrusions are the relative command and the controlled move carries the colour tag.
In particular the Motion from `(0,0,1)` to `(10,0,1)`, serialised by a generator at
`(0,0,0)`, gives one travel sequence and one controlled move to `(10,0,1)`. -/
theorem C11_print_motion (quad : Bool) (m : IAToolpathMotion) (w : IAGcodeWriter)
    (h : m.pIsRapid = false) :
    (w.position ≠ m.pStart →
      (m.saveGCode quad w).out = w.out ++
        (if quad then
          [GCommand.extrudeRel (-1), .rapidMove m.pStart, .extrudeRel 1,
            .moveColor m.pEnd m.pColor]
        else [GCommand.extrude (-1), .rapidMove m.pStart, .extrude 1, .move m.pEnd])) ∧
    (w.position = m.pStart →
      (m.saveGCode quad w).out = w.out ++
        (if quad then [GCommand.moveColor m.pEnd m.pColor] else [GCommand.move m.pEnd])) ∧
    (IAToolpathMotion.saveGCode false ⟨⟨0, 0, 1⟩, ⟨10, 0, 1⟩, false, none⟩
        IAGcodeWriter.new).out
      = [GCommand.extrude (-1), .rapidMove ⟨0, 0, 1⟩, .extrude 1, .move ⟨10, 0, 1⟩] := by
  refine ⟨fun hne => ?_, fun heq => ?_, by decide⟩
  · cases quad <;>
      simp [IAToolpathMotion.saveGCode, h, hne, IAGcodeWriter.cmdExtrude,
        IAGcodeWriter.cmdExtrudeRel, IAGcodeWriter.cmdRapidMove, IAGcodeWriter.cmdMove,
        IAGcodeWriter.cmdMoveColor, IAGcodeWriter.emit]
  · cases quad <;>
      simp [IAToolpathMotion.saveGCode, h, heq, IAGcodeWriter.cmdMove,
        IAGcodeWriter.cmdMoveColor, IAGcodeWriter.emit]

/-- C11 for the Motion from `(0,0,1)` to `(10,0,1)`: from a new writer, whose position
is `(0,0,0)`, and from a writer that already stands at `(0,0,1)`. -/
theorem C11_print_motion_witness :
    (IAToolpathMotion.saveGCode false ⟨⟨0, 0, 1⟩, ⟨10, 0, 1⟩, false, none⟩
        IAGcodeWriter.new).out
      = [] ++ [GCommand.extrude (-1), .rapidMove ⟨0, 0, 1⟩, .extrude 1,
          .move ⟨10, 0, 1⟩] ∧
    (IAToolpathMotion.saveGCode false ⟨⟨0, 0, 1⟩, ⟨10, 0, 1⟩, false, none⟩
        ⟨true, [], ⟨0, 0, 1⟩, 0⟩).out
      = [] ++ [GCommand.move ⟨10, 0, 1⟩] :=
  ⟨(C11_print_motion false ⟨⟨0, 0, 1⟩, ⟨10, 0, 1⟩, false, none⟩ IAGcodeWriter.new rfl).1
      (by decide),
   (C11_print_motion false ⟨⟨0, 0, 1⟩, ⟨10, 0, 1⟩, false, none⟩ ⟨true, [], ⟨0, 0, 1⟩, 0⟩
      rfl).2.1 (by decide)⟩

theorem extruder_emitted (e : IAToolpathExtruder) (w : IAGcodeWriter) :
    emitted (fun w => e.saveGCode w) w
      = [.comment "" [], .comment "---- Change to extruder %d" [.int e.pTool],
         .selectExtruder (1 - e.pTool), .resetExtruder, .extrude (-4),
         .selectExtruder e.pTool, .resetExtruder, .extrude 4,
         .rapidMoveXY ((if e.pTool ≠ 0 then 100 else 48 : Int) : Rat) 10]
        ++ ((List.range 4).flatMap fun i =>
          [GCommand.moveXY (((if e.pTool ≠ 0 then 100 else 48 : Int) + 20 : Int) : Rat)
              (10 + (i : Rat)),
            .moveXY (((if e.pTool ≠ 0 then 100 else 48 : Int) + 20 : Int) : Rat)
              (10 + (i : Rat) + 1 / 2),
            .moveXY ((if e.pTool ≠ 0 then 100 else 48 : Int) : Rat) (10 + (i : Rat) + 1 / 2),
            .moveXY ((if e.pTool ≠ 0 then 100 else 48 : Int) : Rat) (10 + (i : Rat) + 1)])
        ++ [.selectExtruder e.pTool, .resetExtruder,
            .comment "Extruder %d ready" [.int e.pTool], .comment "" []] := by
  have hrange : List.range 4 = [0, 1, 2, 3] := rfl
  simp [emitted, IAToolpathExtruder.saveGCode, hrange, IAGcodeWriter.cmdComment,
    IAGcodeWriter.cmdSelectExtruder, IAGcodeWriter.cmdResetExtruder, IAGcodeWriter.cmdExtrude,
    IAGcodeWriter.cmdRapidMoveXY, IAGcodeWriter.cmdMoveXY, IAGcodeWriter.emit]

theorem extruder_pTool (e : IAToolpathExtruder) (w : IAGcodeWriter) :
    (e.saveGCode w).pTool = e.pTool := by
  have hrange : List.range 4 = [0, 1, 2, 3] := rfl
  simp [IAToolpathExtruder.saveGCode, hrange, IAGcodeWriter.cmdComment,
    IAGcodeWriter.cmdSelectExtruder, IAGcodeWriter.cmdResetExtruder, IAGcodeWriter.cmdExtrude,
    IAGcodeWriter.cmdRapidMoveXY, IAGcodeWriter.cmdMoveXY, IAGcodeWriter.emit]

theorem extruder_firstSelected (e : IAToolpathExtruder) (w : IAGcodeWriter) :
    firstSelected (emitted (fun w => e.saveGCode w) w) = some (1 - e.pTool) := by
  rw [extruder_emitted]
  rfl

/-- C12, as stated, fails: a generator whose active tool is 0 serialises a change to
tool 0; the tool that is selected, reset and retracted first is tool 1, which was
not the active one. -/
theorem C12_deactivates_other_tool_counterexample :
    IAGcodeWriter.new.pTool = 0 ∧
    (emitted (fun w => IAToolpathExtruder.saveGCode ⟨0⟩ w) IAGcodeWriter.new).take 5
      = [.comment "" [], .comment "---- Change to extruder %d" [.int 0],
         .selectExtruder 1, .resetExtruder, .extrude (-4)] ∧
    firstSelected (emitted (fun w => IAToolpathExtruder.saveGCode ⟨0⟩ w) IAGcodeWriter.new)
      ≠ some IAGcodeWriter.new.pTool := by
  refine ⟨rfl, ?_, ?_⟩
  · rw [extruder_emitted]; rfl
  · rw [extruder_firstSelected]; decide

/-- C12, amended: when an ExtruderChange to tool `t` is serialised, the tool that is
deactivated first (selected, reset, retracted by 4) is tool `1 - t`, whatever tool was
active in the generator; it is the previously active tool exactly when that tool is
`1 - t`. Afterwards the requested tool `t` is the selected one. -/
theorem C12_deactivates_other_tool (e : IAToolpathExtruder) (w : IAGcodeWriter) :
    (emitted (fun w => e.saveGCode w) w).take 5
      = [.comment "" [], .comment "---- Change to extruder %d" [.int e.pTool],
         .selectExtruder (1 - e.pTool), .resetExtruder, .extrude (-4)] ∧
    firstSelected (emitted (fun w => e.saveGCode w) w) = some (1 - e.pTool) ∧
    (firstSelected (emitted (fun w => e.saveGCode w) w) = some w.pTool
      ↔ w.pTool = 1 - e.pTool) ∧
    (e.saveGCode w).pTool = e.pTool := by
  refine ⟨by rw [extruder_emitted]; rfl, extruder_firstSelected e w, ?_, extruder_pTool e w⟩
  rw [extruder_firstSelected]
  constructor
  · intro h; exact (Option.some.inj h).symm
  · intro h; rw [h]

/-! ## Theorems: lids and infill of one layer -/

@[simp] theorem Outcome.ok_bind {α β : Type} (a : α) (f : α → Outcome β) :
    (Outcome.ok a >>= f) = f a := rfl

@[simp] theorem Outcome.undefined_bind {α β : Type} (f : α → Outcome β) :
    ((Outcome.undefined : Outcome α) >>= f) = Outcome.undefined := rfl

@[simp] theorem Outcome.noFuel_bind {α β : Type} (f : α → Outcome β) :
    ((Outcome.noFuel : Outcome α) >>= f) = Outcome.noFuel := rfl

@[simp] theorem Outcome.pure_eq {α : Type} (a : α) : (pure a : Outcome α) = Outcome.ok a := rfl

@[simp] theorem Outcome.bind_ok {α β : Type} (a : α) (f : α → Outcome β) :
    (Outcome.ok a).bind f = f a := rfl

@[simp] theorem Outcome.bind_undefined {α β : Type} (f : α → Outcome β) :
    (Outcome.undefined : Outcome α).bind f = Outcome.undefined := rfl

@[simp] theorem Outcome.bind_noFuel {α β : Type} (f : α → Outcome β) :
    (Outcome.noFuel : Outcome α).bind f = Outcome.noFuel := rfl

theorem Outcome.bind_eq_ok {α β : Type} {x : Outcome α} {f : α → Outcome β} {b : β}
    (h : x.bind f = Outcome.ok b) : ∃ a, x = Outcome.ok a ∧ f a = Outcome.ok b := by
  cases x with
  | ok a => exact ⟨a, rfl, h⟩
  | undefined => cases h
  | noFuel => cases h

theorem derefSlice_of_some (sliceList : List (Option IASlice)) (j : Nat) (slc : IASlice)
    (h : sliceList[j]? = some (some slc)) : derefSlice sliceList j = .ok slc.pFramebuffer := by
  simp [derefSlice, h]

theorem layerCells_of_some (sliceList : List (Option IASlice)) (j : Nat) (slc : IASlice)
    (h : sliceList[j]? = some (some slc)) : layerCells sliceList j = slc.pFramebuffer.cells := by
  simp [layerCells, h]

theorem computeMask_cells (P : IAPrinterFDM) (sliceList : List (Option IASlice)) (i : Nat)
    (hlen : i + 2 < sliceList.length)
    (hslices : ∀ j, j ≤ i + 1 → ∃ slc, sliceList[j]? = some (some slc)) :
    ∃ mask, P.computeMask sliceList i = .ok mask ∧
      mask.cells =
        if P.pNumLids > 1 then
          layerCells sliceList (i + 1) ∩ layerCells sliceList (i + 2)
            ∩ layerCellsBelow sliceList i 1 ∩ layerCellsBelow sliceList i 2
        else layerCells sliceList (i + 1) ∩ layerCellsBelow sliceList i 1 := by
  obtain ⟨s1, hs1⟩ := hslices (i + 1) (le_refl _)
  have hread : ∃ slot, sliceList[i + 2]? = some slot := ⟨_, List.getElem?_eq_getElem hlen⟩
  obtain ⟨slot, hslot⟩ := hread
  have hc2 : layerCells sliceList (i + 2)
      = match slot with | some slc => slc.pFramebuffer.cells | none => ∅ := by
    cases slot <;> simp [layerCells, hslot]
  unfold IAPrinterFDM.computeMask
  rw [derefSlice_of_some _ _ _ hs1, layerCells_of_some _ _ _ hs1]
  by_cases hl : P.pNumLids > 1
  · by_cases h0 : i > 0
    · obtain ⟨sb, hsb⟩ := hslices (i - 1) (by omega)
      by_cases h1 : i > 1
      · obtain ⟨sb2, hsb2⟩ := hslices (i - 2) (by omega)
        cases slot <;>
          simp [hl, h0, h1, readSlice, hslot, hc2, derefSlice_of_some _ _ _ hsb,
            derefSlice_of_some _ _ _ hsb2, layerCells_of_some _ _ _ hsb,
            layerCells_of_some _ _ _ hsb2, layerCellsBelow,
            IAFramebuffer.logicAnd, IAFramebuffer.clear, show 1 ≤ i by omega,
            show 2 ≤ i by omega]
      · cases slot <;>
          simp [hl, h0, h1, readSlice, hslot, hc2, derefSlice_of_some _ _ _ hsb,
            layerCells_of_some _ _ _ hsb, layerCellsBelow,
            IAFramebuffer.logicAnd, IAFramebuffer.clear, show 1 ≤ i by omega,
            show ¬ 2 ≤ i by omega]
    · have hi : i = 0 := by omega
      subst hi
      cases slot <;>
        simp [hl, readSlice, hslot, hc2, layerCellsBelow, IAFramebuffer.logicAnd,
          IAFramebuffer.clear]
  · by_cases h0 : i > 0
    · obtain ⟨sb, hsb⟩ := hslices (i - 1) (by omega)
      simp [hl, h0, derefSlice_of_some _ _ _ hsb, layerCells_of_some _ _ _ hsb,
        layerCellsBelow, IAFramebuffer.logicAnd, show 1 ≤ i by omega]
    · have hi : i = 0 := by omega
      subst hi
      simp [hl, layerCellsBelow, IAFramebuffer.logicAnd]

theorem pass2Body_sliceList (P : IAPrinterFDM) (z : Rat) (i : Nat) (s s1 : SliceState)
    (h : P.pass2Body z i s = .ok s1) : s1.sliceList = s.sliceList := by
  unfold IAPrinterFDM.pass2Body at h
  obtain ⟨layer, _, h⟩ := Outcome.bind_eq_ok h
  obtain ⟨r, _, h⟩ := Outcome.bind_eq_ok h
  obtain ⟨m, _, h⟩ := Outcome.bind_eq_ok h
  simp only [Outcome.ok.injEq] at h
  rw [← h]

/-- C13: in the second loop, for a layer index `i` whose slices up to `i + 1` exist, the
mask computed with one lid is `layer[i+1] ∩ layer[i-1]` and with two lids
`layer[i+1] ∩ layer[i+2] ∩ layer[i-1] ∩ layer[i-2]`, as sets of occupied cells, where
a layer below index 0 and a missing slice `i + 2` count as the empty raster. The body
of the loop leaves `sliceList`, and so every raster of a neighbour, as it was. -/
theorem C13_mask (P : IAPrinterFDM) (sliceList : List (Option IASlice)) (i : Nat)
    (hlen : i + 2 < sliceList.length)
    (hslices : ∀ j, j ≤ i + 1 → ∃ slc, sliceList[j]? = some (some slc)) :
    (P.pNumLids = 1 → ∃ mask, P.computeMask sliceList i = .ok mask ∧
      mask.cells = layerCells sliceList (i + 1) ∩ layerCellsBelow sliceList i 1) ∧
    (P.pNumLids = 2 → ∃ mask, P.computeMask sliceList i = .ok mask ∧
      mask.cells = layerCells sliceList (i + 1) ∩ layerCells sliceList (i + 2)
        ∩ layerCellsBelow sliceList i 1 ∩ layerCellsBelow sliceList i 2) ∧
    (i = 0 → layerCellsBelow sliceList i 1 = ∅) ∧
    (i < 2 → layerCellsBelow sliceList i 2 = ∅) ∧
    (sliceList[i + 2]? = some none → layerCells sliceList (i + 2) = ∅) ∧
    (∀ (z : Rat) (s s1 : SliceState), P.pass2Body z i s = .ok s1 →
      s1.sliceList = s.sliceList) := by
  obtain ⟨mask, hm, hc⟩ := computeMask_cells P sliceList i hlen hslices
  refine ⟨fun h1 => ⟨mask, hm, ?_⟩, fun h2 => ⟨mask, hm, ?_⟩, ?_, ?_, ?_,
    fun z s s1 h => pass2Body_sliceList P z i s s1 h⟩
  · rw [hc, if_neg (by omega)]
  · rw [hc, if_pos (by omega)]
  · intro h0; simp [layerCellsBelow, h0]
  · intro h2; simp [layerCellsBelow, show ¬ 2 ≤ i by omega]
  · intro hnone; simp [layerCells, hnone]

/-- C13 on the example slice list at layer 1, with one lid: the mask is
`layer[2] ∩ layer[0]`. -/
theorem C13_mask_witness :
    ∃ mask, demoPrinter.computeMask demoSlices 1 = .ok mask ∧
      mask.cells = layerCells demoSlices (1 + 1) ∩ layerCellsBelow demoSlices 1 1 :=
  (C13_mask demoPrinter demoSlices 1 (by decide)
    (fun j hj => by
      have hj3 : j < 3 := by omega
      interval_cases j <;> exact ⟨_, rfl⟩)).1 rfl

theorem lidAndInfill_cells (layer mask : IAFramebuffer) :
    (lidAndInfill layer mask).1.cells = layer.cells \ mask.cells ∧
    (lidAndInfill layer mask).2.cells = layer.cells ∩ mask.cells :=
  ⟨rfl, rfl⟩

/-- C14: with at least one lid requested, the lid raster of a layer is the raster of
the layer minus the mask and the infill raster, before any pattern or subtraction,
is the raster of the layer intersected with the mask: these are the rasters with
which the lids are built. Lid and infill are disjoint and their union is the raster
of the layer. The body of the loop leaves `sliceList`, and so the raster of the layer
itself, as it was. -/
theorem C14_lid_infill (layer mask : IAFramebuffer) :
    (lidAndInfill layer mask).1.cells = layer.cells \ mask.cells ∧
    (lidAndInfill layer mask).2.cells = layer.cells ∩ mask.cells ∧
    Disjoint (lidAndInfill layer mask).1.cells (lidAndInfill layer mask).2.cells ∧
    (lidAndInfill layer mask).1.cells ∪ (lidAndInfill layer mask).2.cells = layer.cells ∧
    (∀ (P : IAPrinterFDM) (z : Rat) (i : Nat) (tp : Option Nat)
        (sliceList : List (Option IASlice)) (m : IAMachineToolpath),
      P.pNumLids > 0 → P.computeMask sliceList i = .ok mask →
      P.lidsBlock z i tp sliceList layer m
        = P.buildLids z i tp (lidAndInfill layer mask).1 (lidAndInfill layer mask).2 m) ∧
    (∀ (P : IAPrinterFDM) (z : Rat) (i : Nat) (s s1 : SliceState),
      P.pass2Body z i s = .ok s1 → s1.sliceList = s.sliceList) := by
  obtain ⟨h1, h2⟩ := lidAndInfill_cells layer mask
  refine ⟨h1, h2, ?_, ?_, ?_, fun P z i s s1 h => pass2Body_sliceList P z i s s1 h⟩
  · rw [h1, h2, Finset.disjoint_left]
    intro a ha hb
    exact (Finset.mem_sdiff.mp ha).2 (Finset.mem_inter.mp hb).2
  · rw [h1, h2]
    ext a
    simp only [Finset.mem_union, Finset.mem_sdiff, Finset.mem_inter]
    tauto
  · intro P z i tp sliceList m hl hm
    simp [IAPrinterFDM.lidsBlock, hl, hm]

theorem demo_mask :
    demoPrinter.computeMask demoSlices 1 = .ok ⟨{(1, 0)}⟩ := by
  decide

/-- C14 at layer 1 of the example slice list, whose mask is the cell `(1, 0)`. -/
theorem C14_lid_infill_witness :
    demoPrinter.lidsBlock 1 1 none demoSlices ⟨{(0, 0), (1, 0), (2, 0)}⟩ IAMachineToolpath.new
      = demoPrinter.buildLids 1 1 none
          (lidAndInfill ⟨{(0, 0), (1, 0), (2, 0)}⟩ ⟨{(1, 0)}⟩).1
          (lidAndInfill ⟨{(0, 0), (1, 0), (2, 0)}⟩ ⟨{(1, 0)}⟩).2 IAMachineToolpath.new :=
  (C14_lid_infill ⟨{(0, 0), (1, 0), (2, 0)}⟩ ⟨{(1, 0)}⟩).2.2.2.2.1 demoPrinter 1 1 none
    demoSlices IAMachineToolpath.new (by decide) demo_mask

theorem fl_tenThousandth : fl (1 / 10000) = 7378697629483821 / 73786976294838206464 := by
  decide!

theorem fl_quotient_ge_one (d : Rat) (hd : 0 < d) (h100 : d ≤ 100) : 1 ≤ fl (100 / d) := by
  have h1 : 1 ≤ 100 / d := by rw [le_div_iff₀ hd]; linarith
  have := fl_mono_nonneg 1 (100 / d) (by norm_num) h1
  rwa [fl_one] at this

theorem infillSpacing_inner (w d : Rat) (hw : 0 ≤ w) (hwd : fl w = w) (hd : 0 < d)
    (h100 : d ≤ 100) : 2 * w ≤ fl (fl (2 * w) * fl (100 / d)) := by
  have hA := fl_quotient_ge_one d hd h100
  rw [fl_two_mul w hwd]
  have h2 : 2 * w ≤ 2 * w * fl (100 / d) := by nlinarith
  have := fl_mono_nonneg (2 * w) _ (by linarith) h2
  rwa [fl_two_mul w hwd] at this

theorem infillSpacing_ge (w d : Rat) (hw : 0 ≤ w) (hwd : fl w = w) (hd : 0 < d)
    (h100 : d ≤ 100) : w ≤ infillSpacing w d := by
  have h := infillSpacing_inner w d hw hwd hd h100
  unfold infillSpacing
  have := fl_mono_nonneg w (fl (fl (2 * w) * fl (100 / d)) - w) hw (by linarith)
  rwa [hwd] at this

theorem infillSpacing_full (w : Rat) (hwd : fl w = w) : infillSpacing w 100 = w := by
  unfold infillSpacing
  rw [show (100 : Rat) / 100 = 1 by norm_num, fl_one, mul_one, fl_fl, fl_two_mul w hwd]
  rw [show 2 * w - w = w by ring, hwd]

theorem infillSpacing_antitone (w d1 d2 : Rat) (hw : 0 ≤ w) (hwd : fl w = w) (hd1 : 0 < d1)
    (h : d1 ≤ d2) (h100 : d2 ≤ 100) : infillSpacing w d2 ≤ infillSpacing w d1 := by
  have hd2 : 0 < d2 := lt_of_lt_of_le hd1 h
  have hq : 100 / d2 ≤ 100 / d1 := div_le_div_of_nonneg_left (by norm_num) hd1 h
  have hA : fl (100 / d2) ≤ fl (100 / d1) := fl_mono_nonneg _ _ (by positivity) hq
  have hA0 : 0 ≤ fl (100 / d2) := fl_nonneg _ (by positivity)
  have h2w : 0 ≤ fl (2 * w) := fl_nonneg _ (by linarith)
  have hp : fl (2 * w) * fl (100 / d2) ≤ fl (2 * w) * fl (100 / d1) :=
    mul_le_mul_of_nonneg_left hA h2w
  have hP := fl_mono_nonneg _ _ (mul_nonneg h2w hA0) hp
  have hin := infillSpacing_inner w d2 hw hwd hd2 h100
  unfold infillSpacing
  exact fl_mono_nonneg _ _ (by linarith) (by linarith)

theorem infillSpacing_near (w d : Rat) (hwd : fl w = w) (hw : (2 : Rat) ^ (-1022 : Int) ≤ w)
    (hd : 0 < d) (h100 : d ≤ 100) :
    |infillSpacing w d - (2 * w * (100 / d) - w)| ≤ 2 ^ (-50 : Int) * (2 * w * (100 / d)) := by
  have hmin : (0 : Rat) < 2 ^ (-1022 : Int) := two_zpow_pos _
  have hmin1 : (2 : Rat) ^ (-1022 : Int) ≤ 1 := zpow_le_one_of_nonpos₀ (by norm_num) (by norm_num)
  have hw0 : 0 < w := lt_of_lt_of_le hmin hw
  have ha1 : 1 ≤ 100 / d := by rw [le_div_iff₀ hd]; linarith
  have hA1 := fl_quotient_ge_one d hd h100
  obtain ⟨hAl, hAu⟩ := fl_lower (100 / d) (by linarith only [ha1])
    (le_trans hmin1 ha1)
  have hp0 : 2 * w ≤ 2 * w * fl (100 / d) := by nlinarith only [hA1, hw0]
  obtain ⟨hPl, hPu⟩ := fl_lower (2 * w * fl (100 / d)) (by linarith only [hp0, hw0])
    (le_trans hw (by linarith only [hp0, hw0]))
  have hin := infillSpacing_inner w d (le_of_lt hw0) hwd hd h100
  rw [fl_two_mul w hwd] at hin
  obtain ⟨hSl, hSu⟩ := fl_lower (fl (2 * w * fl (100 / d)) - w) (by linarith only [hin, hw0])
    (le_trans hw (by linarith only [hin, hw0]))
  unfold infillSpacing
  rw [fl_two_mul w hwd]
  have hu : (2 : Rat) ^ (-53 : Int) = 1 / 9007199254740992 := by norm_num
  have hv : (2 : Rat) ^ (-50 : Int) = 1 / 1125899906842624 := by norm_num
  rw [hu] at hAl hAu hPl hPu hSl hSu
  rw [hv]
  have hpl : 2 * w * (100 / d - 1 / 9007199254740992 * (100 / d)) ≤ 2 * w * fl (100 / d) :=
    mul_le_mul_of_nonneg_left hAl (by linarith)
  have hpu : 2 * w * fl (100 / d) ≤ 2 * w * (100 / d + 1 / 9007199254740992 * (100 / d)) :=
    mul_le_mul_of_nonneg_left hAu (by linarith)
  have hX : 0 < w * (100 / d) := by positivity
  rw [abs_le]
  constructor <;> nlinarith only [hpl, hpu, hPl, hPu, hSl, hSu, hX, hw0]

/-- The refutation for C15, in two parts. The densities `100 - 2^-45` and `100 - 2^-46`
are neighbours among the values of type `double`; with the nozzle width 1 both give
the spacing `1 + 2^-51`, so the spacing does not strictly decrease from the smaller one
to the larger one, though the exact value of the formula does. And the constant
`0.0001` of the program is a `double` above 1/10000: at the density that equals it no
infill is generated, though the density is above 1/10000. -/
theorem C15_infill_spacing_counterexample :
    fl (100 - 1 / 2 ^ 45) = 100 - 1 / 2 ^ 45 ∧ fl (100 - 1 / 2 ^ 46) = 100 - 1 / 2 ^ 46 ∧
    (100 - 1 / 2 ^ 45 : Rat) < 100 - 1 / 2 ^ 46 ∧ (100 - 1 / 2 ^ 46 : Rat) ≤ 100 ∧
    infillSpacing 1 (100 - 1 / 2 ^ 45) = 1 + 1 / 2 ^ 51 ∧
    infillSpacing 1 (100 - 1 / 2 ^ 46) = 1 + 1 / 2 ^ 51 ∧
    ¬ infillSpacing 1 (100 - 1 / 2 ^ 46) < infillSpacing 1 (100 - 1 / 2 ^ 45) ∧
    (2 * 1 * (100 / (100 - 1 / 2 ^ 46)) - 1 : Rat) < 2 * 1 * (100 / (100 - 1 / 2 ^ 45)) - 1 ∧
    (1 / 10000 : Rat) < fl (1 / 10000) ∧
    ∀ (P : IAPrinterFDM) (z : Rat) (i : Nat) (tp : Option Nat) (infill : IAFramebuffer)
      (m : IAMachineToolpath), P.pInfillDensity = fl (1 / 10000) →
        P.buildInfill z i tp infill m = .ok m := by
  have ha : infillSpacing 1 (100 - 1 / 2 ^ 45) = 1 + 1 / 2 ^ 51 := by decide!
  have hb : infillSpacing 1 (100 - 1 / 2 ^ 46) = 1 + 1 / 2 ^ 51 := by decide!
  refine ⟨by decide!, by decide!, by norm_num, by norm_num, ha, hb, ?_, by norm_num, ?_, ?_⟩
  · rw [ha, hb]; exact lt_irrefl _
  · rw [fl_tenThousandth]; norm_num
  · intro P z i tp infill m h
    unfold IAPrinterFDM.buildInfill
    rw [if_neg (by rw [h]; exact lt_irrefl _)]

/-- C15: the infill block runs exactly when the density is above the constant `0.0001`
of the program, a `double`. Then the spacing passed to `overlayInfillPattern` is
`2 * nozzle * (100 / density) - nozzle` as the machine evaluates it, with the product,
the quotient, their product and the difference rounded to a `double` one after the
other. For a nozzle width that is a positive `double` between `2^-1022` and `2^1000`
and a density above that constant and not above 100: the spacing differs from the
exact value of the formula by at most `2^-50` times `2 * nozzle * (100 / density)`; it
is at least the nozzle width; it is the nozzle width at density 100; and it does not
increase as the density increases. -/
theorem C15_infill_spacing :
    (∀ (P : IAPrinterFDM) (z : Rat) (i : Nat) (tp : Option Nat) (infill : IAFramebuffer)
        (m : IAMachineToolpath),
      (P.pInfillDensity > fl (1 / 10000) →
        P.buildInfill z i tp infill m
          = match P.toolpathFromLasso
              (P.overlayInfillPattern infill i
                (fl (fl (fl (2 * P.pNozzleDiameter) * fl (100 / P.pInfillDensity))
                  - P.pNozzleDiameter))) z with
            | some infillPath => m.layerAdd tp infillPath
            | none => .ok m) ∧
      (¬ P.pInfillDensity > fl (1 / 10000) → P.buildInfill z i tp infill m = .ok m)) ∧
    (∀ w d : Rat, fl w = w → (2 : Rat) ^ (-1022 : Int) ≤ w → w ≤ 2 ^ 1000 →
        fl (1 / 10000) < d → d ≤ 100 →
      |infillSpacing w d - (2 * w * (100 / d) - w)| ≤ 2 ^ (-50 : Int) * (2 * w * (100 / d)) ∧
      w ≤ infillSpacing w d ∧ infillSpacing w 100 = w) ∧
    (∀ w d1 d2 : Rat, fl w = w → (2 : Rat) ^ (-1022 : Int) ≤ w → w ≤ 2 ^ 1000 →
        fl (1 / 10000) < d1 → d1 ≤ d2 → d2 ≤ 100 →
      infillSpacing w d2 ≤ infillSpacing w d1) := by
  have hpos : (0 : Rat) < fl (1 / 10000) := by rw [fl_tenThousandth]; norm_num
  refine ⟨?_, ?_, ?_⟩
  · intro P z i tp infill m
    constructor
    · intro h
      unfold IAPrinterFDM.buildInfill infillSpacing
      rw [if_pos h]
    · intro h
      unfold IAPrinterFDM.buildInfill
      rw [if_neg h]
  · intro w d hwd hw _ hd h100
    have hw0 : 0 ≤ w := le_trans (le_of_lt (two_zpow_pos _)) hw
    have hd0 : 0 < d := lt_trans hpos hd
    exact ⟨infillSpacing_near w d hwd hw hd0 h100, infillSpacing_ge w d hw0 hwd hd0 h100,
      infillSpacing_full w hwd⟩
  · intro w d1 d2 hwd hw _ hd1 h12 h100
    have hw0 : 0 ≤ w := le_trans (le_of_lt (two_zpow_pos _)) hw
    exact infillSpacing_antitone w d1 d2 hw0 hwd (lt_trans hpos hd1) h12 h100

/-- C15 for the example printer (nozzle 2/5, density 20) and for the densities 50 and
100 with nozzle width 1. -/
theorem C15_infill_spacing_witness :
    demoPrinter.buildInfill 1 0 none ⟨∅⟩ IAMachineToolpath.new
      = (match demoPrinter.toolpathFromLasso
            (demoPrinter.overlayInfillPattern ⟨∅⟩ 0
              (fl (fl (fl (2 * demoPrinter.pNozzleDiameter) * fl (100 / demoPrinter.pInfillDensity))
                - demoPrinter.pNozzleDiameter))) 1 with
          | some infillPath => IAMachineToolpath.new.layerAdd none infillPath
          | none => .ok IAMachineToolpath.new) ∧
    (|infillSpacing 1 50 - (2 * 1 * (100 / 50) - 1)| ≤ 2 ^ (-50 : Int) * (2 * 1 * (100 / 50)) ∧
      (1 : Rat) ≤ infillSpacing 1 50 ∧ infillSpacing 1 100 = 1) ∧
    infillSpacing 1 100 ≤ infillSpacing 1 50 :=
  ⟨(C15_infill_spacing.1 demoPrinter 1 0 none ⟨∅⟩ IAMachineToolpath.new).1
      (by rw [fl_tenThousandth]; norm_num [demoPrinter]),
   C15_infill_spacing.2.1 1 50 fl_one (by norm_num) (by norm_num)
      (by rw [fl_tenThousandth]; norm_num) (by norm_num),
   C15_infill_spacing.2.2 1 50 100 fl_one (by norm_num) (by norm_num)
      (by rw [fl_tenThousandth]; norm_num) (by norm_num) (by norm_num)⟩

/-! ## Theorems: the loop of the concentric lids -/

theorem add_pList_eq (A B : IAToolpath) :
    (A.add B).pList = A.pList ++ B.pList ∧ (A.add B).tFirst = A.tFirst ∧
      (A.add B).tPrev = A.tPrev := by
  obtain ⟨h1, h2, h3⟩ := add_pList B A
  refine ⟨?_, h2, h3⟩
  rw [h1]
  congr 1
  conv_rhs => rw [← List.map_id B.pList]
  exact List.map_congr_left (fun e _ => clone_eq e)

theorem store_modify_add (m : IAMachineToolpath) (p : Nat) (t other : IAToolpath)
    (h : m.store[p]? = some t) :
    ∃ t1, (m.modify p (fun l => l.add other)).store[p]? = some t1 ∧
      t1.pList = t.pList ++ other.pList ∧ t1.tFirst = t.tFirst ∧ t1.tPrev = t.tPrev := by
  refine ⟨t.add other, by simp [IAMachineToolpath.modify, h], ?_, ?_, ?_⟩
  · exact (add_pList_eq t other).1
  · exact (add_pList_eq t other).2.1
  · exact (add_pList_eq t other).2.2

theorem store_addIfSome (m : IAMachineToolpath) (p : Nat) (t : IAToolpath)
    (o : Option IAToolpath) (h : m.store[p]? = some t) :
    ∃ t1, (m.addIfSome p o).store[p]? = some t1 ∧ t1.pList = t.pList ++ fragElems o := by
  cases o with
  | none => exact ⟨t, h, by simp [fragElems]⟩
  | some other =>
    obtain ⟨t1, h1, h2, _, _⟩ := store_modify_add m p t other h
    exact ⟨t1, h1, h2⟩

theorem store_addRings (rings : List (Option IAToolpath)) :
    ∀ (m : IAMachineToolpath) (p : Nat) (t : IAToolpath), m.store[p]? = some t →
      ∃ t1, (m.addRings p rings).store[p]? = some t1 ∧
        t1.pList = t.pList ++ rings.flatMap fragElems := by
  induction rings with
  | nil => intro m p t h; exact ⟨t, h, by simp⟩
  | cons o rest ih =>
    intro m p t h
    obtain ⟨t1, h1, h2⟩ := store_addIfSome m p t o h
    obtain ⟨t2, h3, h4⟩ := ih (m.addIfSome p o) p t1 h1
    refine ⟨t2, h3, ?_⟩
    rw [h4, h2]
    simp

theorem concentric_run (P : IAPrinterFDM) (z : Rat) (p : Nat) (d : Nat) :
    ∀ (k : Nat) (lid infill : IAFramebuffer) (m : IAMachineToolpath), k + d = 300 →
      ∃ (r : ConcentricResult) (c : Nat),
        P.concentric z (some p) k lid infill m = .ok r ∧ r.k = k + c ∧ c ≤ d ∧
        (∀ j, j < c → (P.ringAt z lid j).isSome = true) ∧
        (c < d → P.ringAt z lid c = none) ∧
        r.pMachineToolpath = m.addRings p ((List.range c).map (P.ringAt z lid)) := by
  induction d with
  | zero =>
    intro k lid infill m hk
    refine ⟨⟨k, lid, infill, m⟩, 0, ?_, rfl, le_refl _, ?_, ?_, rfl⟩
    · rw [IAPrinterFDM.concentric, if_neg (by omega)]
    · intro j hj; omega
    · intro h; omega
  | succ d ih =>
    intro k lid infill m hk
    have hlt : k < 300 := by omega
    cases hc : P.toolpathFromLassoAndContract lid z P.pNozzleDiameter with
    | mk o lid1 =>
      cases o with
      | none =>
        refine ⟨⟨k, lid1, infill, m⟩, 0, ?_, rfl, Nat.zero_le _, ?_, ?_, rfl⟩
        · rw [IAPrinterFDM.concentric, if_pos hlt, hc]
        · intro j hj; omega
        · intro _
          simp [IAPrinterFDM.ringAt, IAPrinterFDM.lidAfter, hc]
      | some t =>
        obtain ⟨r, c, h1, h2, h3, h4, h5, h6⟩ :=
          ih (k + 1) lid1 (P.subtract infill t P.pNozzleDiameter)
            (m.modify p (fun l => l.add t)) (by omega)
        have hring : ∀ j, P.ringAt z lid (j + 1) = P.ringAt z lid1 j := by
          intro j
          simp [IAPrinterFDM.ringAt, IAPrinterFDM.lidAfter, hc]
        have hring0 : P.ringAt z lid 0 = some t := by
          simp [IAPrinterFDM.ringAt, IAPrinterFDM.lidAfter, hc]
        refine ⟨r, c + 1, ?_, by omega, by omega, ?_, ?_, ?_⟩
        · rw [IAPrinterFDM.concentric, if_pos hlt, hc]
          simpa [IAMachineToolpath.layerAdd] using h1
        · intro j hj
          cases j with
          | zero => rw [hring0]; rfl
          | succ j => rw [hring]; exact h4 j (by omega)
        · intro hcd
          rw [hring]
          exact h5 (by omega)
        · rw [h6, List.range_succ_eq_map]
          simp only [List.map_cons, List.map_map, IAMachineToolpath.addRings, List.foldl_cons,
            hring0, IAMachineToolpath.addIfSome]
          congr 1
          exact List.map_congr_left (fun j _ => (hring j).symm)

theorem concentric_never_noFuel (P : IAPrinterFDM) (z : Rat) (tp : Option Nat) (d : Nat) :
    ∀ (k : Nat) (lid infill : IAFramebuffer) (m : IAMachineToolpath), k + d = 300 →
      P.concentric z tp k lid infill m ≠ .noFuel := by
  induction d with
  | zero =>
    intro k lid infill m hk
    rw [IAPrinterFDM.concentric, if_neg (by omega)]
    exact fun h => Outcome.noConfusion h
  | succ d ih =>
    intro k lid infill m hk
    rw [IAPrinterFDM.concentric, if_pos (by omega)]
    cases hc : P.toolpathFromLassoAndContract lid z P.pNozzleDiameter with
    | mk o lid1 =>
      cases o with
      | none => exact fun h => Outcome.noConfusion h
      | some t =>
        cases tp with
        | none => simp [IAMachineToolpath.layerAdd]
        | some p =>
          simp only [IAMachineToolpath.layerAdd]
          exact ih (k + 1) lid1 _ _ (by omega)

/-- C17: the loop of the concentric lids ends for every behaviour of the contraction:
it never runs out of turns; with a layer toolpath behind `tp` it ends with a counter
`k` of at most 300, which is the number of rings it added; every contraction before
the `k`-th returned a ring, all of these rings were added to the layer toolpath in
the order of the contractions and are kept, also when `k` is 300; and when `k` is
below 300 the loop stopped because the contraction number `k` was the first to return
nothing. So the contraction is called `k + 1` times when `k < 300` and 300 times
otherwise. -/
theorem C17_concentric_loop (P : IAPrinterFDM) (z : Rat) (p : Nat) (lid infill : IAFramebuffer)
    (m : IAMachineToolpath) :
    (∀ tp : Option Nat, P.concentric z tp 0 lid infill m ≠ .noFuel) ∧
    ∃ r : ConcentricResult,
      P.concentric z (some p) 0 lid infill m = .ok r ∧ r.k ≤ 300 ∧
      (∀ j, j < r.k → (P.ringAt z lid j).isSome = true) ∧
      (r.k < 300 → P.ringAt z lid r.k = none) ∧
      r.pMachineToolpath = m.addRings p ((List.range r.k).map (P.ringAt z lid)) ∧
      (∀ t, m.store[p]? = some t →
        ∃ t1, r.pMachineToolpath.store[p]? = some t1 ∧
          t1.pList = t.pList ++
            (List.range r.k).flatMap fun j => fragElems (P.ringAt z lid j)) := by
  refine ⟨fun tp => concentric_never_noFuel P z tp 300 0 lid infill m rfl, ?_⟩
  obtain ⟨r, c, h1, h2, h3, h4, h5, h6⟩ := concentric_run P z p 300 0 lid infill m rfl
  have hk : r.k = c := by omega
  subst hk
  refine ⟨r, h1, h3, h4, h5, h6, fun t ht => ?_⟩
  obtain ⟨t1, h7, h8⟩ := store_addRings ((List.range r.k).map (P.ringAt z lid)) m p t ht
  refine ⟨t1, by rw [h6]; exact h7, ?_⟩
  rw [h8, List.flatMap_map]

theorem concentric_step_none (P : IAPrinterFDM) (z : Rat) (tp : Option Nat) (k : Nat)
    (lid infill lid1 : IAFramebuffer) (m : IAMachineToolpath) (hk : k < 300)
    (hc : P.toolpathFromLassoAndContract lid z P.pNozzleDiameter = (none, lid1)) :
    P.concentric z tp k lid infill m = .ok ⟨k, lid1, infill, m⟩ := by
  rw [IAPrinterFDM.concentric, if_pos hk, hc]

theorem concentric_step_some (P : IAPrinterFDM) (z : Rat) (p k : Nat)
    (lid infill lid1 : IAFramebuffer) (t : IAToolpath) (m : IAMachineToolpath) (hk : k < 300)
    (hc : P.toolpathFromLassoAndContract lid z P.pNozzleDiameter = (some t, lid1)) :
    P.concentric z (some p) k lid infill m
      = P.concentric z (some p) (k + 1) lid1 (P.subtract infill t P.pNozzleDiameter)
          (m.modify p (fun l => l.add t)) := by
  rw [IAPrinterFDM.concentric, if_pos hk, hc]
  rfl

theorem ringPrinter_concentric :
    ringPrinter.concentric 1 (some 0) 0 ⟨{(0, 0), (1, 0)}⟩ ⟨∅⟩
        (IAMachineToolpath.new.createLayer 1).1
      = .ok ⟨2, ⟨∅⟩, ⟨∅⟩,
          { store := [⟨[.motion ⟨⟨0, 0, 1⟩, ⟨2, 0, 1⟩, true, none⟩,
                        .motion ⟨⟨0, 0, 1⟩, ⟨1, 0, 1⟩, true, none⟩],
                       ⟨0, 0, 1⟩, ⟨0, 0, 1⟩⟩],
            pStartupPath := none,
            pLayerMap := [(1000, 0)],
            pShutdownPath := none }⟩ := by
  have c0 : ringPrinter.toolpathFromLassoAndContract ⟨{(0, 0), (1, 0)}⟩ 1
      ringPrinter.pNozzleDiameter
      = (some ((IAToolpath.new 1).startPath 2 0 1), ⟨{(0, 0)}⟩) := by decide
  have c1 : ringPrinter.toolpathFromLassoAndContract ⟨{(0, 0)}⟩ 1 ringPrinter.pNozzleDiameter
      = (some ((IAToolpath.new 1).startPath 1 0 1), ⟨∅⟩) := by decide
  have c2 : ringPrinter.toolpathFromLassoAndContract ⟨∅⟩ 1 ringPrinter.pNozzleDiameter
      = (none, ⟨∅⟩) := by decide
  rw [concentric_step_some _ _ _ _ _ _ _ _ _ (by decide) c0]
  have hs : ringPrinter.subtract ⟨∅⟩ ((IAToolpath.new 1).startPath 2 0 1)
      ringPrinter.pNozzleDiameter = ⟨∅⟩ := rfl
  rw [hs, concentric_step_some _ _ _ _ _ _ _ _ _ (by decide) c1]
  have hs1 : ringPrinter.subtract ⟨∅⟩ ((IAToolpath.new 1).startPath 1 0 1)
      ringPrinter.pNozzleDiameter = ⟨∅⟩ := rfl
  rw [hs1, concentric_step_none _ _ _ _ _ _ _ _ (by decide) c2]
  simp [IAMachineToolpath.modify, IAMachineToolpath.createLayer, IAMachineToolpath.new,
    roundLayerNumber_one, mapFind, mapInsert, IAToolpath.new, IAToolpath.startPath,
    IAToolpath.add, IAToolpathMotion.create, IAToolpathElement.clone, IAToolpathMotion.clone]

/-- C17 for the example printer with concentric lids, on a lid of two cells and a
machine toolpath with one layer: the loop ends, here with two rings. -/
theorem C17_concentric_loop_witness :
    ∃ r : ConcentricResult,
      ringPrinter.concentric 1 (some 0) 0 ⟨{(0, 0), (1, 0)}⟩ ⟨∅⟩
          (IAMachineToolpath.new.createLayer 1).1 = .ok r ∧
      r.k ≤ 300 ∧
      ∃ t1, r.pMachineToolpath.store[0]? = some t1 ∧
        t1.pList = (IAToolpath.new 1).pList ++ (List.range r.k).flatMap fun j =>
          fragElems (ringPrinter.ringAt 1 ⟨{(0, 0), (1, 0)}⟩ j) :=
  let ⟨r, h1, h2, _, _, _, h6⟩ :=
    (C17_concentric_loop ringPrinter 1 0 ⟨{(0, 0), (1, 0)}⟩ ⟨∅⟩
      (IAMachineToolpath.new.createLayer 1).1).2
  ⟨r, h1, h2, h6 (IAToolpath.new 1) (by
    simp [IAMachineToolpath.createLayer, IAMachineToolpath.new, roundLayerNumber_one, mapFind])⟩

/-! ## Theorems: the two loops of `sliceAll` -/

theorem mapFind_some_mem (k : Int) (p : Nat) (l : List (Int × Nat))
    (h : mapFind k l = some p) : (k, p) ∈ l := by
  induction l with
  | nil => simp [mapFind] at h
  | cons e rest ih =>
    obtain ⟨k1, v1⟩ := e
    by_cases hk : k1 = k
    · simp only [mapFind, hk, if_true, Option.some.injEq] at h
      rw [hk, h]; exact List.mem_cons_self _ _
    · simp only [mapFind, hk, if_false] at h
      exact List.mem_cons_of_mem _ (ih h)

theorem mapFind_none_no_entry (k : Int) (l : List (Int × Nat)) (h : mapFind k l = none) :
    ∀ entry ∈ l, entry.1 ≠ k := by
  induction l with
  | nil => intro entry he; cases he
  | cons e rest ih =>
    obtain ⟨k1, v1⟩ := e
    by_cases hk : k1 = k
    · simp [mapFind, hk] at h
    · simp only [mapFind, hk, if_false] at h
      intro entry he
      rcases List.mem_cons.mp he with h1 | h1
      · rw [h1]; exact hk
      · exact ih h entry h1

theorem length_mapInsert (k : Int) (v : Nat) (l : List (Int × Nat))
    (h : mapFind k l = none) : (mapInsert k v l).length = l.length + 1 := by
  induction l with
  | nil => rfl
  | cons e rest ih =>
    obtain ⟨k1, v1⟩ := e
    by_cases hk : k1 = k
    · simp [mapFind, hk] at h
    · simp only [mapFind, hk, if_false] at h
      have hk2 : ¬ k = k1 := fun h => hk h.symm
      unfold mapInsert
      by_cases hlt : k < k1
      · simp [hlt]
      · simp [hlt, hk2, ih h]

theorem mapFind_mapInsert_ne (k k2 : Int) (v : Nat) (l : List (Int × Nat)) (hne : k2 ≠ k) :
    mapFind k2 (mapInsert k v l) = mapFind k2 l := by
  induction l with
  | nil =>
    have h : ¬ k = k2 := fun h => hne h.symm
    simp [mapInsert, mapFind, h]
  | cons e rest ih =>
    obtain ⟨k1, v1⟩ := e
    have h : ¬ k = k2 := fun h => hne h.symm
    unfold mapInsert
    by_cases hlt : k < k1
    · simp [hlt, mapFind, h]
    · by_cases heq : k = k1
      · simp [hlt, heq]
      · simp only [hlt, heq, if_false, mapFind]
        rw [ih]

theorem createLayer_of_none (m : IAMachineToolpath) (z : Rat)
    (h : mapFind (roundLayerNumber z) m.pLayerMap = none) :
    m.createLayer z
      = ({ m with store := m.store ++ [IAToolpath.new z],
                  pLayerMap := mapInsert (roundLayerNumber z) m.store.length m.pLayerMap },
          m.store.length) := by
  simp [IAMachineToolpath.createLayer, h]

theorem createLayer_of_some (m : IAMachineToolpath) (z : Rat) (p : Nat)
    (h : mapFind (roundLayerNumber z) m.pLayerMap = some p) :
    m.createLayer z = (m, p) := by
  simp [IAMachineToolpath.createLayer, h]

theorem inv_addIfSome (m : IAMachineToolpath) (p : Nat) (t : Option IAToolpath) (h : m.Inv) :
    (m.addIfSome p t).Inv := by
  cases t with
  | none => exact h
  | some other => exact inv_modify m p _ h

theorem pLayerMap_addIfSome (m : IAMachineToolpath) (p : Nat) (t : Option IAToolpath) :
    (m.addIfSome p t).pLayerMap = m.pLayerMap := by
  cases t <;> rfl

theorem pLayerMap_addShells (m : IAMachineToolpath) (p : Nat) (t1 t2 t3 : Option IAToolpath) :
    (m.addShells p t1 t2 t3).pLayerMap = m.pLayerMap := by
  simp [IAMachineToolpath.addShells, pLayerMap_addIfSome]

theorem inv_addShells (m : IAMachineToolpath) (p : Nat) (t1 t2 t3 : Option IAToolpath)
    (h : m.Inv) : (m.addShells p t1 t2 t3).Inv :=
  inv_addIfSome _ _ _ (inv_addIfSome _ _ _ (inv_addIfSome _ _ _ h))

theorem findLayer_createLayer_other (m : IAMachineToolpath) (z z2 : Rat) (p : Nat)
    (h : m.findLayer z2 = some p) : (m.createLayer z).1.findLayer z2 = some p := by
  cases hf : mapFind (roundLayerNumber z) m.pLayerMap with
  | some q => rw [createLayer_of_some m z q hf]; exact h
  | none =>
    rw [createLayer_of_none m z hf]
    have hne : roundLayerNumber z2 ≠ roundLayerNumber z := by
      intro heq
      unfold IAMachineToolpath.findLayer at h
      rw [heq, hf] at h
      cases h
    unfold IAMachineToolpath.findLayer at h ⊢
    simp only
    rw [mapFind_mapInsert_ne _ _ _ _ hne]
    exact h

theorem findLayer_addShells (m : IAMachineToolpath) (p : Nat) (t1 t2 t3 : Option IAToolpath)
    (z : Rat) : (m.addShells p t1 t2 t3).findLayer z = m.findLayer z := by
  unfold IAMachineToolpath.findLayer
  rw [pLayerMap_addShells]

theorem pLayerMap_createLayer_le (m : IAMachineToolpath) (z : Rat) :
    (m.createLayer z).1.pLayerMap.length ≤ m.pLayerMap.length + 1 := by
  cases hf : mapFind (roundLayerNumber z) m.pLayerMap with
  | some q => rw [createLayer_of_some m z q hf]; exact Nat.le_succ _
  | none =>
    rw [createLayer_of_none m z hf]
    exact le_of_eq (length_mapInsert _ _ _ hf)

theorem mem_createLayer (m : IAMachineToolpath) (z : Rat) :
    ∀ entry ∈ (m.createLayer z).1.pLayerMap,
      entry.1 = roundLayerNumber z ∨ entry ∈ m.pLayerMap := by
  intro entry he
  cases hf : mapFind (roundLayerNumber z) m.pLayerMap with
  | some q => rw [createLayer_of_some m z q hf] at he; exact Or.inr he
  | none =>
    rw [createLayer_of_none m z hf] at he
    rcases mem_mapInsert _ _ _ entry he with h | h
    · left; rw [h]
    · right; exact h

theorem pass1Body_inv (P : IAPrinterFDM) (L j : Nat) (s : SliceState)
    (h : Pass1Inv P L j s) (hj : j < L) :
    ∃ s1, P.pass1Body (P.zAt j) j s = .ok s1 ∧ Pass1Inv P L (j + 1) s1 := by
  have hlen : j < s.sliceList.length := by rw [h.length_eq]; exact hj
  unfold IAPrinterFDM.pass1Body
  rw [if_pos hlen]
  refine ⟨_, rfl, ?_⟩
  constructor
  · simp [h.length_eq]
  · intro i hi
    by_cases hij : i = j
    · subst hij
      exact ⟨_, List.getElem?_set_self hlen⟩
    · obtain ⟨slc, hs⟩ := h.created i (by omega)
      exact ⟨slc, by simp only; rw [List.getElem?_set_ne (fun h => hij h.symm)]; exact hs⟩
  · intro i hi hiL
    simp only
    rw [List.getElem?_set_ne (by omega)]
    exact h.notCreated i (by omega) hiL
  · exact inv_addShells _ _ _ _ _ (inv_createLayer _ _ h.inv)
  · simp only [pLayerMap_addShells]
    exact le_trans (pLayerMap_createLayer_le _ _) (Nat.succ_le_succ h.layers_le)
  · intro i hi
    simp only [findLayer_addShells]
    by_cases hij : i = j
    · subst hij
      exact ⟨_, createLayer_findLayer _ _ _ rfl⟩
    · obtain ⟨p, hp⟩ := h.found i (by omega)
      exact ⟨p, findLayer_createLayer_other _ _ _ _ hp⟩
  · intro entry he
    simp only [pLayerMap_addShells] at he
    rcases mem_createLayer _ _ entry he with h1 | h1
    · exact ⟨j, Nat.lt_succ_self _, h1⟩
    · obtain ⟨i, hi, hk⟩ := h.keys entry h1
      exact ⟨i, by omega, hk⟩
  · intro hdist
    simp only [pLayerMap_addShells]
    have hold : s.pMachineToolpath.pLayerMap.length = j :=
      h.layers_eq (fun a b ha hb => hdist a b (by omega) (by omega))
    have hnone : mapFind (roundLayerNumber (P.zAt j)) s.pMachineToolpath.pLayerMap = none := by
      cases hf : mapFind (roundLayerNumber (P.zAt j)) s.pMachineToolpath.pLayerMap with
      | none => rfl
      | some q =>
        obtain ⟨i, hi, hk⟩ := h.keys _ (mapFind_some_mem _ _ _ hf)
        have : j = i := hdist j i (Nat.lt_succ_self _) (by omega) hk
        omega
    rw [createLayer_of_none _ _ hnone]
    simp only
    rw [length_mapInsert _ _ _ hnone, hold]

theorem zAt_succ (P : IAPrinterFDM) (j : Nat) : P.zAt j + P.layerHeight = P.zAt (j + 1) := by
  unfold IAPrinterFDM.zAt
  push_cast
  ring

theorem zAt_zero (P : IAPrinterFDM) : P.zAt 0 = P.zMin := by
  simp [IAPrinterFDM.zAt]

theorem zAt_mono (P : IAPrinterFDM) (hh : 0 < P.layerHeight) (i j : Nat) (hij : i ≤ j) :
    P.zAt i ≤ P.zAt j := by
  unfold IAPrinterFDM.zAt
  have h1 : (i : Rat) ≤ (j : Rat) := by exact_mod_cast hij
  have h2 := mul_le_mul_of_nonneg_right h1 (le_of_lt hh)
  linarith

theorem pass1_stop_bound (P : IAPrinterFDM) (fuel : Nat) (z : Rat) (i : Nat) (s : SliceState)
    (h : ¬ z < P.zMax + 2 * P.layerHeight) : P.pass1 (fuel + 1) z i s = .ok s := by
  simp [IAPrinterFDM.pass1, h]

theorem pass1_stop_cancel (P : IAPrinterFDM) (fuel : Nat) (z : Rat) (i : Nat) (s : SliceState)
    (hn : P.n ≠ 0) (hc : P.progressPass1 i = true) : P.pass1 (fuel + 1) z i s = .ok s := by
  by_cases h : z < P.zMax + 2 * P.layerHeight <;> simp [IAPrinterFDM.pass1, h, hn, hc]

theorem pass1_step (P : IAPrinterFDM) (fuel : Nat) (z : Rat) (i : Nat) (s s1 : SliceState)
    (hz : z < P.zMax + 2 * P.layerHeight) (hn : P.n ≠ 0) (hc : P.progressPass1 i = false)
    (hb : P.pass1Body z i s = .ok s1) :
    P.pass1 (fuel + 1) z i s = P.pass1 fuel (z + P.layerHeight) (i + 1) s1 := by
  simp [IAPrinterFDM.pass1, hz, hn, hc, hb]

theorem pass1_steps (P : IAPrinterFDM) (L : Nat) (hn : P.n ≠ 0) (c : Nat) :
    ∀ (j : Nat) (s : SliceState), Pass1Inv P L j s →
      (∀ i, j ≤ i → i < j + c →
        P.zAt i < P.zMax + 2 * P.layerHeight ∧ P.progressPass1 i = false ∧ i < L) →
      ∃ s1, Pass1Inv P L (j + c) s1 ∧
        ∀ fuel, P.pass1 (fuel + c) (P.zAt j) j s = P.pass1 fuel (P.zAt (j + c)) (j + c) s1 := by
  induction c with
  | zero => intro j s h _; exact ⟨s, h, fun fuel => rfl⟩
  | succ c ih =>
    intro j s h hall
    obtain ⟨hz, hc, hL⟩ := hall j (le_refl _) (by omega)
    obtain ⟨s1, hb, hinv⟩ := pass1Body_inv P L j s h hL
    obtain ⟨s2, hinv2, hrun⟩ := ih (j + 1) s1 hinv
      (fun i hi1 hi2 => hall i (by omega) (by omega))
    have hidx : j + 1 + c = j + (c + 1) := by omega
    rw [hidx] at hinv2 hrun
    refine ⟨s2, hinv2, fun fuel => ?_⟩
    have h1 : P.pass1 (fuel + (c + 1)) (P.zAt j) j s
        = P.pass1 (fuel + c) (P.zAt j + P.layerHeight) (j + 1) s1 :=
      pass1_step P (fuel + c) (P.zAt j) j s s1 hz hn hc hb
    rw [h1, zAt_succ]
    exact hrun fuel

theorem pass1Inv_initial (P : IAPrinterFDM) (m : IAMachineToolpath) :
    Pass1Inv P (P.n + 4).toNat 0 (P.initial m) := by
  constructor
  · simp [IAPrinterFDM.initial]
  · intro i hi; omega
  · intro i _ hiL
    simp [IAPrinterFDM.initial, List.getElem?_replicate, hiL]
  · exact inv_new
  · exact Nat.le_refl _
  · intro i hi; omega
  · intro entry he; cases he
  · intro _; rfl

theorem truncToInt_of_nonneg (q : Rat) (h : 0 ≤ q) : truncToInt q = ⌊q⌋ := by
  simp [truncToInt, h]

theorem index_bound (P : IAPrinterFDM) (hh : 0 < P.layerHeight) (hmesh : P.meshMinZ ≤ P.meshMaxZ) :
    1 ≤ P.n ∧ ∀ i : Nat, P.zAt i < P.zMax + 2 * P.layerHeight → i + 1 < (P.n + 4).toNat := by
  have hq : (P.zMax - P.zMin) / P.layerHeight
      = (P.meshMaxZ - P.meshMinZ) / P.layerHeight + 11 / 10 := by
    unfold IAPrinterFDM.zMax IAPrinterFDM.hgt IAPrinterFDM.zMin
    field_simp
    ring
  have hd : 0 ≤ (P.meshMaxZ - P.meshMinZ) / P.layerHeight :=
    div_nonneg (by linarith) (le_of_lt hh)
  have hq1 : (1 : Rat) ≤ (P.zMax - P.zMin) / P.layerHeight := by rw [hq]; linarith
  have hn : P.n = ⌊(P.zMax - P.zMin) / P.layerHeight⌋ :=
    truncToInt_of_nonneg _ (by linarith)
  have h1 : 1 ≤ P.n := by
    rw [hn]
    exact Int.le_floor.mpr (by exact_mod_cast hq1)
  refine ⟨h1, fun i hi => ?_⟩
  have hfl : (P.zMax - P.zMin) / P.layerHeight < (P.n : Rat) + 1 := by
    rw [hn]; exact Int.lt_floor_add_one _
  have hi2 : (i : Rat) < (P.zMax - P.zMin) / P.layerHeight + 2 := by
    rw [hq]
    have h3 : (i : Rat) * P.layerHeight
        < (P.meshMaxZ - P.meshMinZ) + 31 / 10 * P.layerHeight := by
      unfold IAPrinterFDM.zAt IAPrinterFDM.zMax IAPrinterFDM.hgt IAPrinterFDM.zMin at hi
      linarith
    have h4 : (i : Rat) < ((P.meshMaxZ - P.meshMinZ) + 31 / 10 * P.layerHeight) / P.layerHeight :=
      (lt_div_iff₀ hh).mpr h3
    have h5 : ((P.meshMaxZ - P.meshMinZ) + 31 / 10 * P.layerHeight) / P.layerHeight
        = (P.meshMaxZ - P.meshMinZ) / P.layerHeight + 31 / 10 := by
      have hne : P.layerHeight ≠ 0 := ne_of_gt hh
      rw [add_div, mul_div_assoc, div_self hne, mul_one]
    rw [h5] at h4
    linarith
  have hi3 : (i : Rat) < (P.n : Rat) + 3 := by linarith
  have hi4 : (i : Int) < P.n + 3 := by exact_mod_cast hi3
  omega

theorem extends_refl (m : IAMachineToolpath) : Extends m m :=
  ⟨rfl, rfl, rfl, rfl, fun _ t h => ⟨t, [], h, by simp⟩⟩

theorem extends_trans {m m1 m2 : IAMachineToolpath} (h1 : Extends m m1) (h2 : Extends m1 m2) :
    Extends m m2 := by
  obtain ⟨a1, b1, c1, d1, e1⟩ := h1
  obtain ⟨a2, b2, c2, d2, e2⟩ := h2
  refine ⟨a2.trans a1, b2.trans b1, c2.trans c1, d2.trans d1, fun q t ht => ?_⟩
  obtain ⟨t1, s1, ht1, hl1⟩ := e1 q t ht
  obtain ⟨t2, s2, ht2, hl2⟩ := e2 q t1 ht1
  exact ⟨t2, s1 ++ s2, ht2, by rw [hl2, hl1, List.append_assoc]⟩

theorem extends_modify_add (m : IAMachineToolpath) (p : Nat) (other : IAToolpath) :
    Extends m (m.modify p (fun l => l.add other)) := by
  refine ⟨rfl, rfl, rfl, by simp [IAMachineToolpath.modify], fun q t ht => ?_⟩
  by_cases hq : p = q
  · subst hq
    obtain ⟨t1, h1, h2, _, _⟩ := store_modify_add m p t other ht
    exact ⟨t1, other.pList, h1, h2⟩
  · refine ⟨t, [], ?_, by simp⟩
    simp only [IAMachineToolpath.modify]
    rw [List.getElem?_modify_ne _ _ hq]
    exact ht

theorem extends_layerAdd (m m1 : IAMachineToolpath) (tp : Option Nat) (other : IAToolpath)
    (h : m.layerAdd tp other = .ok m1) : Extends m m1 := by
  cases tp with
  | none => cases h
  | some p =>
    simp only [IAMachineToolpath.layerAdd, Outcome.ok.injEq] at h
    rw [← h]
    exact extends_modify_add m p other

theorem concentric_extends (P : IAPrinterFDM) (z : Rat) (tp : Option Nat) (d : Nat) :
    ∀ (k : Nat) (lid infill : IAFramebuffer) (m : IAMachineToolpath) (r : ConcentricResult),
      k + d = 300 → P.concentric z tp k lid infill m = .ok r →
      Extends m r.pMachineToolpath := by
  induction d with
  | zero =>
    intro k lid infill m r hk h
    rw [IAPrinterFDM.concentric, if_neg (by omega)] at h
    simp only [Outcome.ok.injEq] at h
    rw [← h]
    exact extends_refl m
  | succ d ih =>
    intro k lid infill m r hk h
    rw [IAPrinterFDM.concentric, if_pos (by omega)] at h
    cases hc : P.toolpathFromLassoAndContract lid z P.pNozzleDiameter with
    | mk o lid1 =>
      rw [hc] at h
      cases o with
      | none =>
        simp only [Outcome.ok.injEq] at h
        rw [← h]
        exact extends_refl m
      | some t =>
        cases tp with
        | none => simp [IAMachineToolpath.layerAdd] at h
        | some p =>
          simp only [IAMachineToolpath.layerAdd] at h
          exact extends_trans (extends_modify_add m p t) (ih (k + 1) lid1 _ _ r (by omega) h)

theorem buildLids_extends (P : IAPrinterFDM) (z : Rat) (i : Nat) (tp : Option Nat)
    (lid infill : IAFramebuffer) (m : IAMachineToolpath) (r : IAFramebuffer × IAMachineToolpath)
    (h : P.buildLids z i tp lid infill m = .ok r) : Extends m r.2 := by
  unfold IAPrinterFDM.buildLids at h
  by_cases ht : P.pLidType = 0
  · rw [if_pos ht] at h
    cases hl : P.toolpathFromLasso (P.overlayInfillPattern lid i P.pNozzleDiameter) z with
    | none =>
      simp only [hl, Outcome.ok.injEq] at h
      rw [← h]
      exact extends_refl m
    | some lidPath =>
      simp only [hl] at h
      obtain ⟨m1, h1, h2⟩ := Outcome.bind_eq_ok h
      simp only [Outcome.ok.injEq] at h2
      rw [← h2]
      exact extends_layerAdd m m1 tp lidPath h1
  · rw [if_neg ht] at h
    obtain ⟨r1, h1, h2⟩ := Outcome.bind_eq_ok h
    simp only [Outcome.ok.injEq] at h2
    rw [← h2]
    exact concentric_extends P z tp 300 0 lid infill m r1 rfl h1

theorem buildInfill_extends (P : IAPrinterFDM) (z : Rat) (i : Nat) (tp : Option Nat)
    (infill : IAFramebuffer) (m m1 : IAMachineToolpath)
    (h : P.buildInfill z i tp infill m = .ok m1) : Extends m m1 := by
  unfold IAPrinterFDM.buildInfill at h
  by_cases hd : P.pInfillDensity > fl (1 / 10000)
  · rw [if_pos hd] at h
    cases hl : P.toolpathFromLasso (P.overlayInfillPattern infill i
        (infillSpacing P.pNozzleDiameter P.pInfillDensity)) z with
    | none =>
      simp only [hl, Outcome.ok.injEq] at h
      rw [← h]
      exact extends_refl m
    | some infillPath =>
      simp only [hl] at h
      exact extends_layerAdd m m1 tp infillPath h
  · rw [if_neg hd] at h
    simp only [Outcome.ok.injEq] at h
    rw [← h]
    exact extends_refl m

theorem lidsBlock_extends (P : IAPrinterFDM) (z : Rat) (i : Nat) (tp : Option Nat)
    (sliceList : List (Option IASlice)) (layer : IAFramebuffer) (m : IAMachineToolpath)
    (r : IAFramebuffer × IAMachineToolpath)
    (h : P.lidsBlock z i tp sliceList layer m = .ok r) : Extends m r.2 := by
  unfold IAPrinterFDM.lidsBlock at h
  by_cases hl : P.pNumLids > 0
  · rw [if_pos hl] at h
    obtain ⟨mask, _, h2⟩ := Outcome.bind_eq_ok h
    exact buildLids_extends P z i tp _ _ m r h2
  · rw [if_neg hl] at h
    simp only [Outcome.ok.injEq] at h
    rw [← h]
    exact extends_refl m

theorem pass2Body_extends (P : IAPrinterFDM) (z : Rat) (i : Nat) (s s1 : SliceState)
    (h : P.pass2Body z i s = .ok s1) :
    Extends s.pMachineToolpath s1.pMachineToolpath := by
  unfold IAPrinterFDM.pass2Body at h
  obtain ⟨layer, _, h⟩ := Outcome.bind_eq_ok h
  obtain ⟨r, hr, h⟩ := Outcome.bind_eq_ok h
  obtain ⟨m, hm, h⟩ := Outcome.bind_eq_ok h
  simp only [Outcome.ok.injEq] at h
  rw [← h]
  exact extends_trans (lidsBlock_extends P z i _ _ _ _ r hr)
    (buildInfill_extends P z i _ _ _ m hm)

theorem pass2_extends (P : IAPrinterFDM) (fuel : Nat) :
    ∀ (z : Rat) (i : Nat) (s s2 : SliceState), P.pass2 fuel z i s = .ok s2 →
      s2.sliceList = s.sliceList ∧ Extends s.pMachineToolpath s2.pMachineToolpath := by
  induction fuel with
  | zero => intro z i s s2 h; simp [IAPrinterFDM.pass2] at h
  | succ fuel ih =>
    intro z i s s2 h
    rw [IAPrinterFDM.pass2] at h
    by_cases hz : z < P.zMax - P.layerHeight
    · rw [if_pos hz] at h
      by_cases hn : P.n = 0
      · simp [hn] at h
      · rw [if_neg hn] at h
        by_cases hc : P.progressPass2 i = true
        · rw [if_pos hc] at h
          simp only [Outcome.ok.injEq] at h
          rw [← h]
          exact ⟨rfl, extends_refl _⟩
        · rw [if_neg hc] at h
          cases hb : P.pass2Body z i s with
          | ok s1 =>
            rw [hb] at h
            obtain ⟨h1, h2⟩ := ih _ _ s1 s2 h
            exact ⟨h1.trans (pass2Body_sliceList P z i s s1 hb),
              extends_trans (pass2Body_extends P z i s s1 hb) h2⟩
          | undefined => rw [hb] at h; cases h
          | noFuel => rw [hb] at h; cases h
    · rw [if_neg hz] at h
      simp only [Outcome.ok.injEq] at h
      rw [← h]
      exact ⟨rfl, extends_refl _⟩

theorem buildLids_ok (P : IAPrinterFDM) (z : Rat) (i p : Nat) (lid infill : IAFramebuffer)
    (m : IAMachineToolpath) : ∃ r, P.buildLids z i (some p) lid infill m = .ok r := by
  unfold IAPrinterFDM.buildLids
  by_cases ht : P.pLidType = 0
  · rw [if_pos ht]
    cases hl : P.toolpathFromLasso (P.overlayInfillPattern lid i P.pNozzleDiameter) z with
    | none => simp only [hl]; exact ⟨_, rfl⟩
    | some lidPath =>
      simp only [hl, IAMachineToolpath.layerAdd, Outcome.bind_ok]
      exact ⟨_, rfl⟩
  · rw [if_neg ht]
    obtain ⟨r, c, h1, _⟩ := concentric_run P z p 300 0 lid infill m rfl
    rw [h1]
    exact ⟨_, rfl⟩

theorem buildInfill_ok (P : IAPrinterFDM) (z : Rat) (i p : Nat) (infill : IAFramebuffer)
    (m : IAMachineToolpath) : ∃ m1, P.buildInfill z i (some p) infill m = .ok m1 := by
  unfold IAPrinterFDM.buildInfill
  by_cases hd : P.pInfillDensity > fl (1 / 10000)
  · rw [if_pos hd]
    cases hl : P.toolpathFromLasso (P.overlayInfillPattern infill i
        (infillSpacing P.pNozzleDiameter P.pInfillDensity)) z with
    | none => simp only [hl]; exact ⟨_, rfl⟩
    | some infillPath =>
      simp only [hl, IAMachineToolpath.layerAdd]
      exact ⟨_, rfl⟩
  · rw [if_neg hd]
    exact ⟨_, rfl⟩

theorem pass2Body_ok (P : IAPrinterFDM) (z : Rat) (i p : Nat) (s : SliceState)
    (hlen : i + 2 < s.sliceList.length)
    (hslices : ∀ j, j ≤ i + 1 → ∃ slc, s.sliceList[j]? = some (some slc))
    (hfind : s.pMachineToolpath.findLayer z = some p) :
    ∃ s1, P.pass2Body z i s = .ok s1 := by
  obtain ⟨slc, hslc⟩ := hslices i (by omega)
  unfold IAPrinterFDM.pass2Body
  simp only [hfind, derefSlice_of_some _ _ _ hslc, Outcome.bind_ok]
  have hblock : ∃ r, P.lidsBlock z i (some p) s.sliceList slc.pFramebuffer s.pMachineToolpath
      = .ok r := by
    unfold IAPrinterFDM.lidsBlock
    by_cases hl : P.pNumLids > 0
    · rw [if_pos hl]
      obtain ⟨mask, hm, _⟩ := computeMask_cells P s.sliceList i hlen hslices
      rw [hm]
      exact buildLids_ok P z i p _ _ _
    · rw [if_neg hl]
      exact ⟨_, rfl⟩
  obtain ⟨r, hr⟩ := hblock
  rw [hr]
  obtain ⟨m1, hm1⟩ := buildInfill_ok P z i p r.1 r.2
  simp only [Outcome.bind_ok, hm1]
  exact ⟨_, rfl⟩

theorem pass2_stop_bound (P : IAPrinterFDM) (fuel : Nat) (z : Rat) (i : Nat) (s : SliceState)
    (h : ¬ z < P.zMax - P.layerHeight) : P.pass2 (fuel + 1) z i s = .ok s := by
  simp [IAPrinterFDM.pass2, h]

theorem pass2_step (P : IAPrinterFDM) (fuel : Nat) (z : Rat) (i : Nat) (s s1 : SliceState)
    (hz : z < P.zMax - P.layerHeight) (hn : P.n ≠ 0) (hc : P.progressPass2 i = false)
    (hb : P.pass2Body z i s = .ok s1) :
    P.pass2 (fuel + 1) z i s = P.pass2 fuel (z + P.layerHeight) (i + 1) s1 := by
  simp [IAPrinterFDM.pass2, hz, hn, hc, hb]

theorem pass2_undefined (P : IAPrinterFDM) (fuel : Nat) (z : Rat) (i : Nat) (s : SliceState)
    (hz : z < P.zMax - P.layerHeight) (hn : P.n ≠ 0) (hc : P.progressPass2 i = false)
    (hb : P.pass2Body z i s = .undefined) :
    P.pass2 (fuel + 1) z i s = .undefined := by
  simp [IAPrinterFDM.pass2, hz, hn, hc, hb]

theorem findLayer_of_pLayerMap (m m1 : IAMachineToolpath) (z : Rat)
    (h : m1.pLayerMap = m.pLayerMap) : m1.findLayer z = m.findLayer z := by
  unfold IAMachineToolpath.findLayer
  rw [h]

theorem pass2_steps (P : IAPrinterFDM) (hn : P.n ≠ 0) (c : Nat) :
    ∀ (j : Nat) (s : SliceState),
      (∀ i, j ≤ i → i < j + c →
        P.zAt i < P.zMax - P.layerHeight ∧ P.progressPass2 i = false ∧
        i + 2 < s.sliceList.length ∧
        (∀ l, l ≤ i + 1 → ∃ slc, s.sliceList[l]? = some (some slc)) ∧
        ∃ p, s.pMachineToolpath.findLayer (P.zAt i) = some p) →
      ∃ s1, s1.sliceList = s.sliceList ∧ Extends s.pMachineToolpath s1.pMachineToolpath ∧
        ∀ fuel, P.pass2 (fuel + c) (P.zAt j) j s = P.pass2 fuel (P.zAt (j + c)) (j + c) s1 := by
  induction c with
  | zero => intro j s _; exact ⟨s, rfl, extends_refl _, fun fuel => rfl⟩
  | succ c ih =>
    intro j s hall
    obtain ⟨hz, hc, hlen, hslices, p, hp⟩ := hall j (le_refl _) (by omega)
    obtain ⟨s1, hb⟩ := pass2Body_ok P (P.zAt j) j p s hlen hslices hp
    have hsl := pass2Body_sliceList P _ _ s s1 hb
    have hext := pass2Body_extends P _ _ s s1 hb
    obtain ⟨s2, hsl2, hext2, hrun⟩ := ih (j + 1) s1 (by
      intro i hi1 hi2
      obtain ⟨a, b, c1, d, q, hq⟩ := hall i (by omega) (by omega)
      refine ⟨a, b, by rw [hsl]; exact c1, by rw [hsl]; exact d, q, ?_⟩
      rw [findLayer_of_pLayerMap _ _ _ hext.1]
      exact hq)
    have hidx : j + 1 + c = j + (c + 1) := by omega
    rw [hidx] at hrun
    refine ⟨s2, hsl2.trans hsl, extends_trans hext hext2, fun fuel => ?_⟩
    have h1 : P.pass2 (fuel + (c + 1)) (P.zAt j) j s
        = P.pass2 (fuel + c) (P.zAt j + P.layerHeight) (j + 1) s1 :=
      pass2_step P (fuel + c) (P.zAt j) j s s1 hz hn hc hb
    rw [h1, zAt_succ]
    exact hrun fuel

theorem pass1_cancel_at (P : IAPrinterFDM) (m0 : IAMachineToolpath) (k fuel : Nat)
    (hh : 0 < P.layerHeight) (hmesh : P.meshMinZ ≤ P.meshMaxZ)
    (hreach : P.zAt k < P.zMax + 2 * P.layerHeight)
    (hbefore : ∀ i, i < k → P.progressPass1 i = false)
    (hcancel : P.progressPass1 k = true) (hfuel : k < fuel) :
    ∃ s1, P.pass1 fuel P.zMin 0 (P.initial m0) = .ok s1 ∧
      Pass1Inv P (P.n + 4).toNat k s1 := by
  obtain ⟨hn1, hidx⟩ := index_bound P hh hmesh
  have hn : P.n ≠ 0 := by omega
  obtain ⟨s1, hinv, hrun⟩ := pass1_steps P (P.n + 4).toNat hn k 0 (P.initial m0)
    (pass1Inv_initial P m0) (by
      intro i _ hi
      have hik : i < k := by omega
      have hz : P.zAt i < P.zMax + 2 * P.layerHeight :=
        lt_of_le_of_lt (zAt_mono P hh i k (le_of_lt hik)) hreach
      exact ⟨hz, hbefore i hik, by have := hidx i hz; omega⟩)
  rw [Nat.zero_add] at hinv hrun
  refine ⟨s1, ?_, hinv⟩
  obtain ⟨f, hf⟩ : ∃ f, fuel = (f + 1) + k := ⟨fuel - k - 1, by omega⟩
  rw [hf, ← zAt_zero, hrun (f + 1)]
  exact pass1_stop_cancel P f _ k s1 hn hcancel

theorem sliceAll_eq_pass2 (P : IAPrinterFDM) (fuel : Nat) (m0 : IAMachineToolpath)
    (s1 : SliceState) (h : P.pass1 fuel P.zMin 0 (P.initial m0) = .ok s1) :
    P.sliceAll fuel m0 = P.pass2 fuel P.zMin 0 s1 := by
  unfold IAPrinterFDM.sliceAll
  rw [h]
  rfl

theorem cancelPrinter_n : cancelPrinter.n = 10 := by
  have h : (cancelPrinter.zMax - cancelPrinter.zMin) / cancelPrinter.layerHeight = 101 / 10 := by
    norm_num [cancelPrinter, demoPrinter, IAPrinterFDM.zMax, IAPrinterFDM.hgt,
      IAPrinterFDM.zMin]
  unfold IAPrinterFDM.n
  rw [h, truncToInt_of_nonneg _ (by norm_num), Int.floor_eq_iff]
  constructor <;> norm_num

theorem roundLayerNumber_of_int (z : Rat) (k : Int) (hz : z * 1000 = (k : Rat)) (h0 : 0 ≤ k)
    (h1 : k < 2 ^ 31) : roundLayerNumber z = k := by
  unfold roundLayerNumber
  have hk0 : (0 : Rat) ≤ (k : Rat) := by exact_mod_cast h0
  rw [hz, fl_int k (by rw [abs_lt]; omega),
    lround_of_bounds (k : Rat) k hk0 (by linarith) (by linarith)]
  exact toInt32_of_fits k (by omega) h1

/-- What holds for every printer on a mesh from 0 to 10 with layer height 1/5 whose
progress dialog never requests cancellation. -/
theorem cube_run (P : IAPrinterFDM) (m0 : IAMachineToolpath) (fuel : Nat)
    (hmin : P.meshMinZ = 0) (hmax : P.meshMaxZ = 10) (hlh : P.layerHeight = 1 / 5)
    (hp1 : ∀ i, P.progressPass1 i = false) (hp2 : ∀ i, P.progressPass2 i = false)
    (hfuel : 55 ≤ fuel) :
    ∃ s1 s, P.pass1 fuel P.zMin 0 (P.initial m0) = .ok s1 ∧
      P.sliceAll fuel m0 = .ok s ∧
      s.sliceList = s1.sliceList ∧
      (∀ i, i < 54 → ∃ slc, s.sliceList[i]? = some (some slc)) ∧
      (∀ i, 54 ≤ i → ∀ slc, s.sliceList[i]? ≠ some (some slc)) ∧
      s.pMachineToolpath.pLayerMap.length = 54 := by
  have hh : 0 < P.layerHeight := by rw [hlh]; norm_num
  have hmesh : P.meshMinZ ≤ P.meshMaxZ := by rw [hmin, hmax]; norm_num
  obtain ⟨hn1, hidx⟩ := index_bound P hh hmesh
  have hn : P.n ≠ 0 := by omega
  have hzAt : ∀ i : Nat, P.zAt i = 9 / 50 + (i : Rat) / 5 := by
    intro i
    unfold IAPrinterFDM.zAt IAPrinterFDM.zMin
    rw [hlh]; ring
  have hb1 : P.zMax + 2 * P.layerHeight = 54 / 5 := by
    unfold IAPrinterFDM.zMax IAPrinterFDM.hgt
    rw [hmin, hmax, hlh]; norm_num
  have hb2 : P.zMax - P.layerHeight = 51 / 5 := by
    unfold IAPrinterFDM.zMax IAPrinterFDM.hgt
    rw [hmin, hmax, hlh]; norm_num
  have hlt1 : ∀ i : Nat, i < 54 → P.zAt i < P.zMax + 2 * P.layerHeight := by
    intro i hi
    rw [hzAt, hb1]
    have : (i : Rat) ≤ 53 := by exact_mod_cast Nat.le_of_lt_succ hi
    linarith
  have hlt2 : ∀ i : Nat, i < 51 → P.zAt i < P.zMax - P.layerHeight := by
    intro i hi
    rw [hzAt, hb2]
    have : (i : Rat) ≤ 50 := by exact_mod_cast Nat.le_of_lt_succ hi
    linarith
  have hL : 54 < (P.n + 4).toNat := hidx 53 (hlt1 53 (by norm_num))
  -- the first loop
  obtain ⟨s1, hinv, hrun⟩ := pass1_steps P (P.n + 4).toNat hn 54 0 (P.initial m0)
    (pass1Inv_initial P m0)
    (fun i _ hi => ⟨hlt1 i (by omega), hp1 i, by omega⟩)
  rw [Nat.zero_add] at hinv hrun
  obtain ⟨f, hf⟩ : ∃ f, fuel = (f + 1) + 54 := ⟨fuel - 55, by omega⟩
  have hs1 : P.pass1 fuel P.zMin 0 (P.initial m0) = .ok s1 := by
    rw [hf, ← zAt_zero, hrun (f + 1)]
    apply pass1_stop_bound
    rw [hzAt, hb1]; norm_num
  -- the keys of the 54 heights
  have hkey : ∀ i : Nat, i < 54 → roundLayerNumber (P.zAt i) = 180 + 200 * (i : Int) := by
    intro i hi
    apply roundLayerNumber_of_int
    · rw [hzAt]; push_cast; ring
    · omega
    · omega
  have hlayers : s1.pMachineToolpath.pLayerMap.length = 54 := by
    apply hinv.layers_eq
    intro a b ha hb hab
    rw [hkey a ha, hkey b hb] at hab
    omega
  -- the second loop
  obtain ⟨s2, hsl, hext, hrun2⟩ := pass2_steps P hn 51 0 s1
    (fun i _ hi => ⟨hlt2 i (by omega), hp2 i, by rw [hinv.length_eq]; omega,
      fun l hl => hinv.created l (by omega), hinv.found i (by omega)⟩)
  rw [Nat.zero_add] at hrun2
  obtain ⟨f2, hf2⟩ : ∃ f2, fuel = (f2 + 1) + 51 := ⟨fuel - 52, by omega⟩
  have hs2 : P.sliceAll fuel m0 = .ok s2 := by
    rw [sliceAll_eq_pass2 P fuel m0 s1 hs1]
    conv_lhs => rw [hf2]
    rw [← zAt_zero, hrun2 (f2 + 1)]
    apply pass2_stop_bound
    rw [hzAt, hb2]; norm_num
  refine ⟨s1, s2, hs1, hs2, hsl, ?_, ?_, by rw [hext.1]; exact hlayers⟩
  · intro i hi
    rw [hsl]
    exact hinv.created i hi
  · intro i hi slc hslc
    rw [hsl] at hslc
    by_cases hiL : i < (P.n + 4).toNat
    · rw [hinv.notCreated i hi hiL] at hslc
      cases hslc
    · have : s1.sliceList[i]? = none :=
        List.getElem?_eq_none (by rw [hinv.length_eq]; omega)
      rw [this] at hslc
      cases hslc

/-- C18, as stated, fails: the example printer on a mesh from 0 to 10 with layer height
1/5 (two shells, one zigzag lid, 20 percent infill, no cancellation) ends with 54
layers in the machine toolpath, which is none of 49, 50 and 51. -/
theorem C18_cube_layers_counterexample :
    ∃ s, cubePrinter.sliceAll 55 IAMachineToolpath.new = .ok s ∧
      s.pMachineToolpath.pLayerMap.length = 54 ∧
      ¬ (s.pMachineToolpath.pLayerMap.length = 49 ∨ s.pMachineToolpath.pLayerMap.length = 50 ∨
          s.pMachineToolpath.pLayerMap.length = 51) := by
  obtain ⟨_, s, _, hs, _, _, _, hlen⟩ :=
    cube_run cubePrinter IAMachineToolpath.new 55 rfl rfl rfl (fun _ => rfl) (fun _ => rfl)
      (le_refl _)
  exact ⟨s, hs, hlen, by omega⟩

/-- C18, amended: slicing a mesh whose z extent is 0 to 10 at layer height 1/5, without
cancellation and whatever the other settings and the geometry are, ends (55 turns
per loop are enough) and leaves a machine toolpath with exactly 54 layers, one for
each of the 54 slices that the first loop makes at the heights `0.18 + 0.2 * i`
below 10.8. -/
theorem C18_cube_layers (P : IAPrinterFDM) (m0 : IAMachineToolpath) (fuel : Nat)
    (hmin : P.meshMinZ = 0) (hmax : P.meshMaxZ = 10) (hlh : P.layerHeight = 1 / 5)
    (hp1 : ∀ i, P.progressPass1 i = false) (hp2 : ∀ i, P.progressPass2 i = false)
    (hfuel : 55 ≤ fuel) :
    ∃ s, P.sliceAll fuel m0 = .ok s ∧
      s.pMachineToolpath.pLayerMap.length = 54 ∧
      (∀ i, i < 54 → ∃ slc, s.sliceList[i]? = some (some slc)) ∧
      (∀ i, 54 ≤ i → ∀ slc, s.sliceList[i]? ≠ some (some slc)) := by
  obtain ⟨_, s, _, hs, _, h1, h2, hlen⟩ := cube_run P m0 fuel hmin hmax hlh hp1 hp2 hfuel
  exact ⟨s, hs, hlen, h1, h2⟩

/-- C18, amended, for the example printer on the mesh from 0 to 10, with 60 turns per
loop. -/
theorem C18_cube_layers_witness :
    ∃ s, cubePrinter.sliceAll 60 IAMachineToolpath.new = .ok s ∧
      s.pMachineToolpath.pLayerMap.length = 54 :=
  let ⟨s, h1, h2, _⟩ :=
    C18_cube_layers cubePrinter IAMachineToolpath.new 60 rfl rfl rfl (fun _ => rfl)
      (fun _ => rfl) (by norm_num)
  ⟨s, h1, h2⟩

theorem computeMask_undefined (P : IAPrinterFDM) (sliceList : List (Option IASlice)) (i : Nat)
    (h : sliceList[i + 1]? = some none) : P.computeMask sliceList i = .undefined := by
  simp [IAPrinterFDM.computeMask, derefSlice, h]

/-- After a cancellation at layer `k ≥ 1` of the first loop, a second loop that is not
cancelled and reaches layer `k - 1` runs into undefined behaviour when lids are
requested: the mask of layer `k - 1` reads the slice `k`, which was never made. -/
theorem cancel_then_undefined (P : IAPrinterFDM) (m0 : IAMachineToolpath) (k fuel : Nat)
    (hh : 0 < P.layerHeight) (hmesh : P.meshMinZ ≤ P.meshMaxZ) (hk : 1 ≤ k)
    (hlids : P.pNumLids > 0)
    (hreach : P.zAt k < P.zMax + 2 * P.layerHeight)
    (hbefore : ∀ i, i < k → P.progressPass1 i = false)
    (hcancel : P.progressPass1 k = true)
    (hreach2 : P.zAt (k - 1) < P.zMax - P.layerHeight)
    (hp2 : ∀ i, i < k → P.progressPass2 i = false) (hfuel : k < fuel) :
    P.sliceAll fuel m0 = .undefined := by
  obtain ⟨s1, hs1, hinv⟩ := pass1_cancel_at P m0 k fuel hh hmesh hreach hbefore hcancel hfuel
  obtain ⟨hn1, hidx⟩ := index_bound P hh hmesh
  have hn : P.n ≠ 0 := by omega
  have hkL : k + 1 < (P.n + 4).toNat := hidx k hreach
  obtain ⟨s2, hsl, hext, hrun⟩ := pass2_steps P hn (k - 1) 0 s1 (by
    intro i _ hi
    refine ⟨lt_of_le_of_lt (zAt_mono P hh i (k - 1) (by omega)) hreach2, hp2 i (by omega),
      by rw [hinv.length_eq]; omega, fun l hl => hinv.created l (by omega),
      hinv.found i (by omega)⟩)
  rw [Nat.zero_add] at hrun
  rw [sliceAll_eq_pass2 P fuel m0 s1 hs1]
  obtain ⟨f, hf⟩ : ∃ f, fuel = (f + 1) + (k - 1) := ⟨fuel - k, by omega⟩
  rw [hf, ← zAt_zero, hrun (f + 1)]
  apply pass2_undefined P f _ _ s2 hreach2 hn (hp2 (k - 1) (by omega))
  obtain ⟨slc, hslc⟩ := hinv.created (k - 1) (by omega)
  have hnone : s2.sliceList[k - 1 + 1]? = some none := by
    rw [hsl, show k - 1 + 1 = k by omega]
    exact hinv.notCreated k (le_refl _) (by omega)
  unfold IAPrinterFDM.pass2Body
  rw [hsl, derefSlice_of_some _ _ _ hslc]
  simp only [Outcome.bind_ok]
  unfold IAPrinterFDM.lidsBlock
  rw [if_pos hlids, ← hsl, computeMask_undefined P _ _ hnone]
  rfl

/-- C20 at a failing input: the example printer whose dialog requests cancellation at
layer 3 of the first loop and answers `false` to every call of the second loop. The
first loop ends with the slices 0, 1 and 2; the second loop runs all the same, builds
lids and infill for the layers 0 and 1, and at layer 2 dereferences the null entry
`sliceList[3]`: `sliceAll` ends in undefined behaviour. -/
theorem C20_cancel_then_pass2 :
    cancelPrinter.progressPass1 3 = true ∧
    (∀ i, cancelPrinter.progressPass2 i = false) ∧
    (∃ s1, cancelPrinter.pass1 4 cancelPrinter.zMin 0
        (cancelPrinter.initial IAMachineToolpath.new) = .ok s1 ∧
      s1.sliceList[3]? = some none ∧
      cancelPrinter.computeMask s1.sliceList 2 = .undefined) ∧
    cancelPrinter.sliceAll 4 IAMachineToolpath.new = .undefined := by
  have hh : 0 < cancelPrinter.layerHeight := by norm_num [cancelPrinter, demoPrinter]
  have hmesh : cancelPrinter.meshMinZ ≤ cancelPrinter.meshMaxZ := by
    norm_num [cancelPrinter, demoPrinter]
  have hreach : cancelPrinter.zAt 3 < cancelPrinter.zMax + 2 * cancelPrinter.layerHeight := by
    norm_num [cancelPrinter, demoPrinter, IAPrinterFDM.zAt, IAPrinterFDM.zMin,
      IAPrinterFDM.zMax, IAPrinterFDM.hgt]
  have hbefore : ∀ i, i < 3 → cancelPrinter.progressPass1 i = false := by
    intro i hi; simp [cancelPrinter]; omega
  refine ⟨by simp [cancelPrinter], fun _ => rfl, ?_, ?_⟩
  · obtain ⟨s1, hs1, hinv⟩ := pass1_cancel_at cancelPrinter IAMachineToolpath.new 3 4 hh hmesh
      hreach hbefore (by simp [cancelPrinter]) (by norm_num)
    have hnone : s1.sliceList[3]? = some none :=
      hinv.notCreated 3 (le_refl _) (by rw [cancelPrinter_n]; decide)
    exact ⟨s1, hs1, hnone, computeMask_undefined _ _ 2 hnone⟩
  · exact cancel_then_undefined cancelPrinter IAMachineToolpath.new 3 4 hh hmesh (by norm_num)
      (by decide) hreach hbefore (by simp [cancelPrinter])
      (by norm_num [cancelPrinter, demoPrinter, IAPrinterFDM.zAt, IAPrinterFDM.zMin,
        IAPrinterFDM.zMax, IAPrinterFDM.hgt])
      (fun _ _ => rfl) (by norm_num)

/-! ## Theorems: the order of the fragments in a layer toolpath -/

theorem addShells_pList (m : IAMachineToolpath) (p : Nat) (t : IAToolpath)
    (tp1 tp2 tp3 : Option IAToolpath) (h : m.store[p]? = some t) :
    ∃ t1, (m.addShells p tp1 tp2 tp3).store[p]? = some t1 ∧
      t1.pList = t.pList ++ fragElems tp3 ++ fragElems tp2 ++ fragElems tp1 := by
  obtain ⟨a, ha, hla⟩ := store_addIfSome m p t tp3 h
  obtain ⟨b, hb, hlb⟩ := store_addIfSome _ p a tp2 ha
  obtain ⟨c, hc, hlc⟩ := store_addIfSome _ p b tp1 hb
  exact ⟨c, hc, by rw [hlc, hlb, hla]⟩

theorem createLayer_valid (m : IAMachineToolpath) (z : Rat) (h : m.Inv) :
    ∃ t, (m.createLayer z).1.store[(m.createLayer z).2]? = some t := by
  cases hf : mapFind (roundLayerNumber z) m.pLayerMap with
  | some q =>
    rw [createLayer_of_some m z q hf]
    exact ⟨_, List.getElem?_eq_getElem (h.2.1 _ (mapFind_some_mem _ _ _ hf))⟩
  | none =>
    rw [createLayer_of_none m z hf]
    exact ⟨IAToolpath.new z, by simp⟩

theorem pass1Body_shells (P : IAPrinterFDM) (z : Rat) (i : Nat) (s : SliceState)
    (hinv : s.pMachineToolpath.Inv) (hi : i < s.sliceList.length) :
    ∃ s1 t t1, P.pass1Body z i s = .ok s1 ∧
      (s.pMachineToolpath.createLayer z).1.store[(s.pMachineToolpath.createLayer z).2]?
        = some t ∧
      s1.pMachineToolpath.store[(s.pMachineToolpath.createLayer z).2]? = some t1 ∧
      t1.pList = t.pList ++ fragElems (P.shells (P.rasterize z) z).1.2.2
        ++ fragElems (P.shells (P.rasterize z) z).1.2.1
        ++ fragElems (P.shells (P.rasterize z) z).1.1 := by
  obtain ⟨t, ht⟩ := createLayer_valid s.pMachineToolpath z hinv
  obtain ⟨t1, ht1, hl⟩ := addShells_pList _ _ t (P.shells (P.rasterize z) z).1.1
    (P.shells (P.rasterize z) z).1.2.1 (P.shells (P.rasterize z) z).1.2.2 ht
  have hbody : P.pass1Body z i s
      = .ok { sliceList := s.sliceList.set i (some ⟨(P.shells (P.rasterize z) z).2⟩),
              pMachineToolpath := (s.pMachineToolpath.createLayer z).1.addShells
                (s.pMachineToolpath.createLayer z).2 (P.shells (P.rasterize z) z).1.1
                (P.shells (P.rasterize z) z).1.2.1 (P.shells (P.rasterize z) z).1.2.2 } := by
    unfold IAPrinterFDM.pass1Body
    rw [if_pos hi]
  exact ⟨_, t, t1, hbody, ht, ht1, hl⟩

theorem buildInfill_pList (P : IAPrinterFDM) (z : Rat) (i p : Nat) (infill : IAFramebuffer)
    (m m1 : IAMachineToolpath) (tl : IAToolpath) (htl : m.store[p]? = some tl)
    (h : P.buildInfill z i (some p) infill m = .ok m1) :
    ∃ t1, m1.store[p]? = some t1 ∧
      t1.pList = tl.pList ++ fragElems (P.infillPath z i infill) := by
  unfold IAPrinterFDM.buildInfill at h
  unfold IAPrinterFDM.infillPath
  by_cases hd : P.pInfillDensity > fl (1 / 10000)
  · rw [if_pos hd] at h
    rw [if_pos hd]
    cases hl : P.toolpathFromLasso (P.overlayInfillPattern infill i
        (infillSpacing P.pNozzleDiameter P.pInfillDensity)) z with
    | none =>
      simp only [hl, Outcome.ok.injEq] at h
      rw [← h]
      exact ⟨tl, htl, by simp [fragElems]⟩
    | some infillPath =>
      simp only [hl, IAMachineToolpath.layerAdd, Outcome.ok.injEq] at h
      rw [← h]
      obtain ⟨t1, h1, h2, _, _⟩ := store_modify_add m p tl infillPath htl
      exact ⟨t1, h1, h2⟩
  · rw [if_neg hd] at h
    rw [if_neg hd]
    simp only [Outcome.ok.injEq] at h
    rw [← h]
    exact ⟨tl, htl, by simp [fragElems]⟩

theorem pass2Body_lids_infill (P : IAPrinterFDM) (z : Rat) (i p : Nat) (s s1 : SliceState)
    (t : IAToolpath) (hfind : s.pMachineToolpath.findLayer z = some p)
    (ht : s.pMachineToolpath.store[p]? = some t) (h : P.pass2Body z i s = .ok s1) :
    ∃ (layer : IAFramebuffer) (r : IAFramebuffer × IAMachineToolpath) (tl : IAToolpath)
        (lids : List IAToolpathElement) (t1 : IAToolpath),
      derefSlice s.sliceList i = .ok layer ∧
      P.lidsBlock z i (some p) s.sliceList layer s.pMachineToolpath = .ok r ∧
      r.2.store[p]? = some tl ∧ tl.pList = t.pList ++ lids ∧
      s1.pMachineToolpath.store[p]? = some t1 ∧
      t1.pList = t.pList ++ lids ++ fragElems (P.infillPath z i r.1) := by
  unfold IAPrinterFDM.pass2Body at h
  simp only [hfind] at h
  obtain ⟨layer, hlayer, h⟩ := Outcome.bind_eq_ok h
  obtain ⟨r, hr, h⟩ := Outcome.bind_eq_ok h
  obtain ⟨m, hm, h⟩ := Outcome.bind_eq_ok h
  simp only [Outcome.ok.injEq] at h
  obtain ⟨_, _, _, _, hext⟩ := lidsBlock_extends P z i _ _ _ _ r hr
  obtain ⟨tl, lids, htl, hlids⟩ := hext p t ht
  obtain ⟨t1, ht1, hl1⟩ := buildInfill_pList P z i p r.1 r.2 m tl htl hm
  refine ⟨layer, r, tl, lids, t1, hlayer, hr, htl, hlids, ?_, ?_⟩
  · rw [← h]; exact ht1
  · rw [hl1, hlids]

theorem sliceAll_pass1_then_pass2 (P : IAPrinterFDM) (fuel : Nat) (m0 : IAMachineToolpath)
    (s : SliceState) (h : P.sliceAll fuel m0 = .ok s) :
    ∃ s1, P.pass1 fuel P.zMin 0 (P.initial m0) = .ok s1 ∧
      P.pass2 fuel P.zMin 0 s1 = .ok s ∧
      Extends s1.pMachineToolpath s.pMachineToolpath := by
  unfold IAPrinterFDM.sliceAll at h
  obtain ⟨s1, h1, h2⟩ := Outcome.bind_eq_ok h
  exact ⟨s1, h1, h2, (pass2_extends P fuel _ _ s1 s h2).2⟩

theorem shellPrinter_shells :
    shellPrinter.shells (shellPrinter.rasterize 1) 1
      = ((some ((IAToolpath.new 1).startPath 3 0 1), some ((IAToolpath.new 1).startPath 2 0 1),
          some ((IAToolpath.new 1).startPath 1 0 1)), ⟨∅⟩) := by
  decide

theorem createLayer_new_one :
    IAMachineToolpath.new.createLayer 1
      = ({ store := [IAToolpath.new 1], pStartupPath := none, pLayerMap := [(1000, 0)],
           pShutdownPath := none }, 0) := by
  simp [IAMachineToolpath.createLayer, IAMachineToolpath.new, roundLayerNumber_one, mapFind,
    mapInsert]

/-- C16, as stated, fails: the example printer with three shells, whose first, second
and third contraction by the full nozzle width return the Motions to `(3,0,1)`,
`(2,0,1)` and `(1,0,1)`, leaves them in the layer toolpath in the order third, second,
first: the shell of the first contraction is added last, not first. -/
theorem C16_shell_order_counterexample :
    ∃ s1 t1, shellPrinter.pass1Body 1 0 ⟨[none], IAMachineToolpath.new⟩ = .ok s1 ∧
      s1.pMachineToolpath.store[0]? = some t1 ∧
      (shellPrinter.shells (shellPrinter.rasterize 1) 1).1.1
        = some ((IAToolpath.new 1).startPath 3 0 1) ∧
      (shellPrinter.shells (shellPrinter.rasterize 1) 1).1.2.1
        = some ((IAToolpath.new 1).startPath 2 0 1) ∧
      (shellPrinter.shells (shellPrinter.rasterize 1) 1).1.2.2
        = some ((IAToolpath.new 1).startPath 1 0 1) ∧
      t1.pList = [.motion ⟨⟨0, 0, 1⟩, ⟨1, 0, 1⟩, true, none⟩,
                  .motion ⟨⟨0, 0, 1⟩, ⟨2, 0, 1⟩, true, none⟩,
                  .motion ⟨⟨0, 0, 1⟩, ⟨3, 0, 1⟩, true, none⟩] ∧
      t1.pList ≠ fragElems (shellPrinter.shells (shellPrinter.rasterize 1) 1).1.1
        ++ fragElems (shellPrinter.shells (shellPrinter.rasterize 1) 1).1.2.1
        ++ fragElems (shellPrinter.shells (shellPrinter.rasterize 1) 1).1.2.2 := by
  obtain ⟨s1, t, t1, h1, h2, h3, h4⟩ :=
    pass1Body_shells shellPrinter 1 0 ⟨[none], IAMachineToolpath.new⟩ inv_new (by decide)
  simp only [createLayer_new_one] at h2 h3
  have ht : t = IAToolpath.new 1 := by
    simp only [List.getElem?_cons_zero, Option.some.injEq] at h2
    exact h2.symm
  rw [shellPrinter_shells] at h4 ⊢
  have hl : t1.pList = [.motion ⟨⟨0, 0, 1⟩, ⟨1, 0, 1⟩, true, none⟩,
      .motion ⟨⟨0, 0, 1⟩, ⟨2, 0, 1⟩, true, none⟩,
      .motion ⟨⟨0, 0, 1⟩, ⟨3, 0, 1⟩, true, none⟩] := by
    rw [h4, ht]
    decide
  refine ⟨s1, t1, h1, h3, rfl, rfl, rfl, hl, ?_⟩
  rw [hl]
  decide

/-- C16, amended: in a turn of the first loop the shell fragments are added to the layer
toolpath innermost first: the shell of the third contraction by the full nozzle
width, then that of the second, then that of the first. In a turn of the second loop
the elements that the lids block adds come before the elements of the infill
fragment. And every element that the second loop adds to a layer toolpath comes
after all that the first loop has put there, so every shell fragment comes before
any lid fragment. -/
theorem C16_fragment_order :
    (∀ (P : IAPrinterFDM) (z : Rat) (i : Nat) (s : SliceState),
      s.pMachineToolpath.Inv → i < s.sliceList.length →
      ∃ s1 t t1, P.pass1Body z i s = .ok s1 ∧
        (s.pMachineToolpath.createLayer z).1.store[(s.pMachineToolpath.createLayer z).2]?
          = some t ∧
        s1.pMachineToolpath.store[(s.pMachineToolpath.createLayer z).2]? = some t1 ∧
        t1.pList = t.pList ++ fragElems (P.shells (P.rasterize z) z).1.2.2
          ++ fragElems (P.shells (P.rasterize z) z).1.2.1
          ++ fragElems (P.shells (P.rasterize z) z).1.1) ∧
    (∀ (P : IAPrinterFDM) (z : Rat) (i p : Nat) (s s1 : SliceState) (t : IAToolpath),
      s.pMachineToolpath.findLayer z = some p → s.pMachineToolpath.store[p]? = some t →
      P.pass2Body z i s = .ok s1 →
      ∃ (layer : IAFramebuffer) (r : IAFramebuffer × IAMachineToolpath) (tl : IAToolpath)
          (lids : List IAToolpathElement) (t1 : IAToolpath),
        derefSlice s.sliceList i = .ok layer ∧
        P.lidsBlock z i (some p) s.sliceList layer s.pMachineToolpath = .ok r ∧
        r.2.store[p]? = some tl ∧ tl.pList = t.pList ++ lids ∧
        s1.pMachineToolpath.store[p]? = some t1 ∧
        t1.pList = t.pList ++ lids ++ fragElems (P.infillPath z i r.1)) ∧
    (∀ (P : IAPrinterFDM) (fuel : Nat) (m0 : IAMachineToolpath) (s : SliceState),
      P.sliceAll fuel m0 = .ok s →
      ∃ s1, P.pass1 fuel P.zMin 0 (P.initial m0) = .ok s1 ∧
        P.pass2 fuel P.zMin 0 s1 = .ok s ∧
        Extends s1.pMachineToolpath s.pMachineToolpath) :=
  ⟨pass1Body_shells, pass2Body_lids_infill, sliceAll_pass1_then_pass2⟩

/-- C16, amended, on the example printer with three shells: a turn of the first loop on
a new machine toolpath. -/
theorem C16_fragment_order_witness :
    ∃ s1 t t1, shellPrinter.pass1Body 1 0 ⟨[none], IAMachineToolpath.new⟩ = .ok s1 ∧
      (IAMachineToolpath.new.createLayer 1).1.store[(IAMachineToolpath.new.createLayer 1).2]?
        = some t ∧
      s1.pMachineToolpath.store[(IAMachineToolpath.new.createLayer 1).2]? = some t1 ∧
      t1.pList = t.pList ++ fragElems (shellPrinter.shells (shellPrinter.rasterize 1) 1).1.2.2
        ++ fragElems (shellPrinter.shells (shellPrinter.rasterize 1) 1).1.2.1
        ++ fragElems (shellPrinter.shells (shellPrinter.rasterize 1) 1).1.1 :=
  C16_fragment_order.1 shellPrinter 1 0 ⟨[none], IAMachineToolpath.new⟩ inv_new (by decide)

/-! ## Theorems: the wipe pattern of an extruder change -/

theorem extruder_xyMoves (e : IAToolpathExtruder) (w : IAGcodeWriter) :
    xyMoves (emitted (fun w => e.saveGCode w) w) = wipePattern (wipeOffset e.pTool) := by
  rw [extruder_emitted]
  have hrange : List.range 4 = [0, 1, 2, 3] := rfl
  by_cases h : e.pTool = 0
  · simp [xyMoves, wipePattern, wipeOffset, h, hrange, List.filterMap_cons]
    norm_num
  · simp [xyMoves, wipePattern, wipeOffset, h, hrange, List.filterMap_cons]
    norm_num

theorem wipePattern_shape (x0 : Rat) :
    (wipePattern x0).head? = some (true, x0, 10) ∧
    ((wipePattern x0).tail).length = 16 ∧
    (∀ c ∈ (wipePattern x0).tail, c.1 = false) ∧
    (∀ c ∈ wipePattern x0,
      (c.2.1 = x0 ∨ c.2.1 = x0 + 20) ∧ 10 ≤ c.2.2 ∧ c.2.2 ≤ 14) ∧
    List.Chain' (fun a b : Bool × Rat × Rat => a.2.2 ≤ b.2.2) (wipePattern x0) ∧
    (wipePattern x0).getLast? = some (false, x0, 14) := by
  refine ⟨rfl, rfl, ?_, ?_, ?_, rfl⟩
  · intro c hc
    simp only [wipePattern, List.tail_cons, List.mem_cons, List.mem_singleton,
      List.not_mem_nil, or_false] at hc
    rcases hc with h | h | h | h | h | h | h | h | h | h | h | h | h | h | h | h <;>
      rw [h]
  · intro c hc
    simp only [wipePattern, List.mem_cons, List.mem_singleton, List.not_mem_nil,
      or_false] at hc
    rcases hc with h | h | h | h | h | h | h | h | h | h | h | h | h | h | h | h | h <;>
      rw [h] <;> norm_num
  · simp only [wipePattern, List.chain'_cons, List.chain'_singleton, and_true]
    norm_num

/-- C27: the moves that an ExtruderChange to tool `t` emits are the fixed wipe pattern
at the x offset `x0` of `t`, 48 for tool 0 and 100 for every other tool, whatever the
state of the generator: one rapid move to `(x0, 10)`, then exactly 16 controlled moves
in four strokes `(x0+20, y)`, `(x0+20, y+1/2)`, `(x0, y+1/2)`, `(x0, y+1)` for
`y = 10, 11, 12, 13`. Every move has x in `{x0, x0+20}` and y in `[10, 14]`, y never
decreases, and the last move ends at `(x0, 14)`. -/
theorem C27_wipe_pattern (e : IAToolpathExtruder) (w : IAGcodeWriter) :
    wipeOffset e.pTool = (if e.pTool = 0 then 48 else 100) ∧
    xyMoves (emitted (fun w => e.saveGCode w) w) = wipePattern (wipeOffset e.pTool) ∧
    (xyMoves (emitted (fun w => e.saveGCode w) w)).head?
      = some (true, wipeOffset e.pTool, 10) ∧
    ((xyMoves (emitted (fun w => e.saveGCode w) w)).tail).length = 16 ∧
    (∀ c ∈ (xyMoves (emitted (fun w => e.saveGCode w) w)).tail, c.1 = false) ∧
    (∀ c ∈ xyMoves (emitted (fun w => e.saveGCode w) w),
      (c.2.1 = wipeOffset e.pTool ∨ c.2.1 = wipeOffset e.pTool + 20) ∧
        10 ≤ c.2.2 ∧ c.2.2 ≤ 14) ∧
    List.Chain' (fun a b : Bool × Rat × Rat => a.2.2 ≤ b.2.2)
      (xyMoves (emitted (fun w => e.saveGCode w) w)) ∧
    (xyMoves (emitted (fun w => e.saveGCode w) w)).getLast?
      = some (false, wipeOffset e.pTool, 14) := by
  rw [extruder_xyMoves]
  exact ⟨rfl, rfl, wipePattern_shape _⟩

/-! ## Theorems: `differ` -/

theorem channel_eq (c k : Nat) : (c >>> k) &&& 255 = c / 2 ^ k % 256 := by
  rw [Nat.shiftRight_eq_div_pow]
  exact Nat.and_pow_two_sub_one_eq_mod _ 8

theorem differ_iff (c1 c2 : Nat) :
    differ c1 c2 = true ↔
      10 < |redOf c1 - redOf c2| ∨ 10 < |greenOf c1 - greenOf c2|
        ∨ 10 < |blueOf c1 - blueOf c2| := by
  unfold differ redOf greenOf blueOf
  simp only [channel_eq, Nat.reducePow, Nat.div_one, lt_abs, neg_sub]
  by_cases h : c1 = c2
  · subst h
    simp
  · simp only [h, if_false]
    split_ifs with ha hb hc
    · simp only [true_iff]; omega
    · simp only [true_iff]; omega
    · simp only [true_iff]; omega
    · simp only [Bool.false_eq_true, false_iff]; omega

theorem channels_packRGB (r g b : Nat) (hr : r < 256) (hg : g < 256) (hb : b < 256) :
    packRGB r g b < 2 ^ 24 ∧ redOf (packRGB r g b) = r ∧ greenOf (packRGB r g b) = g
      ∧ blueOf (packRGB r g b) = b := by
  unfold packRGB redOf greenOf blueOf
  refine ⟨by omega, ?_, ?_, ?_⟩ <;> congr 1 <;> omega

theorem packRGB_channels (c : Nat) (hc : c < 2 ^ 24) :
    c = packRGB (c / 65536 % 256) (c / 256 % 256) (c % 256) := by
  unfold packRGB
  omega

/-- C25: for all colours `c1`, `c2`, in particular the 24-bit values `0x00RRGGBB`,
`differ c1 c2` is true exactly when the red, the green or the blue channels differ by
more than 10 in absolute value. So `differ` is symmetric, `differ c c` is false, and
two colours whose channels all differ by exactly 10 are not different. The channels of
the colour packed from `r`, `g`, `b` below 256 are `r`, `g`, `b`, and every 24-bit
value is packed from its channels. -/
theorem C25_differ :
    (∀ c1 c2 : Nat, differ c1 c2 = true ↔
      10 < |redOf c1 - redOf c2| ∨ 10 < |greenOf c1 - greenOf c2|
        ∨ 10 < |blueOf c1 - blueOf c2|) ∧
    (∀ r1 g1 b1 r2 g2 b2 : Nat, r1 < 256 → g1 < 256 → b1 < 256 → r2 < 256 → g2 < 256 →
      b2 < 256 →
      (differ (packRGB r1 g1 b1) (packRGB r2 g2 b2) = true ↔
        10 < |(r1 : Int) - r2| ∨ 10 < |(g1 : Int) - g2| ∨ 10 < |(b1 : Int) - b2|)) ∧
    (∀ c : Nat, c < 2 ^ 24 → c = packRGB (c / 65536 % 256) (c / 256 % 256) (c % 256)) ∧
    (∀ c1 c2 : Nat, differ c1 c2 = differ c2 c1) ∧
    (∀ c : Nat, differ c c = false) ∧
    (∀ r g b : Nat, r + 10 < 256 → g + 10 < 256 → b + 10 < 256 →
      differ (packRGB r g b) (packRGB (r + 10) (g + 10) (b + 10)) = false) := by
  refine ⟨differ_iff, ?_, packRGB_channels, ?_, ?_, ?_⟩
  · intro r1 g1 b1 r2 g2 b2 h1 h2 h3 h4 h5 h6
    rw [differ_iff]
    obtain ⟨_, e1, e2, e3⟩ := channels_packRGB r1 g1 b1 h1 h2 h3
    obtain ⟨_, f1, f2, f3⟩ := channels_packRGB r2 g2 b2 h4 h5 h6
    rw [e1, e2, e3, f1, f2, f3]
  · intro c1 c2
    rw [Bool.eq_iff_iff, differ_iff, differ_iff, abs_sub_comm (redOf c1),
      abs_sub_comm (greenOf c1), abs_sub_comm (blueOf c1)]
  · intro c
    simp [differ]
  · intro r g b hr hg hb
    rw [← Bool.not_eq_true, differ_iff]
    obtain ⟨_, e1, e2, e3⟩ := channels_packRGB r g b (by omega) (by omega) (by omega)
    obtain ⟨_, f1, f2, f3⟩ := channels_packRGB (r + 10) (g + 10) (b + 10) hr hg hb
    rw [e1, e2, e3, f1, f2, f3]
    push_cast
    intro h
    rcases h with h | h | h <;>
      · rw [lt_abs] at h
        omega

/-- C25 at the colours `0x102030` and `0x1A2A3A`, whose channels all differ by 10,
and at `0x102030` and `0x1B2030`, whose red channels differ by 11. -/
theorem C25_differ_witness :
    differ 0x102030 0x1A2A3A = false ∧ differ 0x102030 0x1B2030 = true ∧
    differ 0x1B2030 0x102030 = true :=
  ⟨C25_differ.2.2.2.2.2 16 32 48 (by decide) (by decide) (by decide),
   (C25_differ.2.1 16 32 48 27 32 48 (by decide) (by decide) (by decide) (by decide)
      (by decide) (by decide)).2 (Or.inl (by decide)),
   (C25_differ.2.1 27 32 48 16 32 48 (by decide) (by decide) (by decide) (by decide)
      (by decide) (by decide)).2 (Or.inl (by decide))⟩

/-! ## Theorems: the slice indices of the two loops of `sliceAll` -/

theorem fl_nineTenths : fl (9 / 10) = 8106479329266893 / 9007199254740992 := by decide!

theorem fl_step_err (h x : Rat) (hlo : (2 : Rat) ^ (-1000 : Int) ≤ h) (h1 : h ≤ x)
    (h2 : x ≤ 8388608 * h) :
    x - h / 1073741824 ≤ fl x ∧ fl x ≤ x + h / 1073741824 := by
  have hh : 0 < h := lt_of_lt_of_le (two_zpow_pos _) hlo
  have hmin : (2 : Rat) ^ (-1022 : Int) ≤ (2 : Rat) ^ (-1000 : Int) :=
    zpow_le_zpow_right₀ (by norm_num) (by norm_num)
  have hx0 : 0 ≤ x := le_trans hh.le h1
  have he := fl_err_le x (8388608 * h)
    (by rw [abs_of_nonneg hx0]; exact le_trans hmin (le_trans hlo h1))
    (by rw [abs_of_nonneg hx0]; exact h2)
  have hc : (2 : Rat) ^ (-53 : Int) * (8388608 * h) = h / 1073741824 := by
    rw [show (2 : Rat) ^ (-53 : Int) = 1 / 9007199254740992 by norm_num]
    ring
  rw [hc, abs_le] at he
  constructor <;> linarith only [he.1, he.2]

theorem zMinD_bounds (P : IAPrinterFDM) (hh : 0 < P.layerHeight)
    (hd : fl P.layerHeight = P.layerHeight) : 0 ≤ P.zMinD ∧ P.zMinD ≤ P.layerHeight := by
  unfold IAPrinterFDM.zMinD
  rw [fl_nineTenths]
  constructor
  · exact fl_nonneg _ (by positivity)
  · have := fl_mono_nonneg (P.layerHeight * (8106479329266893 / 9007199254740992))
      P.layerHeight (by positivity) (by linarith only [hh])
    rwa [hd] at this

theorem fl_scale20 (h : Rat) (hd : fl h = h) : fl (1048576 * h) = 1048576 * h := by
  have := fl_pow_two_mul h 20 hd
  norm_num at this
  exact this

theorem fl_scale21 (h : Rat) (hd : fl h = h) : fl (2097152 * h) = 2097152 * h := by
  have := fl_pow_two_mul h 21 hd
  norm_num at this
  exact this

theorem zMaxD_bounds (P : IAPrinterFDM) (hh : 0 < P.layerHeight)
    (hd : fl P.layerHeight = P.layerHeight) (hmesh : P.meshMinZ ≤ P.meshMaxZ)
    (hsize : P.meshMaxZ - P.meshMinZ ≤ 1048576 * P.layerHeight) :
    2 * P.layerHeight ≤ P.zMaxD ∧ P.zMaxD ≤ 2097152 * P.layerHeight := by
  unfold IAPrinterFDM.zMaxD IAPrinterFDM.hgtD
  have h2 := fl_two_mul P.layerHeight hd
  have hH0 : 0 ≤ fl (P.meshMaxZ - P.meshMinZ) := fl_nonneg _ (by linarith only [hmesh])
  have hH1 : fl (P.meshMaxZ - P.meshMinZ) ≤ 1048576 * P.layerHeight := by
    have := fl_mono_nonneg _ _ (by linarith only [hmesh]) hsize
    rwa [fl_scale20 _ hd] at this
  rw [h2]
  constructor
  · have := fl_mono_nonneg (2 * P.layerHeight)
      (fl (P.meshMaxZ - P.meshMinZ) + 2 * P.layerHeight) (by linarith only [hh])
      (by linarith only [hH0])
    rwa [h2] at this
  · have := fl_mono_nonneg (fl (P.meshMaxZ - P.meshMinZ) + 2 * P.layerHeight)
      (2097152 * P.layerHeight) (by linarith only [hH0, hh]) (by linarith only [hH1, hh])
    rwa [fl_scale21 _ hd] at this

theorem diffD_bounds (P : IAPrinterFDM) (hh : 0 < P.layerHeight)
    (hd : fl P.layerHeight = P.layerHeight) (hmesh : P.meshMinZ ≤ P.meshMaxZ)
    (hsize : P.meshMaxZ - P.meshMinZ ≤ 1048576 * P.layerHeight) :
    P.layerHeight ≤ fl (P.zMaxD - P.zMinD) ∧
    fl (P.zMaxD - P.zMinD) ≤ 2097152 * P.layerHeight := by
  obtain ⟨hz0, hz1⟩ := zMinD_bounds P hh hd
  obtain ⟨hM0, hM1⟩ := zMaxD_bounds P hh hd hmesh hsize
  constructor
  · have := fl_mono_nonneg P.layerHeight (P.zMaxD - P.zMinD) hh.le
      (by linarith only [hz1, hM0])
    rwa [hd] at this
  · have := fl_mono_nonneg (P.zMaxD - P.zMinD) (2097152 * P.layerHeight)
      (by linarith only [hz1, hM0, hh]) (by linarith only [hz0, hM1])
    rwa [fl_scale21 _ hd] at this

theorem layerQuotient_bounds (P : IAPrinterFDM) (hh : 0 < P.layerHeight)
    (hd : fl P.layerHeight = P.layerHeight) (hmesh : P.meshMinZ ≤ P.meshMaxZ)
    (hsize : P.meshMaxZ - P.meshMinZ ≤ 1048576 * P.layerHeight) :
    1 ≤ P.layerQuotient ∧ P.layerQuotient ≤ 2097152 := by
  obtain ⟨hD0, hD1⟩ := diffD_bounds P hh hd hmesh hsize
  unfold IAPrinterFDM.layerQuotient
  constructor
  · have := fl_mono_nonneg 1 (fl (P.zMaxD - P.zMinD) / P.layerHeight) (by norm_num)
      (by rw [le_div_iff₀ hh]; linarith only [hD0])
    rwa [fl_one] at this
  · have := fl_mono_nonneg (fl (P.zMaxD - P.zMinD) / P.layerHeight) 2097152
      (div_nonneg (le_trans hh.le hD0) hh.le) (by rw [div_le_iff₀ hh]; exact hD1)
    have e : fl (2097152 : Rat) = 2097152 := by
      have := fl_int 2097152 (by norm_num)
      simpa using this
    rwa [e] at this

theorem nD_bounds (P : IAPrinterFDM) (hh : 0 < P.layerHeight)
    (hd : fl P.layerHeight = P.layerHeight) (hmesh : P.meshMinZ ≤ P.meshMaxZ)
    (hsize : P.meshMaxZ - P.meshMinZ ≤ 1048576 * P.layerHeight) :
    P.nD = ⌊P.layerQuotient⌋ ∧ 1 ≤ P.nD ∧ P.nD ≤ 2097152 := by
  obtain ⟨hq0, hq1⟩ := layerQuotient_bounds P hh hd hmesh hsize
  have hn : P.nD = ⌊P.layerQuotient⌋ := by
    unfold IAPrinterFDM.nD
    exact truncToInt_of_nonneg _ (by linarith only [hq0])
  refine ⟨hn, ?_, ?_⟩
  · rw [hn]
    exact Int.le_floor.mpr (by exact_mod_cast hq0)
  · rw [hn]
    have : ⌊P.layerQuotient⌋ ≤ ⌊(2097152 : Rat)⌋ := Int.floor_le_floor hq1
    have e : ⌊(2097152 : Rat)⌋ = 2097152 := by simp
    omega

theorem diffD_lt (P : IAPrinterFDM) (hh : 0 < P.layerHeight)
    (hd : fl P.layerHeight = P.layerHeight) (hmesh : P.meshMinZ ≤ P.meshMaxZ)
    (hsize : P.meshMaxZ - P.meshMinZ ≤ 1048576 * P.layerHeight) :
    fl (P.zMaxD - P.zMinD) < ((P.nD : Rat) + 1) * P.layerHeight := by
  obtain ⟨hn, hn1, hn2⟩ := nD_bounds P hh hd hmesh hsize
  obtain ⟨hD0, _⟩ := diffD_bounds P hh hd hmesh hsize
  by_contra hle
  rw [not_lt] at hle
  have h1 : ((P.nD + 1 : Int) : Rat) ≤ fl (P.zMaxD - P.zMinD) / P.layerHeight := by
    rw [le_div_iff₀ hh]
    push_cast
    exact hle
  have h2 := fl_mono_nonneg _ _ (by exact_mod_cast (by omega : (0 : Int) ≤ P.nD + 1)) h1
  rw [fl_int (P.nD + 1) (by rw [abs_lt]; constructor <;> omega)] at h2
  have h3 : P.layerQuotient < (⌊P.layerQuotient⌋ : Rat) + 1 := Int.lt_floor_add_one _
  rw [← hn] at h3
  unfold IAPrinterFDM.layerQuotient at h3
  push_cast at h2
  linarith only [h2, h3]

theorem zD_nonneg (P : IAPrinterFDM) (hh : 0 < P.layerHeight) : ∀ k : Nat, 0 ≤ P.zD k
  | 0 => fl_nonneg _ (mul_nonneg hh.le (fl_nonneg _ (by norm_num)))
  | k + 1 => fl_nonneg _ (add_nonneg (zD_nonneg P hh k) hh.le)

theorem zD_double (P : IAPrinterFDM) (k : Nat) : fl (P.zD k) = P.zD k := by
  cases k with
  | zero => exact fl_fl _
  | succ k => exact fl_fl _

theorem zD_succ_ge (P : IAPrinterFDM) (hh : 0 < P.layerHeight) (k : Nat) :
    P.zD k ≤ P.zD (k + 1) := by
  have := fl_mono_nonneg (P.zD k) (P.zD k + P.layerHeight) (zD_nonneg P hh k)
    (by linarith only [hh])
  rw [zD_double] at this
  exact this

theorem zD_mono (P : IAPrinterFDM) (hh : 0 < P.layerHeight) (i j : Nat) (hij : i ≤ j) :
    P.zD i ≤ P.zD j := by
  induction j with
  | zero =>
    have : i = 0 := by omega
    rw [this]
  | succ j ih =>
    rcases Nat.eq_or_lt_of_le hij with h | h
    · rw [h]
    · exact le_trans (ih (by omega)) (zD_succ_ge P hh j)

theorem zD_drift (P : IAPrinterFDM) (hlo : (2 : Rat) ^ (-1000 : Int) ≤ P.layerHeight)
    (hd : fl P.layerHeight = P.layerHeight) :
    ∀ k : Nat, k ≤ 4194304 →
      P.zMinD + (k : Rat) * (P.layerHeight - P.layerHeight / 1073741824) ≤ P.zD k ∧
      P.zD k ≤ P.zMinD + (k : Rat) * (P.layerHeight + P.layerHeight / 1073741824) := by
  have hh : 0 < P.layerHeight := lt_of_lt_of_le (two_zpow_pos _) hlo
  obtain ⟨hz0, hz1⟩ := zMinD_bounds P hh hd
  intro k
  induction k with
  | zero => intro _; simp [IAPrinterFDM.zD]
  | succ k ih =>
    intro hk
    obtain ⟨hl, hu⟩ := ih (by omega)
    have hkr : (k : Rat) ≤ 4194304 := by exact_mod_cast (by omega : k ≤ 4194304)
    have hk0 : (0 : Rat) ≤ (k : Rat) := Nat.cast_nonneg k
    have hkh : (k : Rat) * P.layerHeight ≤ 4194304 * P.layerHeight :=
      mul_le_mul_of_nonneg_right hkr hh.le
    have hkh0 : 0 ≤ (k : Rat) * P.layerHeight := mul_nonneg hk0 hh.le
    have hz := zD_nonneg P hh k
    obtain ⟨h1, h2⟩ := fl_step_err P.layerHeight (P.zD k + P.layerHeight) hlo
      (by linarith only [hz]) (by linarith only [hu, hkh, hkh0, hz1, hh])
    have e : P.zD (k + 1) = fl (P.zD k + P.layerHeight) := rfl
    rw [e]
    push_cast
    constructor
    · linarith only [h1, hl]
    · linarith only [h2, hu]

theorem zD_step_le (P : IAPrinterFDM) (hlo : (2 : Rat) ^ (-1000 : Int) ≤ P.layerHeight)
    (hd : fl P.layerHeight = P.layerHeight) (k : Nat) (hk : k ≤ 4194304) :
    P.zD (k + 1) ≤ P.zD k + P.layerHeight + P.layerHeight / 1073741824 := by
  have hh : 0 < P.layerHeight := lt_of_lt_of_le (two_zpow_pos _) hlo
  obtain ⟨hz0, hz1⟩ := zMinD_bounds P hh hd
  obtain ⟨hl, hu⟩ := zD_drift P hlo hd k hk
  have hkr : (k : Rat) ≤ 4194304 := by exact_mod_cast hk
  have hkh : (k : Rat) * P.layerHeight ≤ 4194304 * P.layerHeight :=
    mul_le_mul_of_nonneg_right hkr hh.le
  have hkh0 : 0 ≤ (k : Rat) * P.layerHeight := mul_nonneg (Nat.cast_nonneg k) hh.le
  have hz := zD_nonneg P hh k
  obtain ⟨_, h2⟩ := fl_step_err P.layerHeight (P.zD k + P.layerHeight) hlo
    (by linarith only [hz]) (by linarith only [hu, hkh, hkh0, hz1, hh])
  exact h2

theorem bound1D (P : IAPrinterFDM) (hlo : (2 : Rat) ^ (-1000 : Int) ≤ P.layerHeight)
    (hd : fl P.layerHeight = P.layerHeight) (hmesh : P.meshMinZ ≤ P.meshMaxZ)
    (hsize : P.meshMaxZ - P.meshMinZ ≤ 1048576 * P.layerHeight) :
    P.zMaxD + 2 * P.layerHeight - P.layerHeight / 1073741824
      ≤ fl (P.zMaxD + fl (2 * P.layerHeight)) ∧
    fl (P.zMaxD + fl (2 * P.layerHeight))
      ≤ P.zMaxD + 2 * P.layerHeight + P.layerHeight / 1073741824 := by
  have hh : 0 < P.layerHeight := lt_of_lt_of_le (two_zpow_pos _) hlo
  obtain ⟨hM0, hM1⟩ := zMaxD_bounds P hh hd hmesh hsize
  rw [fl_two_mul _ hd]
  exact fl_step_err P.layerHeight _ hlo (by linarith only [hM0, hh])
    (by linarith only [hM1, hh])

theorem bound2D (P : IAPrinterFDM) (hlo : (2 : Rat) ^ (-1000 : Int) ≤ P.layerHeight)
    (hd : fl P.layerHeight = P.layerHeight) (hmesh : P.meshMinZ ≤ P.meshMaxZ)
    (hsize : P.meshMaxZ - P.meshMinZ ≤ 1048576 * P.layerHeight) :
    P.zMaxD - P.layerHeight - P.layerHeight / 1073741824 ≤ fl (P.zMaxD - P.layerHeight) ∧
    fl (P.zMaxD - P.layerHeight)
      ≤ P.zMaxD - P.layerHeight + P.layerHeight / 1073741824 := by
  have hh : 0 < P.layerHeight := lt_of_lt_of_le (two_zpow_pos _) hlo
  obtain ⟨hM0, hM1⟩ := zMaxD_bounds P hh hd hmesh hsize
  exact fl_step_err P.layerHeight _ hlo (by linarith only [hM0, hh])
    (by linarith only [hM1, hh])

theorem zMaxD_le (P : IAPrinterFDM) (hlo : (2 : Rat) ^ (-1000 : Int) ≤ P.layerHeight)
    (hd : fl P.layerHeight = P.layerHeight) (hmesh : P.meshMinZ ≤ P.meshMaxZ)
    (hsize : P.meshMaxZ - P.meshMinZ ≤ 1048576 * P.layerHeight) :
    P.zMaxD < P.zMinD + ((P.nD : Rat) + 1) * P.layerHeight + P.layerHeight / 1073741824 := by
  have hh : 0 < P.layerHeight := lt_of_lt_of_le (two_zpow_pos _) hlo
  obtain ⟨hz0, hz1⟩ := zMinD_bounds P hh hd
  obtain ⟨hM0, hM1⟩ := zMaxD_bounds P hh hd hmesh hsize
  have hlt := diffD_lt P hh hd hmesh hsize
  obtain ⟨h1, _⟩ := fl_step_err P.layerHeight (P.zMaxD - P.zMinD) hlo
    (by linarith only [hz1, hM0]) (by linarith only [hz0, hM1, hh])
  linarith only [h1, hlt]

theorem pass1D_ends (P : IAPrinterFDM) (hlo : (2 : Rat) ^ (-1000 : Int) ≤ P.layerHeight)
    (hd : fl P.layerHeight = P.layerHeight) (hmesh : P.meshMinZ ≤ P.meshMaxZ)
    (hsize : P.meshMaxZ - P.meshMinZ ≤ 1048576 * P.layerHeight) :
    ¬ P.zD (P.nD + 4).toNat < fl (P.zMaxD + fl (2 * P.layerHeight)) := by
  have hh : 0 < P.layerHeight := lt_of_lt_of_le (two_zpow_pos _) hlo
  obtain ⟨_, hn1, hn2⟩ := nD_bounds P hh hd hmesh hsize
  obtain ⟨_, hB⟩ := bound1D P hlo hd hmesh hsize
  have hM := zMaxD_le P hlo hd hmesh hsize
  have hN : ((P.nD + 4).toNat : Int) = P.nD + 4 := Int.toNat_of_nonneg (by omega)
  have hNr : (((P.nD + 4).toNat : Nat) : Rat) = (P.nD : Rat) + 4 := by exact_mod_cast hN
  obtain ⟨hl, _⟩ := zD_drift P hlo hd (P.nD + 4).toNat (by omega)
  rw [hNr] at hl
  have hnr : (P.nD : Rat) ≤ 2097152 := by exact_mod_cast hn2
  have hn0 : (0 : Rat) ≤ (P.nD : Rat) := by exact_mod_cast (by omega : (0 : Int) ≤ P.nD)
  have hnh : (P.nD : Rat) * P.layerHeight ≤ 2097152 * P.layerHeight :=
    mul_le_mul_of_nonneg_right hnr hh.le
  rw [not_lt]
  linarith only [hl, hB, hM, hnh, hh]

theorem bound2D_le_bound1D (P : IAPrinterFDM)
    (hlo : (2 : Rat) ^ (-1000 : Int) ≤ P.layerHeight)
    (hd : fl P.layerHeight = P.layerHeight) (hmesh : P.meshMinZ ≤ P.meshMaxZ)
    (hsize : P.meshMaxZ - P.meshMinZ ≤ 1048576 * P.layerHeight) :
    fl (P.zMaxD - P.layerHeight) ≤ fl (P.zMaxD + fl (2 * P.layerHeight)) := by
  have hh : 0 < P.layerHeight := lt_of_lt_of_le (two_zpow_pos _) hlo
  obtain ⟨hB1, _⟩ := bound1D P hlo hd hmesh hsize
  obtain ⟨_, hB2⟩ := bound2D P hlo hd hmesh hsize
  linarith only [hB1, hB2, hh]

theorem pass2D_two_ahead (P : IAPrinterFDM) (hlo : (2 : Rat) ^ (-1000 : Int) ≤ P.layerHeight)
    (hd : fl P.layerHeight = P.layerHeight) (hmesh : P.meshMinZ ≤ P.meshMaxZ)
    (hsize : P.meshMaxZ - P.meshMinZ ≤ 1048576 * P.layerHeight) (i : Nat)
    (hi : P.zD i < fl (P.zMaxD - P.layerHeight)) :
    P.zD (i + 2) < fl (P.zMaxD + fl (2 * P.layerHeight)) := by
  have hh : 0 < P.layerHeight := lt_of_lt_of_le (two_zpow_pos _) hlo
  obtain ⟨_, hn1, hn2⟩ := nD_bounds P hh hd hmesh hsize
  obtain ⟨hB1, _⟩ := bound1D P hlo hd hmesh hsize
  obtain ⟨_, hB2⟩ := bound2D P hlo hd hmesh hsize
  have hiN : i < (P.nD + 4).toNat := by
    by_contra hle
    have h1 := zD_mono P hh _ _ (Nat.le_of_not_lt hle)
    have h2 := pass1D_ends P hlo hd hmesh hsize
    have h3 := bound2D_le_bound1D P hlo hd hmesh hsize
    rw [not_lt] at h2
    linarith only [h1, h2, h3, hi]
  have s1 := zD_step_le P hlo hd i (by omega)
  have s2 := zD_step_le P hlo hd (i + 1) (by omega)
  linarith only [s1, s2, hB1, hB2, hi, hh]

theorem pass1D_two_turns (P : IAPrinterFDM) (hlo : (2 : Rat) ^ (-1000 : Int) ≤ P.layerHeight)
    (hd : fl P.layerHeight = P.layerHeight) (hmesh : P.meshMinZ ≤ P.meshMaxZ)
    (hsize : P.meshMaxZ - P.meshMinZ ≤ 1048576 * P.layerHeight) :
    P.zD 1 < fl (P.zMaxD + fl (2 * P.layerHeight)) := by
  have hh : 0 < P.layerHeight := lt_of_lt_of_le (two_zpow_pos _) hlo
  obtain ⟨hz0, hz1⟩ := zMinD_bounds P hh hd
  obtain ⟨hM0, _⟩ := zMaxD_bounds P hh hd hmesh hsize
  obtain ⟨hB1, _⟩ := bound1D P hlo hd hmesh hsize
  have s1 := zD_step_le P hlo hd 0 (by omega)
  have e : P.zD 0 = P.zMinD := rfl
  rw [e] at s1
  linarith only [s1, hB1, hz1, hM0, hh]

theorem turnsD_exist (P : IAPrinterFDM) (hh : 0 < P.layerHeight) (B : Rat)
    (hex : ∃ k : Nat, ¬ P.zD k < B) :
    ∃ K : Nat, (∀ i : Nat, P.zD i < B ↔ i < K) ∧ ∀ k : Nat, ¬ P.zD k < B → K ≤ k := by
  classical
  refine ⟨Nat.find hex, fun i => ⟨fun hi => ?_, fun hi => ?_⟩, fun k hk => Nat.find_min' hex hk⟩
  · by_contra hle
    exact Nat.find_spec hex
      (lt_of_le_of_lt (zD_mono P hh _ _ (Nat.le_of_not_lt hle)) hi)
  · exact not_not.mp (Nat.find_min hex hi)

theorem pass1Body_invD (P : IAPrinterFDM) (L j : Nat) (s : SliceState)
    (h : Pass1InvD P L j s) (hj : j < L) :
    ∃ s1, P.pass1Body (P.zD j) j s = .ok s1 ∧ Pass1InvD P L (j + 1) s1 := by
  have hlen : j < s.sliceList.length := by rw [h.length_eq]; exact hj
  unfold IAPrinterFDM.pass1Body
  rw [if_pos hlen]
  refine ⟨_, rfl, ?_⟩
  constructor
  · simp [h.length_eq]
  · intro i hi
    by_cases hij : i = j
    · subst hij
      exact ⟨_, List.getElem?_set_self hlen⟩
    · obtain ⟨slc, hs⟩ := h.created i (by omega)
      exact ⟨slc, by simp only; rw [List.getElem?_set_ne (fun h => hij h.symm)]; exact hs⟩
  · intro i hi hiL
    simp only
    rw [List.getElem?_set_ne (by omega)]
    exact h.notCreated i (by omega) hiL
  · exact inv_addShells _ _ _ _ _ (inv_createLayer _ _ h.inv)
  · intro i hi
    simp only [findLayer_addShells]
    by_cases hij : i = j
    · subst hij
      exact ⟨_, createLayer_findLayer _ _ _ rfl⟩
    · obtain ⟨p, hp⟩ := h.found i (by omega)
      exact ⟨p, findLayer_createLayer_other _ _ _ _ hp⟩

theorem pass1D_stop_bound (P : IAPrinterFDM) (fuel : Nat) (z : Rat) (i : Nat) (s : SliceState)
    (h : ¬ z < fl (P.zMaxD + fl (2 * P.layerHeight))) :
    P.pass1D (fuel + 1) z i s = .ok s := by
  simp [IAPrinterFDM.pass1D, h]

theorem pass1D_step (P : IAPrinterFDM) (fuel : Nat) (z : Rat) (i : Nat) (s s1 : SliceState)
    (hz : z < fl (P.zMaxD + fl (2 * P.layerHeight))) (hn : P.nD ≠ 0)
    (hc : P.progressPass1 i = false) (hb : P.pass1Body z i s = .ok s1) :
    P.pass1D (fuel + 1) z i s = P.pass1D fuel (fl (z + P.layerHeight)) (i + 1) s1 := by
  simp [IAPrinterFDM.pass1D, hz, hn, hc, hb]

theorem pass1D_steps (P : IAPrinterFDM) (L : Nat) (hn : P.nD ≠ 0) (c : Nat) :
    ∀ (j : Nat) (s : SliceState), Pass1InvD P L j s →
      (∀ i, j ≤ i → i < j + c →
        P.zD i < fl (P.zMaxD + fl (2 * P.layerHeight)) ∧ P.progressPass1 i = false ∧ i < L) →
      ∃ s1, Pass1InvD P L (j + c) s1 ∧
        ∀ fuel, P.pass1D (fuel + c) (P.zD j) j s = P.pass1D fuel (P.zD (j + c)) (j + c) s1 := by
  induction c with
  | zero => intro j s h _; exact ⟨s, h, fun fuel => rfl⟩
  | succ c ih =>
    intro j s h hall
    obtain ⟨hz, hc, hL⟩ := hall j (le_refl _) (by omega)
    obtain ⟨s1, hb, hinv⟩ := pass1Body_invD P L j s h hL
    obtain ⟨s2, hinv2, hrun⟩ := ih (j + 1) s1 hinv
      (fun i hi1 hi2 => hall i (by omega) (by omega))
    have hidx : j + 1 + c = j + (c + 1) := by omega
    rw [hidx] at hinv2 hrun
    refine ⟨s2, hinv2, fun fuel => ?_⟩
    have h1 : P.pass1D (fuel + (c + 1)) (P.zD j) j s
        = P.pass1D (fuel + c) (fl (P.zD j + P.layerHeight)) (j + 1) s1 :=
      pass1D_step P (fuel + c) (P.zD j) j s s1 hz hn hc hb
    rw [h1]
    exact hrun fuel

theorem pass1InvD_initial (P : IAPrinterFDM) (m : IAMachineToolpath) :
    Pass1InvD P (P.nD + 4).toNat 0 (P.initialD m) := by
  constructor
  · simp [IAPrinterFDM.initialD]
  · intro i hi; omega
  · intro i _ hiL
    simp [IAPrinterFDM.initialD, List.getElem?_replicate, hiL]
  · exact inv_new
  · intro i hi; omega

theorem pass2D_stop_bound (P : IAPrinterFDM) (fuel : Nat) (z : Rat) (i : Nat) (s : SliceState)
    (h : ¬ z < fl (P.zMaxD - P.layerHeight)) : P.pass2D (fuel + 1) z i s = .ok s := by
  simp [IAPrinterFDM.pass2D, h]

theorem pass2D_step (P : IAPrinterFDM) (fuel : Nat) (z : Rat) (i : Nat) (s s1 : SliceState)
    (hz : z < fl (P.zMaxD - P.layerHeight)) (hn : P.nD ≠ 0)
    (hc : P.progressPass2 i = false) (hb : P.pass2Body z i s = .ok s1) :
    P.pass2D (fuel + 1) z i s = P.pass2D fuel (fl (z + P.layerHeight)) (i + 1) s1 := by
  simp [IAPrinterFDM.pass2D, hz, hn, hc, hb]

theorem pass2D_steps (P : IAPrinterFDM) (hn : P.nD ≠ 0) (c : Nat) :
    ∀ (j : Nat) (s : SliceState),
      (∀ i, j ≤ i → i < j + c →
        P.zD i < fl (P.zMaxD - P.layerHeight) ∧ P.progressPass2 i = false ∧
        i + 2 < s.sliceList.length ∧
        (∀ l, l ≤ i + 1 → ∃ slc, s.sliceList[l]? = some (some slc)) ∧
        ∃ p, s.pMachineToolpath.findLayer (P.zD i) = some p) →
      ∃ s1, s1.sliceList = s.sliceList ∧ Extends s.pMachineToolpath s1.pMachineToolpath ∧
        ∀ fuel, P.pass2D (fuel + c) (P.zD j) j s = P.pass2D fuel (P.zD (j + c)) (j + c) s1 := by
  induction c with
  | zero => intro j s _; exact ⟨s, rfl, extends_refl _, fun fuel => rfl⟩
  | succ c ih =>
    intro j s hall
    obtain ⟨hz, hc, hlen, hslices, p, hp⟩ := hall j (le_refl _) (by omega)
    obtain ⟨s1, hb⟩ := pass2Body_ok P (P.zD j) j p s hlen hslices hp
    have hsl := pass2Body_sliceList P _ _ s s1 hb
    have hext := pass2Body_extends P _ _ s s1 hb
    obtain ⟨s2, hsl2, hext2, hrun⟩ := ih (j + 1) s1 (by
      intro i hi1 hi2
      obtain ⟨a, b, c1, d, q, hq⟩ := hall i (by omega) (by omega)
      refine ⟨a, b, by rw [hsl]; exact c1, by rw [hsl]; exact d, q, ?_⟩
      rw [findLayer_of_pLayerMap _ _ _ hext.1]
      exact hq)
    have hidx : j + 1 + c = j + (c + 1) := by omega
    rw [hidx] at hrun
    refine ⟨s2, hsl2.trans hsl, extends_trans hext hext2, fun fuel => ?_⟩
    have h1 : P.pass2D (fuel + (c + 1)) (P.zD j) j s
        = P.pass2D (fuel + c) (fl (P.zD j + P.layerHeight)) (j + 1) s1 :=
      pass2D_step P (fuel + c) (P.zD j) j s s1 hz hn hc hb
    rw [h1]
    exact hrun fuel

theorem sliceAllD_eq_pass2D (P : IAPrinterFDM) (fuel : Nat) (m0 : IAMachineToolpath)
    (s1 : SliceState)
    (hq : -(2 ^ 31) - 1 < P.layerQuotient ∧ P.layerQuotient < 2 ^ 31 ∧ P.nD + 4 < 2 ^ 31)
    (h : P.pass1D fuel P.zMinD 0 (P.initialD m0) = .ok s1) :
    P.sliceAllD fuel m0 = P.pass2D fuel P.zMinD 0 s1 := by
  unfold IAPrinterFDM.sliceAllD
  rw [if_pos hq, h]
  rfl

theorem full_runD (P : IAPrinterFDM) (m0 : IAMachineToolpath)
    (hlo : (2 : Rat) ^ (-1000 : Int) ≤ P.layerHeight)
    (hd : fl P.layerHeight = P.layerHeight) (hmesh : P.meshMinZ ≤ P.meshMaxZ)
    (hsize : P.meshMaxZ - P.meshMinZ ≤ 1048576 * P.layerHeight)
    (hp1 : ∀ i, P.progressPass1 i = false) (hp2 : ∀ i, P.progressPass2 i = false) :
    ∃ K1 K2 : Nat,
      (∀ i : Nat, P.zD i < fl (P.zMaxD + fl (2 * P.layerHeight)) ↔ i < K1) ∧
      (∀ i : Nat, P.zD i < fl (P.zMaxD - P.layerHeight) ↔ i < K2) ∧
      K2 + 2 ≤ K1 ∧ K1 ≤ (P.nD + 4).toNat ∧
      ∀ fuel, K1 < fuel →
        ∃ s1 s, P.pass1D fuel P.zMinD 0 (P.initialD m0) = .ok s1 ∧
          Pass1InvD P (P.nD + 4).toNat K1 s1 ∧
          P.sliceAllD fuel m0 = .ok s ∧ s.sliceList = s1.sliceList := by
  have hh : 0 < P.layerHeight := lt_of_lt_of_le (two_zpow_pos _) hlo
  obtain ⟨_, hn1, hn2⟩ := nD_bounds P hh hd hmesh hsize
  obtain ⟨hq0, hq1⟩ := layerQuotient_bounds P hh hd hmesh hsize
  have hn : P.nD ≠ 0 := by omega
  have hend := pass1D_ends P hlo hd hmesh hsize
  obtain ⟨K1, hK1, hK1min⟩ := turnsD_exist P hh _ ⟨_, hend⟩
  have hK1N : K1 ≤ (P.nD + 4).toNat := hK1min _ hend
  have hend2 : ¬ P.zD K1 < fl (P.zMaxD - P.layerHeight) := by
    have h1 : ¬ P.zD K1 < fl (P.zMaxD + fl (2 * P.layerHeight)) := by
      rw [hK1]; omega
    have h2 := bound2D_le_bound1D P hlo hd hmesh hsize
    rw [not_lt] at h1 ⊢
    exact le_trans h2 h1
  obtain ⟨K2, hK2, hK2min⟩ := turnsD_exist P hh _ ⟨_, hend2⟩
  have hK : K2 + 2 ≤ K1 := by
    rcases Nat.eq_zero_or_pos K2 with h0 | hpos
    · have := (hK1 1).mp (pass1D_two_turns P hlo hd hmesh hsize)
      omega
    · have h1 := (hK2 (K2 - 1)).mpr (by omega)
      have h2 := (hK1 _).mp (pass2D_two_ahead P hlo hd hmesh hsize _ h1)
      omega
  refine ⟨K1, K2, hK1, hK2, hK, hK1N, fun fuel hfuel => ?_⟩
  obtain ⟨s1, hinv, hrun⟩ := pass1D_steps P (P.nD + 4).toNat hn K1 0 (P.initialD m0)
    (pass1InvD_initial P m0)
    (fun i _ hi => ⟨(hK1 i).mpr (by omega), hp1 i, by omega⟩)
  rw [Nat.zero_add] at hinv hrun
  obtain ⟨f, hf⟩ : ∃ f, fuel = (f + 1) + K1 := ⟨fuel - K1 - 1, by omega⟩
  have hs1 : P.pass1D fuel P.zMinD 0 (P.initialD m0) = .ok s1 := by
    have e : P.zMinD = P.zD 0 := rfl
    rw [hf, e, hrun (f + 1)]
    apply pass1D_stop_bound
    rw [hK1]
    omega
  obtain ⟨s2, hsl, _, hrun2⟩ := pass2D_steps P hn K2 0 s1
    (fun i _ hi => ⟨(hK2 i).mpr (by omega), hp2 i, by rw [hinv.length_eq]; omega,
      fun l hl => hinv.created l (by omega), hinv.found i (by omega)⟩)
  rw [Nat.zero_add] at hrun2
  obtain ⟨f2, hf2⟩ : ∃ f2, fuel = (f2 + 1) + K2 := ⟨fuel - K2 - 1, by omega⟩
  have hcast : -(2 ^ 31) - 1 < P.layerQuotient ∧ P.layerQuotient < 2 ^ 31
      ∧ P.nD + 4 < 2 ^ 31 :=
    ⟨by linarith only [hq0], by linarith only [hq1], by omega⟩
  have hs2 : P.sliceAllD fuel m0 = .ok s2 := by
    rw [sliceAllD_eq_pass2D P fuel m0 s1 hcast hs1]
    have e : P.zMinD = P.zD 0 := rfl
    conv_lhs => rw [hf2]
    rw [e, hrun2 (f2 + 1)]
    apply pass2D_stop_bound
    rw [hK2]
    omega
  exact ⟨s1, s2, hs1, hinv, hs2, hsl⟩

/-- The refutation for C30. The mesh from 0 to `2^31` with the layer height 1, a height
above 0, has a quotient `(zMax-zMin)/zLayerHeight` that is not below `2^31`: the cast
`(int)` of it is undefined, there is no `n`, and `sliceAll` is undefined behaviour. And
the mesh from 0 to the `double` next to 0.19 with the `double` next to 0.1 as layer
height has `n = 2`, and the first loop makes six turns, with `z` below its bound in
turn 5 and not in turn 6: it writes the slice `n + 3`. In exact arithmetic on the same
two numbers `zMin + 5 * layerHeight` is not below `zMax + 2 * layerHeight`, and the
loop would make five turns. -/
theorem C30_slice_indices_counterexample :
    0 < tallPrinter.layerHeight ∧ tallPrinter.meshMinZ ≤ tallPrinter.meshMaxZ ∧
    ¬ tallPrinter.layerQuotient < 2 ^ 31 ∧
    (∀ (fuel : Nat) (m : IAMachineToolpath), tallPrinter.sliceAllD fuel m = .undefined) ∧
    fl thinPrinter.layerHeight = thinPrinter.layerHeight ∧
    fl thinPrinter.meshMaxZ = thinPrinter.meshMaxZ ∧
    thinPrinter.nD = 2 ∧
    thinPrinter.zD 5 < fl (thinPrinter.zMaxD + fl (2 * thinPrinter.layerHeight)) ∧
    ¬ thinPrinter.zD 6 < fl (thinPrinter.zMaxD + fl (2 * thinPrinter.layerHeight)) ∧
    ¬ thinPrinter.layerHeight * (9 / 10) + 5 * thinPrinter.layerHeight
        < thinPrinter.meshMaxZ - thinPrinter.meshMinZ + 2 * thinPrinter.layerHeight
          + 2 * thinPrinter.layerHeight := by
  have hq : ¬ tallPrinter.layerQuotient < 2 ^ 31 := by decide!
  refine ⟨by decide!, by decide!, hq, ?_, by decide!, by decide!, by decide!, by decide!,
    by decide!, by decide!⟩
  intro fuel m
  unfold IAPrinterFDM.sliceAllD
  rw [if_neg (fun h => hq h.2.1)]

/-- C30, amended: in the arithmetic of `double`, for a layer height that is a `double`
between `2^-1000` and `2^1000` and a mesh whose top is not below its bottom and at most
`2^20` layer heights above it, without cancellation, with `n` the `double` quotient
`(zMax - zMin) / layerHeight` without its fraction: the cast is defined and `n` is at
least 1; the first loop of `sliceAll` makes `K1` turns and writes exactly the slices
`0 .. K1 - 1`, where `K1` is at most `n + 4`, the length of the slice list; the second
loop makes `K2` turns, `K2 + 2` at most `K1`, and in each turn `i` the indices `i`,
`i+1`, `i+2` and, when they are not negative, `i-1` and `i-2` are in `[0, n+3]` and
hold a slice that the first loop made, and `findLayer` finds the layer toolpath of the
height `zD i`, which the second loop computes as the first loop did. With more than
`K1` turns of fuel `sliceAll` ends, and nothing that it does is undefined. -/
theorem C30_slice_indices (P : IAPrinterFDM) (m0 : IAMachineToolpath)
    (hd : fl P.layerHeight = P.layerHeight)
    (hlo : (2 : Rat) ^ (-1000 : Int) ≤ P.layerHeight) (_hhi : P.layerHeight ≤ 2 ^ 1000)
    (hmesh : P.meshMinZ ≤ P.meshMaxZ)
    (hsize : P.meshMaxZ - P.meshMinZ ≤ 2 ^ 20 * P.layerHeight)
    (hp1 : ∀ i, P.progressPass1 i = false) (hp2 : ∀ i, P.progressPass2 i = false) :
    (-(2 ^ 31) - 1 < P.layerQuotient ∧ P.layerQuotient < 2 ^ 31 ∧ P.nD + 4 < 2 ^ 31) ∧
    P.nD = ⌊P.layerQuotient⌋ ∧ 1 ≤ P.nD ∧
    ∃ K1 K2 : Nat,
      (∀ i : Nat, P.zD i < fl (P.zMaxD + fl (2 * P.layerHeight)) ↔ i < K1) ∧
      (∀ i : Nat, P.zD i < fl (P.zMaxD - P.layerHeight) ↔ i < K2) ∧
      (K1 : Int) ≤ P.nD + 4 ∧ K2 + 2 ≤ K1 ∧
      ∀ fuel, K1 < fuel →
        ∃ s1 s, P.pass1D fuel P.zMinD 0 (P.initialD m0) = .ok s1 ∧
          (s1.sliceList.length : Int) = P.nD + 4 ∧
          (∀ i, i < K1 → ∃ slc, s1.sliceList[i]? = some (some slc)) ∧
          (∀ i, K1 ≤ i → ∀ slc, s1.sliceList[i]? ≠ some (some slc)) ∧
          (∀ i, i < K2 → ∀ j, j ≤ i + 2 →
            (j : Int) ≤ P.nD + 3 ∧ ∃ slc, s1.sliceList[j]? = some (some slc)) ∧
          (∀ i, i < K2 → ∃ p t, s1.pMachineToolpath.findLayer (P.zD i) = some p ∧
            s1.pMachineToolpath.store[p]? = some t) ∧
          P.sliceAllD fuel m0 = .ok s ∧ s.sliceList = s1.sliceList := by
  have hh : 0 < P.layerHeight := lt_of_lt_of_le (two_zpow_pos _) hlo
  have hsize1 : P.meshMaxZ - P.meshMinZ ≤ 1048576 * P.layerHeight := by
    rw [show (2 : Rat) ^ 20 = 1048576 by norm_num] at hsize
    exact hsize
  obtain ⟨hn, hn1, hn2⟩ := nD_bounds P hh hd hmesh hsize1
  obtain ⟨hq0, hq1⟩ := layerQuotient_bounds P hh hd hmesh hsize1
  refine ⟨⟨by linarith only [hq0], by linarith only [hq1], by omega⟩, hn, hn1, ?_⟩
  obtain ⟨K1, K2, hK1, hK2, hK, hL, hrun⟩ := full_runD P m0 hlo hd hmesh hsize1 hp1 hp2
  refine ⟨K1, K2, hK1, hK2, by omega, hK, fun fuel hfuel => ?_⟩
  obtain ⟨s1, s, hs1, hinv, hs, hsl⟩ := hrun fuel hfuel
  refine ⟨s1, s, hs1, ?_, hinv.created, ?_, ?_, ?_, hs, hsl⟩
  · rw [hinv.length_eq]
    omega
  · intro i hi slc hslc
    by_cases hiL : i < (P.nD + 4).toNat
    · rw [hinv.notCreated i hi hiL] at hslc
      cases hslc
    · have : s1.sliceList[i]? = none :=
        List.getElem?_eq_none (by rw [hinv.length_eq]; omega)
      rw [this] at hslc
      cases hslc
  · intro i hi j hj
    exact ⟨by omega, hinv.created j (by omega)⟩
  · intro i hi
    obtain ⟨p, hp⟩ := hinv.found i (by omega)
    have hlt : p < s1.pMachineToolpath.store.length :=
      hinv.inv.2.1 _ (mapFind_some_mem _ p _ hp)
    exact ⟨p, s1.pMachineToolpath.store[p], hp, List.getElem?_eq_getElem hlt⟩

/-- C30, amended, for the example printer (mesh from 0 to 9, layer height 1, no
cancellation). -/
theorem C30_slice_indices_witness :
    1 ≤ demoPrinter.nD ∧
    ∃ K1 K2 : Nat, (K1 : Int) ≤ demoPrinter.nD + 4 ∧ K2 + 2 ≤ K1 ∧
      ∀ fuel, K1 < fuel → ∃ s, demoPrinter.sliceAllD fuel IAMachineToolpath.new = .ok s :=
  let ⟨_, _, h1, K1, K2, _, _, h3, h4, h5⟩ :=
    C30_slice_indices demoPrinter IAMachineToolpath.new fl_one
      (zpow_le_one_of_nonpos₀ (by norm_num) (by norm_num)) (by norm_num [demoPrinter])
      (by norm_num [demoPrinter]) (by norm_num [demoPrinter]) (fun _ => rfl) (fun _ => rfl)
  ⟨h1, K1, K2, h3, h4, fun fuel hf =>
    let ⟨_, s, _, _, _, _, _, _, hs, _⟩ := h5 fuel hf
    ⟨s, hs⟩⟩

/-! ## Theorems: the lids of the bottom layers -/

theorem computeMask_bottom (P : IAPrinterFDM) (sliceList : List (Option IASlice)) (i : Nat)
    (hi : i = 0 ∨ (i = 1 ∧ P.pNumLids > 1))
    (hlen : i + 2 < sliceList.length)
    (hslices : ∀ j, j ≤ i + 1 → ∃ slc, sliceList[j]? = some (some slc)) :
    P.computeMask sliceList i = .ok ⟨∅⟩ := by
  obtain ⟨mask, hm, hcells⟩ := computeMask_cells P sliceList i hlen hslices
  have hempty : mask.cells = ∅ := by
    rw [hcells]
    rcases hi with h0 | ⟨h1, hl⟩
    · subst h0
      by_cases hl : P.pNumLids > 1 <;> simp [hl, layerCellsBelow]
    · subst h1
      simp [hl, layerCellsBelow]
  rw [hm]
  cases mask
  simp only at hempty
  rw [hempty]

theorem lidAndInfill_empty (layer : IAFramebuffer) :
    (lidAndInfill layer ⟨∅⟩).1 = layer ∧ (lidAndInfill layer ⟨∅⟩).2 = ⟨∅⟩ := by
  cases layer
  simp [lidAndInfill, IAFramebuffer.logicAndNot, IAFramebuffer.logicAnd]

theorem lidsBlock_bottom (P : IAPrinterFDM) (sliceList : List (Option IASlice)) (i : Nat)
    (hlids : P.pNumLids > 0) (hi : i = 0 ∨ (i = 1 ∧ P.pNumLids > 1))
    (hlen : i + 2 < sliceList.length)
    (hslices : ∀ j, j ≤ i + 1 → ∃ slc, sliceList[j]? = some (some slc))
    (z : Rat) (tp : Option Nat) (layer : IAFramebuffer) (m : IAMachineToolpath) :
    P.lidsBlock z i tp sliceList layer m = P.buildLids z i tp layer ⟨∅⟩ m := by
  unfold IAPrinterFDM.lidsBlock
  rw [if_pos hlids, computeMask_bottom P sliceList i hi hlen hslices, Outcome.bind_ok,
    (lidAndInfill_empty layer).1, (lidAndInfill_empty layer).2]

theorem lidsBlock_no_lids (P : IAPrinterFDM) (hlids : ¬ P.pNumLids > 0) (z : Rat) (i : Nat)
    (tp : Option Nat) (sliceList : List (Option IASlice)) (layer : IAFramebuffer)
    (m : IAMachineToolpath) :
    P.lidsBlock z i tp sliceList layer m = .ok (layer, m) := by
  unfold IAPrinterFDM.lidsBlock
  rw [if_neg hlids]

/-- C29: with at least one lid requested, in the turn of the bottom layer `i = 0` of the
second loop the mask is empty, so the lid raster is the whole raster of the layer and
the infill raster is empty, and these are the rasters with which the lids are built;
with two or more lids requested the same holds for the layer `i = 1`. With no lid
requested the block of the lids builds nothing, and the infill raster, which goes on
to the infill block, is the whole raster of the layer, for every layer. The slices
that the turn reads are assumed to exist, as they do in a run that was not
cancelled. -/
theorem C29_bottom_lids (P : IAPrinterFDM) :
    (∀ (sliceList : List (Option IASlice)) (i : Nat), P.pNumLids > 0 →
      (i = 0 ∨ (i = 1 ∧ P.pNumLids > 1)) → i + 2 < sliceList.length →
      (∀ j, j ≤ i + 1 → ∃ slc, sliceList[j]? = some (some slc)) →
      P.computeMask sliceList i = .ok ⟨∅⟩ ∧
      ∀ layer : IAFramebuffer,
        (lidAndInfill layer ⟨∅⟩).1 = layer ∧ (lidAndInfill layer ⟨∅⟩).2 = ⟨∅⟩ ∧
        ∀ (z : Rat) (tp : Option Nat) (m : IAMachineToolpath),
          P.lidsBlock z i tp sliceList layer m = P.buildLids z i tp layer ⟨∅⟩ m) ∧
    (¬ P.pNumLids > 0 →
      ∀ (z : Rat) (i : Nat) (tp : Option Nat) (sliceList : List (Option IASlice))
        (layer : IAFramebuffer) (m : IAMachineToolpath),
        P.lidsBlock z i tp sliceList layer m = .ok (layer, m) ∧
        ∀ s : SliceState, s.sliceList = sliceList → s.pMachineToolpath = m →
          s.pMachineToolpath.findLayer z = tp →
          derefSlice s.sliceList i = .ok layer →
          P.pass2Body z i s
            = (P.buildInfill z i tp layer m).bind fun m1 =>
                .ok { sliceList := s.sliceList, pMachineToolpath := m1 }) := by
  refine ⟨?_, ?_⟩
  · intro sliceList i hlids hi hlen hslices
    refine ⟨computeMask_bottom P sliceList i hi hlen hslices, fun layer => ?_⟩
    exact ⟨(lidAndInfill_empty layer).1, (lidAndInfill_empty layer).2,
      fun z tp m => lidsBlock_bottom P sliceList i hlids hi hlen hslices z tp layer m⟩
  · intro hlids z i tp sliceList layer m
    refine ⟨lidsBlock_no_lids P hlids z i tp sliceList layer m, ?_⟩
    intro s hsl hm htp hlayer
    subst hsl hm htp
    unfold IAPrinterFDM.pass2Body
    simp only [hlayer, Outcome.bind_ok, lidsBlock_no_lids P hlids]

/-- C29 for the example printer (one lid) at layer 0 of the example slice list, and for
the same printer without lids. -/
theorem C29_bottom_lids_witness :
    demoPrinter.computeMask demoSlices 0 = .ok ⟨∅⟩ ∧
    demoPrinter.lidsBlock 1 0 none demoSlices ⟨{(0, 0), (1, 0)}⟩ IAMachineToolpath.new
      = demoPrinter.buildLids 1 0 none ⟨{(0, 0), (1, 0)}⟩ ⟨∅⟩ IAMachineToolpath.new ∧
    IAPrinterFDM.lidsBlock { demoPrinter with pNumLids := 0 } 1 2 none demoSlices
        ⟨{(1, 0), (2, 0)}⟩ IAMachineToolpath.new
      = .ok (⟨{(1, 0), (2, 0)}⟩, IAMachineToolpath.new) :=
  have h := (C29_bottom_lids demoPrinter).1 demoSlices 0 (by decide) (Or.inl rfl)
    (by decide) (fun j hj => by
      have hj2 : j = 0 ∨ j = 1 := by omega
      rcases hj2 with h | h <;> subst h <;> exact ⟨_, rfl⟩)
  ⟨h.1, (h.2 _).2.2 1 none IAMachineToolpath.new,
    ((C29_bottom_lids { demoPrinter with pNumLids := 0 }).2 (by decide) 1 2 none demoSlices
      _ IAMachineToolpath.new).1⟩

/-! ## Theorems: the contour tracer -/

theorem onGrid_mono (k : Int) (M N : Nat) (x : Rat) (hMN : M ≤ N) (h : OnGrid k M x) :
    OnGrid k N x := by
  obtain ⟨m, hx, hm⟩ := h
  exact ⟨m, hx, le_trans hm (by exact_mod_cast hMN)⟩

theorem onGrid_sub (k : Int) (M N : Nat) (x y : Rat) (hx : OnGrid k M x) (hy : OnGrid k N y) :
    OnGrid k (M + N) (x - y) := by
  obtain ⟨m, hx, hm⟩ := hx
  obtain ⟨n, hy, hn⟩ := hy
  refine ⟨m - n, by rw [hx, hy]; push_cast; ring, ?_⟩
  have := abs_sub m n
  push_cast
  linarith

theorem onGrid_add (k : Int) (M N : Nat) (x y : Rat) (hx : OnGrid k M x) (hy : OnGrid k N y) :
    OnGrid k (M + N) (x + y) := by
  obtain ⟨m, hx, hm⟩ := hx
  obtain ⟨n, hy, hn⟩ := hy
  refine ⟨m + n, by rw [hx, hy]; push_cast; ring, ?_⟩
  have := abs_add m n
  push_cast
  linarith

theorem onGrid_mul (k j : Int) (M N : Nat) (x y : Rat) (hx : OnGrid k M x)
    (hy : OnGrid j N y) : OnGrid (k + j) (M * N) (x * y) := by
  obtain ⟨m, hx, hm⟩ := hx
  obtain ⟨n, hy, hn⟩ := hy
  refine ⟨m * n, by rw [hx, hy, zpow_add₀ (by norm_num)]; push_cast; ring, ?_⟩
  rw [abs_mul]
  push_cast
  exact mul_le_mul hm hn (abs_nonneg _) (by positivity)

theorem onGrid_abs (k : Int) (M : Nat) (x : Rat) (hx : OnGrid k M x) : OnGrid k M |x| := by
  obtain ⟨m, hx, hm⟩ := hx
  refine ⟨|m|, ?_, by rwa [abs_abs]⟩
  rw [hx, abs_mul, abs_of_pos (two_zpow_pos k)]
  push_cast
  rfl

theorem fl_onGrid (k : Int) (M : Nat) (x : Rat) (hx : OnGrid k M x) (hM : M < 2 ^ 53)
    (hk : -1074 ≤ k) : fl x = x := by
  obtain ⟨m, hx, hm⟩ := hx
  exact fl_repr x m k hx (lt_of_le_of_lt hm (by exact_mod_cast hM)) hk

theorem fl_tenth_pos : (0 : Rat) < fl (1 / 10) := by
  rw [fl_tenth]; norm_num

theorem not_flatEnough_coincident (x y : Rat) : ¬ flatEnough x y x y x y x y := by
  simp [flatEnough, chordDeviation, fl_zero]

theorem recursive_bezier_coincident (fuel : Nat) :
    ∀ (tp : IAToolpath) (x y z : Rat), recursive_bezier fuel tp x y x y x y x y z = .noFuel := by
  induction fuel with
  | zero => intro tp x y z; rfl
  | succ fuel ih =>
    intro tp x y z
    have hx : (x + x) / 2 = x := by ring
    have hy : (y + y) / 2 = y := by ring
    simp only [recursive_bezier, hx, hy, if_neg (not_flatEnough_coincident x y), ih,
      Outcome.bind_noFuel]

theorem run_append (tp : IAToolpath) (cs cs1 : List PathCall) :
    tp.run (cs ++ cs1) = (tp.run cs).run cs1 := by
  simp [IAToolpath.run, List.foldl_append]

theorem Outcome.bind_assoc {α β γ : Type} (x : Outcome α) (f : α → Outcome β)
    (g : β → Outcome γ) : (x.bind f).bind g = x.bind fun a => (f a).bind g := by
  cases x <;> rfl

theorem recursive_bezier_calls (fuel : Nat) :
    ∀ (tp : IAToolpath) (x1 y1 x2 y2 x3 y3 x4 y4 z : Rat),
      recursive_bezier fuel tp x1 y1 x2 y2 x3 y3 x4 y4 z
        = (subdivisionPoints fuel x1 y1 x2 y2 x3 y3 x4 y4).bind fun pts =>
            .ok (tp.run (pts.map fun q => PathCall.continuePath q.1 q.2 z)) := by
  induction fuel with
  | zero => intro tp x1 y1 x2 y2 x3 y3 x4 y4 z; rfl
  | succ fuel ih =>
    intro tp x1 y1 x2 y2 x3 y3 x4 y4 z
    simp only [recursive_bezier, subdivisionPoints]
    by_cases hflat : flatEnough x1 y1 x2 y2 x3 y3 x4 y4
    · simp only [if_pos hflat, Outcome.bind_ok]
      rfl
    · simp only [if_neg hflat, ih, Outcome.bind_assoc, Outcome.bind_ok, List.map_append,
        run_append]

theorem bezier_calls (fuel : Nat) (tp : IAToolpath) (x1 y1 x2 y2 x3 y3 x4 y4 z : Rat) :
    bezier fuel tp x1 y1 x2 y2 x3 y3 x4 y4 z
      = (subdivisionPoints fuel x1 y1 x2 y2 x3 y3 x4 y4).bind fun pts =>
          .ok (tp.run ((pts.map fun q => PathCall.continuePath q.1 q.2 z)
            ++ [.continuePath x4 y4 z])) := by
  simp only [bezier, recursive_bezier_calls, Outcome.bind_assoc, Outcome.bind_ok, run_append]
  rfl

theorem potraceSegment_calls (fuel : Nat) (xScl yScl z : Rat) (curve : List PotraceSegment)
    (tp : IAToolpath) (i : Nat) :
    potraceSegment fuel xScl yScl z curve curve.length tp i
      = (segmentCalls fuel xScl yScl z curve i).bind fun cs => .ok (tp.run cs) := by
  unfold potraceSegment segmentCalls
  cases hi : curve[i]? with
  | none => rfl
  | some seg =>
    simp only
    cases htag : seg.tag with
    | corner => rfl
    | other t => rfl
    | curveto =>
      simp only
      cases hj : curve[if i ≠ 0 then i - 1 else curve.length - 1]? with
      | none => rfl
      | some prev =>
        simp only [bezier_calls, Outcome.bind_assoc, Outcome.bind_ok]

theorem potraceSegments_prefix (fuel : Nat) (xScl yScl z : Rat) (curve : List PotraceSegment)
    (tp : IAToolpath) (k : Nat) :
    (List.range k).foldl
        (fun acc i => acc.bind fun tp1 => potraceSegment fuel xScl yScl z curve curve.length tp1 i)
        (.ok tp)
      = (segmentsCalls fuel xScl yScl z curve k).bind fun cs => .ok (tp.run cs) := by
  induction k with
  | zero => rfl
  | succ k ih =>
    rw [List.range_succ, List.foldl_append, ih]
    simp only [List.foldl_cons, List.foldl_nil, segmentsCalls, Outcome.bind_assoc,
      Outcome.bind_ok, potraceSegment_calls, run_append]

theorem potraceSegments_calls (fuel : Nat) (xScl yScl z : Rat) (curve : List PotraceSegment)
    (tp : IAToolpath) :
    potraceSegments fuel xScl yScl z curve tp
      = (segmentsCalls fuel xScl yScl z curve curve.length).bind fun cs => .ok (tp.run cs) :=
  potraceSegments_prefix fuel xScl yScl z curve tp curve.length

theorem run_cons (tp : IAToolpath) (c : PathCall) (cs : List PathCall) :
    tp.run (c :: cs) = (tp.call c).run cs := rfl

theorem run_nil (tp : IAToolpath) : tp.run [] = tp := rfl

theorem potracePaths_calls (fuel : Nat) (xScl yScl z : Rat) (plist : List potrace_path_t) :
    ∀ tp : IAToolpath,
      potracePaths fuel xScl yScl z plist true tp
        = (contoursCalls fuel xScl yScl z plist).bind fun cs => .ok (tp.run cs) := by
  induction plist with
  | nil => intro tp; rfl
  | cons p rest ih =>
    intro tp
    unfold potracePaths contoursCalls contourCalls
    rw [List.getLast?_eq_getElem?]
    cases hlast : p.curve[p.curve.length - 1]? with
    | none => simp only [hlast]; rfl
    | some last =>
      simp only [hlast, if_true, potraceSegments_calls, Outcome.bind_assoc, Outcome.bind_ok, ih,
        run_append, run_cons, run_nil, IAToolpath.call, List.cons_append]

theorem potrace_calls (fuel : Nat) (plist : List potrace_path_t) (xScl yScl : Rat)
    (toolpath : IAToolpath) (z : Rat) :
    potrace fuel (some plist) xScl yScl toolpath z
      = (contoursCalls fuel xScl yScl z plist).bind fun cs => .ok (0, toolpath.run cs) := by
  simp only [potrace, potracePaths_calls, Outcome.bind_assoc, Outcome.bind_ok]

theorem subdivisionPoints_mono (fuel : Nat) :
    ∀ (x1 y1 x2 y2 x3 y3 x4 y4 : Rat) (l : List (Rat × Rat)),
      subdivisionPoints fuel x1 y1 x2 y2 x3 y3 x4 y4 = .ok l →
      subdivisionPoints (fuel + 1) x1 y1 x2 y2 x3 y3 x4 y4 = .ok l := by
  induction fuel with
  | zero => intro x1 y1 x2 y2 x3 y3 x4 y4 l h; cases h
  | succ fuel ih =>
    intro x1 y1 x2 y2 x3 y3 x4 y4 l h
    rw [subdivisionPoints] at h ⊢
    by_cases hflat : flatEnough x1 y1 x2 y2 x3 y3 x4 y4
    · simp only [if_pos hflat] at h ⊢
      exact h
    · simp only [if_neg hflat] at h ⊢
      obtain ⟨l1, h1, h⟩ := Outcome.bind_eq_ok h
      obtain ⟨l2, h2, h⟩ := Outcome.bind_eq_ok h
      rw [ih _ _ _ _ _ _ _ _ l1 h1, Outcome.bind_ok, ih _ _ _ _ _ _ _ _ l2 h2, Outcome.bind_ok]
      exact h

theorem subdivisionPoints_mono_le (fuel fuel1 : Nat) (hle : fuel ≤ fuel1)
    (x1 y1 x2 y2 x3 y3 x4 y4 : Rat) (l : List (Rat × Rat))
    (h : subdivisionPoints fuel x1 y1 x2 y2 x3 y3 x4 y4 = .ok l) :
    subdivisionPoints fuel1 x1 y1 x2 y2 x3 y3 x4 y4 = .ok l := by
  induction hle with
  | refl => exact h
  | step _ ih => exact subdivisionPoints_mono _ _ _ _ _ _ _ _ _ l ih

theorem segmentCalls_mono (fuel fuel1 : Nat) (hle : fuel ≤ fuel1) (xScl yScl z : Rat)
    (curve : List PotraceSegment) (i : Nat) (cs : List PathCall)
    (h : segmentCalls fuel xScl yScl z curve i = .ok cs) :
    segmentCalls fuel1 xScl yScl z curve i = .ok cs := by
  unfold segmentCalls at h ⊢
  cases hi : curve[i]? with
  | none => simp only [hi] at h; cases h
  | some seg =>
    simp only [hi] at h ⊢
    cases htag : seg.tag with
    | corner => simp only [htag] at h ⊢; exact h
    | other t => simp only [htag] at h ⊢; exact h
    | curveto =>
      simp only [htag] at h ⊢
      cases hj : curve[if i ≠ 0 then i - 1 else curve.length - 1]? with
      | none => simp only [hj] at h; cases h
      | some prev =>
        simp only [hj] at h ⊢
        obtain ⟨pts, hp, h⟩ := Outcome.bind_eq_ok h
        rw [subdivisionPoints_mono_le fuel fuel1 hle _ _ _ _ _ _ _ _ pts hp, Outcome.bind_ok]
        exact h

theorem segmentsCalls_mono (fuel fuel1 : Nat) (hle : fuel ≤ fuel1) (xScl yScl z : Rat)
    (curve : List PotraceSegment) (k : Nat) :
    ∀ cs, segmentsCalls fuel xScl yScl z curve k = .ok cs →
      segmentsCalls fuel1 xScl yScl z curve k = .ok cs := by
  induction k with
  | zero => intro cs h; exact h
  | succ k ih =>
    intro cs h
    rw [segmentsCalls] at h ⊢
    obtain ⟨cs0, h0, h⟩ := Outcome.bind_eq_ok h
    obtain ⟨cs1, h1, h⟩ := Outcome.bind_eq_ok h
    rw [ih cs0 h0, Outcome.bind_ok, segmentCalls_mono fuel fuel1 hle _ _ _ _ _ cs1 h1,
      Outcome.bind_ok]
    exact h

theorem contoursCalls_mono (fuel fuel1 : Nat) (hle : fuel ≤ fuel1) (xScl yScl z : Rat)
    (plist : List potrace_path_t) :
    ∀ cs, contoursCalls fuel xScl yScl z plist = .ok cs →
      contoursCalls fuel1 xScl yScl z plist = .ok cs := by
  induction plist with
  | nil => intro cs h; exact h
  | cons p rest ih =>
    intro cs h
    rw [contoursCalls] at h ⊢
    obtain ⟨cs0, h0, h⟩ := Outcome.bind_eq_ok h
    obtain ⟨cs1, h1, h⟩ := Outcome.bind_eq_ok h
    have h0a : contourCalls fuel1 xScl yScl z p = .ok cs0 := by
      unfold contourCalls at h0 ⊢
      cases hl : p.curve.getLast? with
      | none => simp only [hl] at h0; cases h0
      | some last =>
        simp only [hl] at h0 ⊢
        obtain ⟨cs2, h2, h0⟩ := Outcome.bind_eq_ok h0
        rw [segmentsCalls_mono fuel fuel1 hle _ _ _ _ _ cs2 h2, Outcome.bind_ok]
        exact h0
    rw [h0a, Outcome.bind_ok, ih cs1 h1, Outcome.bind_ok]
    exact h

theorem onlyContinue_segmentCalls (fuel : Nat) (xScl yScl z : Rat)
    (curve : List PotraceSegment) (i : Nat) (cs : List PathCall)
    (h : segmentCalls fuel xScl yScl z curve i = .ok cs) : OnlyContinue cs := by
  unfold segmentCalls at h
  cases hi : curve[i]? with
  | none => simp only [hi] at h; cases h
  | some seg =>
    simp only [hi] at h
    cases htag : seg.tag with
    | corner =>
      simp only [htag, Outcome.ok.injEq] at h
      subst h
      intro c hc
      simp only [List.mem_cons, List.mem_singleton, List.not_mem_nil, or_false] at hc
      rcases hc with hc | hc <;> exact ⟨_, _, _, hc⟩
    | other t =>
      simp only [htag, Outcome.ok.injEq] at h
      subst h
      intro c hc
      cases hc
    | curveto =>
      simp only [htag] at h
      cases hj : curve[if i ≠ 0 then i - 1 else curve.length - 1]? with
      | none => simp only [hj] at h; cases h
      | some prev =>
        simp only [hj] at h
        obtain ⟨pts, _, h⟩ := Outcome.bind_eq_ok h
        simp only [Outcome.ok.injEq] at h
        subst h
        intro c hc
        simp only [List.mem_append, List.mem_map, List.mem_singleton] at hc
        rcases hc with ⟨q, _, hq⟩ | hc
        · exact ⟨_, _, _, hq.symm⟩
        · exact ⟨_, _, _, hc⟩

theorem onlyContinue_segmentsCalls (fuel : Nat) (xScl yScl z : Rat)
    (curve : List PotraceSegment) (k : Nat) :
    ∀ cs, segmentsCalls fuel xScl yScl z curve k = .ok cs → OnlyContinue cs := by
  induction k with
  | zero =>
    intro cs h
    simp only [segmentsCalls, Outcome.ok.injEq] at h
    subst h
    intro c hc
    cases hc
  | succ k ih =>
    intro cs h
    rw [segmentsCalls] at h
    obtain ⟨cs0, h0, h⟩ := Outcome.bind_eq_ok h
    obtain ⟨cs1, h1, h⟩ := Outcome.bind_eq_ok h
    simp only [Outcome.ok.injEq] at h
    subst h
    intro c hc
    rcases List.mem_append.mp hc with hc | hc
    · exact ih cs0 h0 c hc
    · exact onlyContinue_segmentCalls fuel xScl yScl z curve k cs1 h1 c hc

theorem segmentCalls_last (fuel : Nat) (xScl yScl z : Rat) (curve : List PotraceSegment)
    (i : Nat) (seg : PotraceSegment) (cs : List PathCall) (hi : curve[i]? = some seg)
    (htag : seg.tag = .corner ∨ seg.tag = .curveto)
    (h : segmentCalls fuel xScl yScl z curve i = .ok cs) :
    ∃ pre, cs = pre ++ [.continuePath (seg.c2.x * xScl) (seg.c2.y * yScl) z] := by
  unfold segmentCalls at h
  simp only [hi] at h
  rcases htag with htag | htag
  · simp only [htag, Outcome.ok.injEq] at h
    exact ⟨[_], h.symm⟩
  · simp only [htag] at h
    cases hj : curve[if i ≠ 0 then i - 1 else curve.length - 1]? with
    | none => simp only [hj] at h; cases h
    | some prev =>
      simp only [hj] at h
      obtain ⟨pts, _, h⟩ := Outcome.bind_eq_ok h
      simp only [Outcome.ok.injEq] at h
      exact ⟨_, h.symm⟩

theorem rapidCount_append_motion (l : List IAToolpathElement) (m : IAToolpathMotion) :
    rapidCount (l ++ [.motion m]) = rapidCount l + (if m.pIsRapid then 1 else 0) := by
  unfold rapidCount
  rw [motionsOf_append_motion, List.filter_append, List.length_append]
  by_cases h : m.pIsRapid <;> simp [h]

theorem run_onlyContinue (cs : List PathCall) :
    ∀ tp : IAToolpath, OnlyContinue cs →
      (tp.run cs).tFirst = tp.tFirst ∧
      rapidCount (tp.run cs).pList = rapidCount tp.pList ∧
      ((∀ a ∈ (motionsOf tp.pList).getLast?, a.pEnd = tp.tPrev) →
        ∀ a ∈ (motionsOf (tp.run cs).pList).getLast?, a.pEnd = (tp.run cs).tPrev) := by
  induction cs with
  | nil => intro tp _; exact ⟨rfl, rfl, fun h => h⟩
  | cons c cs ih =>
    intro tp h
    obtain ⟨x, y, z, hc⟩ := h c (List.mem_cons_self _ _)
    subst hc
    obtain ⟨h1, h2, h3⟩ := ih (tp.continuePath x y z)
      (fun c hc => h c (List.mem_cons_of_mem _ hc))
    rw [run_cons]
    simp only [IAToolpath.call]
    refine ⟨h1, ?_, fun hlast => h3 ?_⟩
    · rw [h2]
      by_cases hp : tp.tPrev = ⟨x, y, z⟩
      · rw [continuePath_pList_of_eq tp x y z hp]
      · rw [continuePath_pList_of_ne tp x y z hp, rapidCount_append_motion]
        rfl
    · by_cases hp : tp.tPrev = ⟨x, y, z⟩
      · rw [continuePath_pList_of_eq tp x y z hp]
        intro a ha
        rw [hlast a ha, hp]
        rfl
      · rw [continuePath_pList_of_ne tp x y z hp, motionsOf_append_motion]
        intro a ha
        simp only [List.getLast?_append, List.getLast?_singleton, Option.or,
          Option.mem_def, Option.some.injEq] at ha
        subst ha
        rfl

theorem run_snoc_continue (tp : IAToolpath) (pre : List PathCall) (x y z : Rat) :
    (tp.run (pre ++ [.continuePath x y z])).tPrev = ⟨x, y, z⟩ := by
  rw [run_append]
  rfl

theorem segmentsCalls_last (fuel : Nat) (xScl yScl z : Rat) (curve : List PotraceSegment)
    (last : PotraceSegment) (cs : List PathCall) (hlast : curve.getLast? = some last)
    (htag : last.tag = .corner ∨ last.tag = .curveto)
    (h : segmentsCalls fuel xScl yScl z curve curve.length = .ok cs) :
    OnlyContinue cs ∧
      ∃ pre, cs = pre ++ [.continuePath (last.c2.x * xScl) (last.c2.y * yScl) z] := by
  refine ⟨onlyContinue_segmentsCalls fuel xScl yScl z curve _ cs h, ?_⟩
  rw [List.getLast?_eq_getElem?] at hlast
  obtain ⟨k, hk⟩ : ∃ k, curve.length = k + 1 := by
    cases hc : curve.length with
    | zero =>
      rw [List.getElem?_eq_none (by omega)] at hlast
      cases hlast
    | succ k => exact ⟨k, rfl⟩
  rw [hk] at h hlast
  rw [Nat.add_sub_cancel] at hlast
  rw [segmentsCalls] at h
  obtain ⟨cs0, _, h⟩ := Outcome.bind_eq_ok h
  obtain ⟨cs1, h1, h⟩ := Outcome.bind_eq_ok h
  obtain ⟨pre, hpre⟩ := segmentCalls_last fuel xScl yScl z curve k last cs1 hlast htag h1
  simp only [Outcome.ok.injEq] at h
  exact ⟨cs0 ++ pre, by rw [← h, hpre, List.append_assoc]⟩

theorem startPath_last_motion (tp : IAToolpath) (x y z : Rat) :
    ∀ a ∈ (motionsOf (tp.startPath x y z).pList).getLast?,
      a.pEnd = (tp.startPath x y z).tPrev := by
  intro a ha
  simp only [IAToolpath.startPath, motionsOf_append_motion, List.getLast?_append,
    List.getLast?_singleton, Option.or, Option.mem_def, Option.some.injEq] at ha
  subst ha
  rfl

theorem closePath_of_eq (tp : IAToolpath) (h : tp.tPrev = tp.tFirst) : tp.closePath = tp := by
  cases tp
  simp only [IAToolpath.closePath] at h ⊢
  simp [h]

theorem contour_closed (fuel : Nat) (xScl yScl z : Rat) (p : potrace_path_t)
    (last : PotraceSegment) (tp0 tp1 : IAToolpath) (hlast : p.curve.getLast? = some last)
    (htag : last.tag = .corner ∨ last.tag = .curveto)
    (hrun : potraceSegments fuel xScl yScl z p.curve
      (tp0.startPath (last.c2.x * xScl) (last.c2.y * yScl) z) = .ok tp1) :
    tp1.tFirst = ⟨last.c2.x * xScl, last.c2.y * yScl, z⟩ ∧ tp1.tPrev = tp1.tFirst ∧
    tp1.closePath = tp1 ∧
    (∃ m, (motionsOf tp1.pList).getLast? = some m ∧ m.pEnd = tp1.tFirst) ∧
    rapidCount tp1.pList = rapidCount tp0.pList + 1 := by
  rw [potraceSegments_calls] at hrun
  obtain ⟨cs, hcs, hrun⟩ := Outcome.bind_eq_ok hrun
  simp only [Outcome.ok.injEq] at hrun
  obtain ⟨honly, pre, hpre⟩ := segmentsCalls_last fuel xScl yScl z p.curve last cs hlast htag hcs
  obtain ⟨h1, h2, h3⟩ :=
    run_onlyContinue cs (tp0.startPath (last.c2.x * xScl) (last.c2.y * yScl) z) honly
  rw [hrun] at h1 h2 h3
  have hfirst : tp1.tFirst = ⟨last.c2.x * xScl, last.c2.y * yScl, z⟩ := by rw [h1]; rfl
  have hprev : tp1.tPrev = ⟨last.c2.x * xScl, last.c2.y * yScl, z⟩ := by
    rw [← hrun, hpre, run_snoc_continue]
  have hclosed : tp1.tPrev = tp1.tFirst := by rw [hfirst, hprev]
  refine ⟨hfirst, hclosed, closePath_of_eq tp1 hclosed, ?_, ?_⟩
  · have hl := h3 (startPath_last_motion tp0 _ _ _)
    have hne : motionsOf tp1.pList ≠ [] := by
      intro hnil
      have hr : rapidCount tp1.pList = 0 := by simp [rapidCount, hnil]
      rw [hr, IAToolpath.startPath, rapidCount_append_motion] at h2
      simp [IAToolpathMotion.create] at h2
    obtain ⟨m, hm⟩ : ∃ m, (motionsOf tp1.pList).getLast? = some m := by
      cases hg : (motionsOf tp1.pList).getLast? with
      | none => exact absurd (List.getLast?_eq_none_iff.mp hg) hne
      | some m => exact ⟨m, rfl⟩
    exact ⟨m, hm, by rw [hl m hm, hclosed]⟩
  · rw [h2, IAToolpath.startPath, rapidCount_append_motion]
    rfl

theorem potracePaths_cons (fuel : Nat) (xScl yScl z : Rat) (p : potrace_path_t)
    (rest : List potrace_path_t) (last : PotraceSegment) (tp0 tp1 : IAToolpath)
    (hlast : p.curve.getLast? = some last)
    (hrun : potraceSegments fuel xScl yScl z p.curve
      (tp0.startPath (last.c2.x * xScl) (last.c2.y * yScl) z) = .ok tp1) :
    potracePaths fuel xScl yScl z (p :: rest) true tp0
      = potracePaths fuel xScl yScl z rest true tp1.closePath := by
  rw [List.getLast?_eq_getElem?] at hlast
  rw [potracePaths]
  simp only [hlast, if_true, hrun, Outcome.bind_ok]

theorem corner_segments_return (fuel : Nat) (xScl yScl z : Rat) (curve : List PotraceSegment)
    (hcorner : ∀ seg ∈ curve, seg.tag = .corner) (k : Nat) (hk : k ≤ curve.length) :
    ∃ cs, segmentsCalls fuel xScl yScl z curve k = .ok cs := by
  induction k with
  | zero => exact ⟨_, rfl⟩
  | succ k ih =>
    obtain ⟨cs0, h0⟩ := ih (by omega)
    have hlt : k < curve.length := by omega
    have hget : curve[k]? = some curve[k] := List.getElem?_eq_getElem hlt
    have htag := hcorner _ (List.getElem_mem hlt)
    rw [segmentsCalls, h0, Outcome.bind_ok]
    unfold segmentCalls
    simp only [hget, htag, Outcome.bind_ok]
    exact ⟨_, rfl⟩

theorem rapidCount_contoursCalls (fuel : Nat) (xScl yScl z : Rat)
    (plist : List potrace_path_t) :
    ∀ (tp : IAToolpath) (cs : List PathCall), contoursCalls fuel xScl yScl z plist = .ok cs →
      rapidCount (tp.run cs).pList = rapidCount tp.pList + plist.length := by
  induction plist with
  | nil =>
    intro tp cs h
    simp only [contoursCalls, Outcome.ok.injEq] at h
    subst h
    rfl
  | cons p rest ih =>
    intro tp cs h
    rw [contoursCalls] at h
    obtain ⟨cs0, h0, h⟩ := Outcome.bind_eq_ok h
    obtain ⟨cs1, h1, h⟩ := Outcome.bind_eq_ok h
    simp only [Outcome.ok.injEq] at h
    subst h
    unfold contourCalls at h0
    cases hl : p.curve.getLast? with
    | none => simp only [hl] at h0; cases h0
    | some last =>
      simp only [hl] at h0
      obtain ⟨cs2, h2, h0⟩ := Outcome.bind_eq_ok h0
      simp only [Outcome.ok.injEq] at h0
      subst h0
      have honly := onlyContinue_segmentsCalls fuel xScl yScl z p.curve _ cs2 h2
      obtain ⟨_, hr, _⟩ :=
        run_onlyContinue cs2 (tp.startPath (last.c2.x * xScl) (last.c2.y * yScl) z) honly
      rw [run_append, ih _ cs1 h1, List.cons_append, run_cons, run_append, run_cons, run_nil]
      simp only [IAToolpath.call]
      have hclose : ∀ t : IAToolpath, rapidCount t.closePath.pList = rapidCount t.pList := by
        intro t
        unfold IAToolpath.closePath
        by_cases hc : t.tPrev = t.tFirst
        · simp [hc]
        · simp only [hc, not_false_eq_true, if_true, rapidCount_append_motion]
          rfl
      rw [hclose, hr, IAToolpath.startPath, rapidCount_append_motion, List.length_cons]
      simp only [IAToolpathMotion.create, if_true]
      omega

theorem potrace_returns (fuel fuel1 : Nat) (hle : fuel ≤ fuel1) (plist : List potrace_path_t)
    (xScl yScl : Rat) (toolpath : IAToolpath) (z : Rat) (cs : List PathCall)
    (h : contoursCalls fuel xScl yScl z plist = .ok cs) :
    potrace fuel1 (some plist) xScl yScl toolpath z = .ok (0, toolpath.run cs) ∧
    rapidCount (toolpath.run cs).pList = rapidCount toolpath.pList + plist.length := by
  rw [potrace_calls, contoursCalls_mono fuel fuel1 hle xScl yScl z plist cs h]
  exact ⟨rfl, rapidCount_contoursCalls fuel xScl yScl z plist toolpath cs h⟩

theorem potrace_triangle (fuel : Nat) (tp : IAToolpath) (z : Rat) :
    potrace fuel (some [triangleContour]) 1 1 tp z
      = .ok (0, tp.run [.startPath 0 0 z, .continuePath 1 0 z, .continuePath 2 0 z,
          .continuePath 2 2 z, .continuePath 1 2 z, .continuePath 0 2 z,
          .continuePath 0 0 z, .closePath]) := by
  rw [potrace_calls]
  simp [contoursCalls, contourCalls, segmentsCalls, segmentCalls, triangleContour]

/-- C21 fails on the code: on the contour of one curve segment whose control points
coincide, `potrace` never returns, whatever the depth that is allowed and whatever the
scale, the toolpath and the height are; so it issues no `closePath` for this contour and
returns no 0. -/
theorem C21_potrace_point_contour (fuel : Nat) (xScl yScl : Rat) (tp : IAToolpath) (z : Rat) :
    potrace fuel (some [pointContour]) xScl yScl tp z = .noFuel := by
  have hrange : List.range 1 = [0] := rfl
  simp only [potrace, potracePaths, pointContour, potraceSegments, potraceSegment, bezier,
    List.length_singleton, hrange, List.foldl_cons, List.foldl_nil,
    List.getElem?_cons_zero, Nat.sub_self, if_true, Outcome.bind_ok, ne_eq,
    not_true_eq_false, if_false, zero_mul, recursive_bezier_coincident,
    Outcome.bind_noFuel]

/-- C26 fails on the code: when the four control points coincide, `recursive_bezier`
does not return, whatever the depth that is allowed: the test of flatness is
`0 < 0`, and the two halves of the segment are the same four points again. So does
`bezier`. -/
theorem C26_recursive_bezier_coincident (fuel : Nat) (tp : IAToolpath) (x y z : Rat) :
    ¬ flatEnough x y x y x y x y ∧
    recursive_bezier fuel tp x y x y x y x y z = .noFuel ∧
    bezier fuel tp x y x y x y x y z = .noFuel := by
  refine ⟨not_flatEnough_coincident x y, recursive_bezier_coincident fuel tp x y z, ?_⟩
  rw [bezier, recursive_bezier_coincident]
  rfl

/-- C28: for every contour with at least one segment whose segments are all tagged
corner or curve, whenever the loop over the segments ends, so that `closePath` is
reached, the first anchor is the scaled end point of the last segment and the cursor
equals the first anchor; `closePath` then changes nothing, so the tracer goes on to the
next contour with the toolpath as the `continuePath` calls left it, and the last
Motion of that toolpath ends at the first anchor. The loop does end, for every depth
that is allowed, when all segments are corners, and a result that is reached with one
depth is reached with every larger one. -/
theorem C28_contour_closed (fuel : Nat) (xScl yScl z : Rat) (p : potrace_path_t)
    (last : PotraceSegment) (tp0 : IAToolpath) (hlast : p.curve.getLast? = some last)
    (htags : ∀ seg ∈ p.curve, seg.tag = .corner ∨ seg.tag = .curveto) :
    (∀ tp1, potraceSegments fuel xScl yScl z p.curve
        (tp0.startPath (last.c2.x * xScl) (last.c2.y * yScl) z) = .ok tp1 →
      tp1.tFirst = ⟨last.c2.x * xScl, last.c2.y * yScl, z⟩ ∧ tp1.tPrev = tp1.tFirst ∧
      tp1.closePath = tp1 ∧ tp1.closePath.pList = tp1.pList ∧
      (∃ m, (motionsOf tp1.pList).getLast? = some m ∧ m.pEnd = tp1.tFirst) ∧
      ∀ rest, potracePaths fuel xScl yScl z (p :: rest) true tp0
        = potracePaths fuel xScl yScl z rest true tp1) ∧
    ((∀ seg ∈ p.curve, seg.tag = .corner) →
      ∃ tp1, potraceSegments fuel xScl yScl z p.curve
        (tp0.startPath (last.c2.x * xScl) (last.c2.y * yScl) z) = .ok tp1) ∧
    (∀ fuel1 tp1, fuel ≤ fuel1 →
      potraceSegments fuel xScl yScl z p.curve
        (tp0.startPath (last.c2.x * xScl) (last.c2.y * yScl) z) = .ok tp1 →
      potraceSegments fuel1 xScl yScl z p.curve
        (tp0.startPath (last.c2.x * xScl) (last.c2.y * yScl) z) = .ok tp1) := by
  have htag : last.tag = .corner ∨ last.tag = .curveto :=
    htags last (List.mem_of_getLast?_eq_some hlast)
  refine ⟨fun tp1 hrun => ?_, fun hcorner => ?_, fun fuel1 tp1 hle hrun => ?_⟩
  · obtain ⟨h1, h2, h3, h4, _⟩ := contour_closed fuel xScl yScl z p last tp0 tp1 hlast htag hrun
    refine ⟨h1, h2, h3, by rw [h3], h4, fun rest => ?_⟩
    rw [potracePaths_cons fuel xScl yScl z p rest last tp0 tp1 hlast hrun, h3]
  · obtain ⟨cs, hcs⟩ :=
      corner_segments_return fuel xScl yScl z p.curve hcorner p.curve.length (le_refl _)
    rw [potraceSegments_calls, hcs]
    exact ⟨_, rfl⟩
  · rw [potraceSegments_calls] at hrun ⊢
    obtain ⟨cs, hcs, hrun⟩ := Outcome.bind_eq_ok hrun
    rw [segmentsCalls_mono fuel fuel1 hle xScl yScl z p.curve _ cs hcs]
    exact hrun

theorem curveContour_segments :
    potraceSegments 1 1 1 0 curveContour.curve ((IAToolpath.new 0).startPath (3 * 1) (0 * 1) 0)
      = .ok ((IAToolpath.new 0).run [.startPath 3 0 0, .continuePath 3 3 0,
          .continuePath 0 0 0, .continuePath (3 / 2) 0 0, .continuePath 3 0 0]) := by
  rw [potraceSegments_calls]
  have hflat : flatEnough 0 0 1 0 2 0 3 0 := by decide!
  simp [segmentsCalls, segmentCalls, curveContour, subdivisionPoints, hflat, IAToolpath.run,
    IAToolpath.call]
  norm_num

/-- C28 for a contour of a corner and a curve segment, traced at scale 1 and height 0
into a fresh toolpath: after the segments the cursor is at the anchor `(3, 0, 0)`, and
`closePath` appends nothing to the five Motions. -/
theorem C28_contour_closed_witness :
    ((IAToolpath.new 0).run [.startPath 3 0 0, .continuePath 3 3 0, .continuePath 0 0 0,
        .continuePath (3 / 2) 0 0, .continuePath 3 0 0]).tPrev
      = ((IAToolpath.new 0).run [.startPath 3 0 0, .continuePath 3 3 0, .continuePath 0 0 0,
        .continuePath (3 / 2) 0 0, .continuePath 3 0 0]).tFirst ∧
    ((IAToolpath.new 0).run [.startPath 3 0 0, .continuePath 3 3 0, .continuePath 0 0 0,
        .continuePath (3 / 2) 0 0, .continuePath 3 0 0]).closePath.pList
      = ((IAToolpath.new 0).run [.startPath 3 0 0, .continuePath 3 3 0, .continuePath 0 0 0,
        .continuePath (3 / 2) 0 0, .continuePath 3 0 0]).pList :=
  have h := (C28_contour_closed 1 1 1 0 curveContour ⟨.curveto, ⟨1, 0⟩, ⟨2, 0⟩, ⟨3, 0⟩⟩
    (IAToolpath.new 0) rfl (by decide)).1 _ curveContour_segments
  ⟨h.2.1, h.2.2.2.1⟩

theorem flatEnough_computed (x1 y1 x2 y2 x3 y3 x4 y4 : Rat)
    (h : flatEnough x1 y1 x2 y2 x3 y3 x4 y4) :
    fl (chordDeviation x2 y2 x4 y4 (fl (x4 - x1)) (fl (y4 - y1))
        + chordDeviation x3 y3 x4 y4 (fl (x4 - x1)) (fl (y4 - y1))) ^ 2
      < fl (1 / 10)
        * fl (fl (fl (x4 - x1) * fl (x4 - x1)) + fl (fl (y4 - y1) * fl (y4 - y1))) := by
  unfold flatEnough m_distance_tolerance at h
  simp only at h
  rw [pow_two]
  apply lt_of_fl_lt _ _ _ h
  exact mul_nonneg (le_of_lt fl_tenth_pos)
    (fl_nonneg _ (add_nonneg (fl_nonneg _ (mul_self_nonneg _)) (fl_nonneg _ (mul_self_nonneg _))))

theorem flatEnough_grid (x1 y1 x2 y2 x3 y3 x4 y4 : Rat) (e : Int) (he : -537 ≤ e)
    (g1 : OnGrid e (2 ^ 24) x1) (k1 : OnGrid e (2 ^ 24) y1)
    (g2 : OnGrid e (2 ^ 24) x2) (k2 : OnGrid e (2 ^ 24) y2)
    (g3 : OnGrid e (2 ^ 24) x3) (k3 : OnGrid e (2 ^ 24) y3)
    (g4 : OnGrid e (2 ^ 24) x4) (k4 : OnGrid e (2 ^ 24) y4)
    (h : flatEnough x1 y1 x2 y2 x3 y3 x4 y4) :
    0 < (x4 - x1) ^ 2 + (y4 - y1) ^ 2 ∧
    distSqToChord x2 y2 x1 y1 x4 y4 < fl (1 / 10) ∧
    distSqToChord x3 y3 x1 y1 x4 y4 < fl (1 / 10) := by
  have hcomp := flatEnough_computed x1 y1 x2 y2 x3 y3 x4 y4 h
  have he1 : (-1074 : Int) ≤ e := by omega
  have he2 : (-1074 : Int) ≤ e + e := by omega
  -- the differences
  have gdx := onGrid_sub e _ _ _ _ g4 g1
  have gdy := onGrid_sub e _ _ _ _ k4 k1
  have gu2 := onGrid_sub e _ _ _ _ g2 g4
  have gv2 := onGrid_sub e _ _ _ _ k2 k4
  have gu3 := onGrid_sub e _ _ _ _ g3 g4
  have gv3 := onGrid_sub e _ _ _ _ k3 k4
  have edx : fl (x4 - x1) = x4 - x1 := fl_onGrid e _ _ gdx (by norm_num) he1
  have edy : fl (y4 - y1) = y4 - y1 := fl_onGrid e _ _ gdy (by norm_num) he1
  have eu2 : fl (x2 - x4) = x2 - x4 := fl_onGrid e _ _ gu2 (by norm_num) he1
  have ev2 : fl (y2 - y4) = y2 - y4 := fl_onGrid e _ _ gv2 (by norm_num) he1
  have eu3 : fl (x3 - x4) = x3 - x4 := fl_onGrid e _ _ gu3 (by norm_num) he1
  have ev3 : fl (y3 - y4) = y3 - y4 := fl_onGrid e _ _ gv3 (by norm_num) he1
  -- the products
  have gp2 := onGrid_mul e e _ _ _ _ gu2 gdy
  have gq2 := onGrid_mul e e _ _ _ _ gv2 gdx
  have gp3 := onGrid_mul e e _ _ _ _ gu3 gdy
  have gq3 := onGrid_mul e e _ _ _ _ gv3 gdx
  have gxx := onGrid_mul e e _ _ _ _ gdx gdx
  have gyy := onGrid_mul e e _ _ _ _ gdy gdy
  have ep2 := fl_onGrid (e + e) _ _ gp2 (by norm_num) he2
  have eq2 := fl_onGrid (e + e) _ _ gq2 (by norm_num) he2
  have ep3 := fl_onGrid (e + e) _ _ gp3 (by norm_num) he2
  have eq3 := fl_onGrid (e + e) _ _ gq3 (by norm_num) he2
  have exx := fl_onGrid (e + e) _ _ gxx (by norm_num) he2
  have eyy := fl_onGrid (e + e) _ _ gyy (by norm_num) he2
  -- the cross products and the sums
  have gc2 := onGrid_sub (e + e) _ _ _ _ gp2 gq2
  have gc3 := onGrid_sub (e + e) _ _ _ _ gp3 gq3
  have ec2 := fl_onGrid (e + e) _ _ gc2 (by norm_num) he2
  have ec3 := fl_onGrid (e + e) _ _ gc3 (by norm_num) he2
  have gs := onGrid_add (e + e) _ _ _ _ (onGrid_abs _ _ _ gc2) (onGrid_abs _ _ _ gc3)
  have es := fl_onGrid (e + e) _ _ gs (by norm_num) he2
  have gl := onGrid_add (e + e) _ _ _ _ gxx gyy
  have el := fl_onGrid (e + e) _ _ gl (by norm_num) he2
  unfold chordDeviation at hcomp
  rw [edx, edy, eu2, ev2, eu3, ev3, ep2, eq2, ep3, eq3, ec2, ec3, es, exx, eyy, el] at hcomp
  -- the exact comparison
  have h2 := abs_nonneg ((x2 - x4) * (y4 - y1) - (y2 - y4) * (x4 - x1))
  have h3 := abs_nonneg ((x3 - x4) * (y4 - y1) - (y3 - y4) * (x4 - x1))
  have hL : (x4 - x1) * (x4 - x1) + (y4 - y1) * (y4 - y1)
      = (x4 - x1) ^ 2 + (y4 - y1) ^ 2 := by ring
  rw [hL] at hcomp
  have ht := fl_tenth_pos
  have hL0 : 0 ≤ (x4 - x1) ^ 2 + (y4 - y1) ^ 2 := by positivity
  have hpos : 0 < (x4 - x1) ^ 2 + (y4 - y1) ^ 2 := by
    rcases eq_or_lt_of_le hL0 with h0 | h0
    · rw [← h0, mul_zero] at hcomp
      exact absurd hcomp (not_lt.mpr (sq_nonneg _))
    · exact h0
  have e2 : ((x2 - x4) * (y4 - y1) - (y2 - y4) * (x4 - x1)) ^ 2
      = |(x2 - x4) * (y4 - y1) - (y2 - y4) * (x4 - x1)| ^ 2 := (sq_abs _).symm
  have e3 : ((x3 - x4) * (y4 - y1) - (y3 - y4) * (x4 - x1)) ^ 2
      = |(x3 - x4) * (y4 - y1) - (y3 - y4) * (x4 - x1)| ^ 2 := (sq_abs _).symm
  have key2 : |(x2 - x4) * (y4 - y1) - (y2 - y4) * (x4 - x1)| ^ 2
      ≤ (|(x2 - x4) * (y4 - y1) - (y2 - y4) * (x4 - x1)|
          + |(x3 - x4) * (y4 - y1) - (y3 - y4) * (x4 - x1)|) ^ 2 := by
    nlinarith only [h2, h3, mul_nonneg h2 h3, mul_nonneg h3 h3]
  have key3 : |(x3 - x4) * (y4 - y1) - (y3 - y4) * (x4 - x1)| ^ 2
      ≤ (|(x2 - x4) * (y4 - y1) - (y2 - y4) * (x4 - x1)|
          + |(x3 - x4) * (y4 - y1) - (y3 - y4) * (x4 - x1)|) ^ 2 := by
    nlinarith only [h2, h3, mul_nonneg h2 h3, mul_nonneg h2 h2]
  refine ⟨hpos, ?_, ?_⟩
  · unfold distSqToChord
    rw [div_lt_iff₀ hpos, e2]
    exact lt_of_le_of_lt key2 hcomp
  · unfold distSqToChord
    rw [div_lt_iff₀ hpos, e3]
    exact lt_of_le_of_lt key3 hcomp

theorem recursive_bezier_flat (fuel : Nat) (tp : IAToolpath)
    (x1 y1 x2 y2 x3 y3 x4 y4 z : Rat) (h : flatEnough x1 y1 x2 y2 x3 y3 x4 y4) :
    recursive_bezier (fuel + 1) tp x1 y1 x2 y2 x3 y3 x4 y4 z
      = .ok (tp.continuePath
          ((((x1 + x2) / 2 + (x2 + x3) / 2) / 2 + ((x2 + x3) / 2 + (x3 + x4) / 2) / 2) / 2)
          ((((y1 + y2) / 2 + (y2 + y3) / 2) / 2 + ((y2 + y3) / 2 + (y3 + y4) / 2) / 2) / 2)
          z) := by
  simp only [recursive_bezier, if_pos h]

theorem recursive_bezier_not_flat (fuel : Nat) (tp : IAToolpath)
    (x1 y1 x2 y2 x3 y3 x4 y4 z : Rat) (h : ¬ flatEnough x1 y1 x2 y2 x3 y3 x4 y4) :
    recursive_bezier (fuel + 1) tp x1 y1 x2 y2 x3 y3 x4 y4 z
      = (recursive_bezier fuel tp x1 y1 ((x1 + x2) / 2) ((y1 + y2) / 2)
          (((x1 + x2) / 2 + (x2 + x3) / 2) / 2) (((y1 + y2) / 2 + (y2 + y3) / 2) / 2)
          ((((x1 + x2) / 2 + (x2 + x3) / 2) / 2 + ((x2 + x3) / 2 + (x3 + x4) / 2) / 2) / 2)
          ((((y1 + y2) / 2 + (y2 + y3) / 2) / 2 + ((y2 + y3) / 2 + (y3 + y4) / 2) / 2) / 2)
          z).bind fun tp1 =>
        recursive_bezier fuel tp1
          ((((x1 + x2) / 2 + (x2 + x3) / 2) / 2 + ((x2 + x3) / 2 + (x3 + x4) / 2) / 2) / 2)
          ((((y1 + y2) / 2 + (y2 + y3) / 2) / 2 + ((y2 + y3) / 2 + (y3 + y4) / 2) / 2) / 2)
          (((x2 + x3) / 2 + (x3 + x4) / 2) / 2) (((y2 + y3) / 2 + (y3 + y4) / 2) / 2)
          ((x3 + x4) / 2) ((y3 + y4) / 2) x4 y4 z := by
  simp only [recursive_bezier, if_neg h]

/-- C22, as stated, fails: the segment from `(0, 0)` to `(1, 0)` with the inner control
points `(1/2, 1/4)` and `(1/2, 0)`, all of them values of type `double` on which the
arithmetic of the test is exact, has a chord of length 1 and is accepted as flat; one
point, `(1/2, 3/32)`, is emitted for it; and its first inner control point is at
distance `1/4` from the chord line, which is more than `1/10`. -/
theorem C22_flatness_counterexample :
    flatEnough 0 0 (1 / 2) (1 / 4) (1 / 2) 0 1 0 ∧
    recursive_bezier 1 (IAToolpath.new 0) 0 0 (1 / 2) (1 / 4) (1 / 2) 0 1 0 0
      = .ok ((IAToolpath.new 0).continuePath (1 / 2) (3 / 32) 0) ∧
    distSqToChord (1 / 2) (1 / 4) 0 0 1 0 = (1 / 4) ^ 2 ∧
    ¬ distSqToChord (1 / 2) (1 / 4) 0 0 1 0 ≤ (1 / 10) ^ 2 := by
  have hflat : flatEnough 0 0 (1 / 2) (1 / 4) (1 / 2) 0 1 0 := by decide!
  refine ⟨hflat, ?_, ?_, ?_⟩
  · rw [recursive_bezier_flat 0 _ _ _ _ _ _ _ _ _ _ hflat]
    norm_num
  · norm_num [distSqToChord]
  · norm_num [distSqToChord]

/-- C22, amended: `recursive_bezier` emits one point for a segment and stops
subdividing it when the test `(d2 + d3)*(d2 + d3) < 0.1 * (dx*dx + dy*dy)` holds of the
values that the machine computes, each operation rounded to a `double` and `0.1` the
`double` next to 1/10; else it calls itself. Whenever a segment is accepted, the
computed sum of `d2` and `d3`, squared exactly, is below that constant times the
computed `dx*dx + dy*dy`. When the eight coordinates are multiples of one power of two
`2^e`, `e` from -537 to 200, by integers of at most 24 bits, so that every operation
before the comparison is exact and nothing overflows, an accepted segment has a chord
that is not zero, and the
squared distance of each inner control point from the chord line is below that
constant: each inner control point is within about `0.316` units of the chord
line. -/
theorem C22_flatness (x1 y1 x2 y2 x3 y3 x4 y4 : Rat) :
    (flatEnough x1 y1 x2 y2 x3 y3 x4 y4 → ∀ (fuel : Nat) (tp : IAToolpath) (z : Rat),
      ∃ px py : Rat, recursive_bezier (fuel + 1) tp x1 y1 x2 y2 x3 y3 x4 y4 z
        = .ok (tp.continuePath px py z)) ∧
    (¬ flatEnough x1 y1 x2 y2 x3 y3 x4 y4 → ∀ (tp : IAToolpath) (z : Rat),
      recursive_bezier 1 tp x1 y1 x2 y2 x3 y3 x4 y4 z = .noFuel) ∧
    (flatEnough x1 y1 x2 y2 x3 y3 x4 y4 →
      fl (chordDeviation x2 y2 x4 y4 (fl (x4 - x1)) (fl (y4 - y1))
          + chordDeviation x3 y3 x4 y4 (fl (x4 - x1)) (fl (y4 - y1))) ^ 2
        < fl (1 / 10)
          * fl (fl (fl (x4 - x1) * fl (x4 - x1)) + fl (fl (y4 - y1) * fl (y4 - y1)))) ∧
    (∀ e : Int, -537 ≤ e → e ≤ 200 →
      OnGrid e (2 ^ 24) x1 → OnGrid e (2 ^ 24) y1 → OnGrid e (2 ^ 24) x2 →
      OnGrid e (2 ^ 24) y2 → OnGrid e (2 ^ 24) x3 → OnGrid e (2 ^ 24) y3 →
      OnGrid e (2 ^ 24) x4 → OnGrid e (2 ^ 24) y4 →
      flatEnough x1 y1 x2 y2 x3 y3 x4 y4 →
        0 < (x4 - x1) ^ 2 + (y4 - y1) ^ 2 ∧
        distSqToChord x2 y2 x1 y1 x4 y4 < fl (1 / 10) ∧
        distSqToChord x3 y3 x1 y1 x4 y4 < fl (1 / 10)) ∧
    fl (1 / 10) = 3602879701896397 / 36028797018963968 := by
  refine ⟨fun h fuel tp z => ⟨_, _, recursive_bezier_flat fuel tp x1 y1 x2 y2 x3 y3 x4 y4 z h⟩,
    fun h tp z => ?_, flatEnough_computed x1 y1 x2 y2 x3 y3 x4 y4,
    fun e he _ g1 k1 g2 k2 g3 k3 g4 k4 h =>
      flatEnough_grid x1 y1 x2 y2 x3 y3 x4 y4 e he g1 k1 g2 k2 g3 k3 g4 k4 h,
    fl_tenth⟩
  rw [recursive_bezier_not_flat 0 tp x1 y1 x2 y2 x3 y3 x4 y4 z h]
  rfl

/-- C22, amended, for the segment from `(0, 0)` to `(3, 4)` with the inner control points
`(1, 1)` and `(3, 4)`, whose coordinates are integers: it is accepted, one point is
emitted, and the first inner control point is at the squared distance `1/25` from the
chord line. -/
theorem C22_flatness_witness :
    flatEnough 0 0 1 1 3 4 3 4 ∧
    (∃ px py : Rat, recursive_bezier 1 (IAToolpath.new 0) 0 0 1 1 3 4 3 4 0
      = .ok ((IAToolpath.new 0).continuePath px py 0)) ∧
    (0 < ((3 : Rat) - 0) ^ 2 + ((4 : Rat) - 0) ^ 2 ∧
      distSqToChord 1 1 0 0 3 4 < fl (1 / 10) ∧ distSqToChord 3 4 0 0 3 4 < fl (1 / 10)) ∧
    distSqToChord 1 1 0 0 3 4 = 1 / 25 :=
  have hflat : flatEnough 0 0 1 1 3 4 3 4 := by decide!
  ⟨hflat, (C22_flatness 0 0 1 1 3 4 3 4).1 hflat 0 (IAToolpath.new 0) 0,
   (C22_flatness 0 0 1 1 3 4 3 4).2.2.2.1 0 (by norm_num) (by norm_num)
      ⟨0, by norm_num, by norm_num⟩ ⟨0, by norm_num, by norm_num⟩
      ⟨1, by norm_num, by norm_num⟩ ⟨1, by norm_num, by norm_num⟩
      ⟨3, by norm_num, by norm_num⟩ ⟨4, by norm_num, by norm_num⟩
      ⟨3, by norm_num, by norm_num⟩ ⟨4, by norm_num, by norm_num⟩ hflat,
   by norm_num [distSqToChord]⟩

/-- A segment whose start point equals its end point while the inner control points
differ from it is subdivided once, and both halves are accepted. -/
theorem recursive_bezier_closed_example (tp : IAToolpath) (z : Rat) :
    recursive_bezier 2 tp 0 0 1 0 1 0 0 0 z
      = .ok ((tp.continuePath (9 / 16) 0 z).continuePath (9 / 16) 0 z) := by
  have h0 : ¬ flatEnough 0 0 1 0 1 0 0 0 := by decide!
  have h1 : flatEnough 0 0 (1 / 2) 0 (3 / 4) 0 (3 / 4) 0 := by decide!
  have h2 : flatEnough (3 / 4) 0 (3 / 4) 0 (1 / 2) 0 0 0 := by decide!
  rw [recursive_bezier_not_flat 1 tp _ _ _ _ _ _ _ _ _ h0]
  norm_num
  rw [recursive_bezier_flat 0 tp _ _ _ _ _ _ _ _ _ h1, Outcome.bind_ok,
    recursive_bezier_flat 0 _ _ _ _ _ _ _ _ _ _ h2]
  norm_num

/-! ## Theorems: colour segmentation -/

theorem forSteps_step {σ : Type} (len : Rat) (body : Rat → σ → σ) (i : Rat) (s : σ)
    (h : i < len) : forSteps len body i s = forSteps len body (i + 1 / 10) (body i s) := by
  rw [forSteps, if_pos h]

theorem forSteps_stop {σ : Type} (len : Rat) (body : Rat → σ → σ) (i : Rat) (s : σ)
    (h : ¬ i < len) : forSteps len body i s = s := by
  rw [forSteps, if_neg h]

theorem forSteps_inv {σ : Type} (len : Rat) (body : Rat → σ → σ) (Inv : σ → Prop)
    (hstep : ∀ i s, i < len → Inv s → Inv (body i s)) (i : Rat) (s : σ) (h : Inv s) :
    Inv (forSteps len body i s) := by
  induction i, s using forSteps.induct len body with
  | case1 i s hlt ih =>
    rw [forSteps_step len body i s hlt]
    exact ih (hstep i s hlt h)
  | case2 i s hnlt =>
    rw [forSteps_stop len body i s hnlt]
    exact h

theorem differ_self (c : Nat) : differ c c = false := by
  simp [differ]

theorem colorizeSoftMotion_eq (length : IAVector3d → Rat) (rgb : Int → Nat)
    (m : IAToolpathMotion) :
    colorizeSoftMotion length rgb m
      = if m.pStart ≠ m.pEnd then
          [{ pStart := m.pStart, pEnd := m.pEnd, pIsRapid := false,
             pColor := some (getRGB rgb m.pStart) }]
        else [] := by
  have h := forSteps_inv (length (m.pEnd.sub m.pStart))
    (colorizeSoftStep rgb m.pStart (m.pEnd.sub m.pStart) (length (m.pEnd.sub m.pStart)))
    (fun s => s = ⟨m.pStart, getRGB rgb m.pStart, []⟩)
    (fun i s _ hs => by
      subst hs
      simp only [colorizeSoftStep, differ_self, Bool.false_eq_true, if_false])
    (1 / 10) _ rfl
  unfold colorizeSoftMotion
  simp only [h]
  rfl

theorem pixelOffset_first_row (x z : Rat) (k : Int) (h0 : 0 ≤ k)
    (h1 : (k : Rat) ≤ x * (1024 / 214)) (h2 : x * (1024 / 214) < (k : Rat) + 1) :
    pixelOffset ⟨x, 0, z⟩ = k * 3 := by
  have hk : (0 : Rat) ≤ (k : Rat) := by exact_mod_cast h0
  have hx : truncToInt (x * (1024 / 214)) = k := by
    rw [truncToInt_of_nonneg _ (le_trans hk h1), Int.floor_eq_iff]
    exact ⟨h1, h2⟩
  have hy : truncToInt ((0 : Rat) * (1024 / 214)) = 0 := by
    rw [zero_mul, truncToInt_of_nonneg _ (le_refl _), Int.floor_zero]
  simp only [pixelOffset, IAVector3d.scale, hx, hy, mul_zero, add_zero]

theorem pixelOffset_example :
    pixelOffset ⟨0, 0, 0⟩ = 0 ∧ pixelOffset ⟨200, 0, 0⟩ = 2871 :=
  ⟨pixelOffset_first_row 0 0 0 (le_refl _) (by norm_num) (by norm_num),
   pixelOffset_first_row 200 0 957 (by norm_num) (by norm_num) (by norm_num)⟩

/-- C24 fails on the code: on an image that is red in the pixel columns below 512 and
blue in the others, the Motion from `(0, 0, 0)` to `(200, 0, 0)` starts in the red
region and ends in the blue one, and the two colours differ; but `colorizeSoft` samples
the image only at the start of the Motion, so it pushes the whole Motion as one
sub-segment with the colour tag red, whatever `length` returns. -/
theorem C24_colorizeSoft_red_blue (length : IAVector3d → Rat) :
    getRGB redBlueImage ⟨0, 0, 0⟩ = 0xFF0000 ∧ getRGB redBlueImage ⟨200, 0, 0⟩ = 0x0000FF ∧
    differ 0x0000FF 0xFF0000 = true ∧
    colorizeSoftMotion length redBlueImage ⟨⟨0, 0, 0⟩, ⟨200, 0, 0⟩, false, none⟩
      = [⟨⟨0, 0, 0⟩, ⟨200, 0, 0⟩, false, some 0xFF0000⟩] ∧
    (IAToolpath.colorizeSoft
        ⟨[.motion ⟨⟨0, 0, 0⟩, ⟨200, 0, 0⟩, false, none⟩], ⟨0, 0, 0⟩, ⟨200, 0, 0⟩⟩
        length redBlueImage (IAToolpath.new 0)).pList
      = [.motion ⟨⟨0, 0, 0⟩, ⟨200, 0, 0⟩, false, some 0xFF0000⟩] := by
  have h0 : getRGB redBlueImage ⟨0, 0, 0⟩ = 0xFF0000 := by
    simp only [getRGB, pixelOffset_example.1]
    decide
  have h1 : getRGB redBlueImage ⟨200, 0, 0⟩ = 0x0000FF := by
    simp only [getRGB, pixelOffset_example.2]
    decide
  have h2 : colorizeSoftMotion length redBlueImage ⟨⟨0, 0, 0⟩, ⟨200, 0, 0⟩, false, none⟩
      = [⟨⟨0, 0, 0⟩, ⟨200, 0, 0⟩, false, some 0xFF0000⟩] := by
    rw [colorizeSoftMotion_eq, h0, if_pos (by decide)]
  refine ⟨h0, h1, by decide, h2, ?_⟩
  simp only [IAToolpath.colorizeSoft, List.flatMap_cons, List.flatMap_nil, h2,
    Bool.false_eq_true, not_false_eq_true, if_true, IAToolpath.new, List.nil_append,
    List.map_cons, List.map_nil, List.append_nil]

/-! ## Examples for the wipe pattern and for the colour segmentation -/

theorem wipe_member :
    ((false, (120 : Rat), (21 / 2 : Rat)) : Bool × Rat × Rat)
      ∈ xyMoves (emitted (fun w => IAToolpathExtruder.saveGCode ⟨1⟩ w) IAGcodeWriter.new) := by
  rw [extruder_xyMoves]
  simp [wipePattern, wipeOffset]
  norm_num

/-- C27 for a change to tool 1: the moves are the wipe pattern at x offset 100, and the
move to `(120, 21/2)` is one of them. -/
theorem C27_wipe_pattern_witness :
    xyMoves (emitted (fun w => IAToolpathExtruder.saveGCode ⟨1⟩ w) IAGcodeWriter.new)
      = wipePattern (wipeOffset 1) ∧
    (((120 : Rat) = wipeOffset 1 ∨ (120 : Rat) = wipeOffset 1 + 20) ∧
      (10 : Rat) ≤ 21 / 2 ∧ (21 / 2 : Rat) ≤ 14) :=
  ⟨(C27_wipe_pattern ⟨1⟩ IAGcodeWriter.new).2.1,
   (C27_wipe_pattern ⟨1⟩ IAGcodeWriter.new).2.2.2.2.2.1 _ wipe_member⟩

/-- For a contour of a corner and a curve segment with different points `potrace` does
not return either when the scale factors are 0 (a build volume of size 0): all scaled
control points coincide. -/
theorem potrace_scale_zero (fuel : Nat) (tp : IAToolpath) (z : Rat) :
    potrace fuel (some [curveContour]) 0 0 tp z = .noFuel := by
  have hrange : List.range 2 = [0, 1] := rfl
  simp only [potrace, potracePaths, curveContour, potraceSegments, potraceSegment, bezier,
    List.length_cons, List.length_nil, hrange, List.foldl_cons, List.foldl_nil,
    List.getElem?_cons_zero, List.getElem?_cons_succ, Nat.reduceAdd, Nat.reduceSub,
    if_true, Outcome.bind_ok, ne_eq, one_ne_zero, not_false_eq_true,
    not_true_eq_false, if_false, mul_zero, recursive_bezier_coincident,
    Outcome.bind_noFuel]

/-! ## Theorems: the sub-segments of `colorize` -/

end Iota
